import Mathlib

/-!
# Reverse-mode tape interpreter (CppAD reverse sweep), shallow embedding

This file embeds the two reverse-sweep entry points of
`src/TMB/inst/include/cppad/local/reverse_sweep.hpp`:

* `ReverseSweep`   — the full backward tape traversal (cursor based, with a
  dead-code skip mask `cskip_op` and the load-indirection map `var_by_load_op`);
* `myReverseSweep` — the selective traversal over a precomputed marked-operator
  list (`op_mark_index_` / `tp_`), sharing the per-opcode rules.

The per-opcode rule bodies (`reverse_addvv_op`, `reverse_mulvv_op`,
`reverse_csum_op`, `reverse_load_op`, ...) and the player's traversal
primitives (`reverse_start`, `reverse_next`, `reverse_csum`, `reverse_cskip`)
live in repository headers that are not part of the extracted sources; they are
modelled from the specification (each such definition carries a doc comment
saying so).  The sweep drivers themselves are translated from the source file.

The base type is `ℚ` (the sweeps are algebraic in the `Base` field operations).
Opcodes are restricted to a representative closed subset that covers every
construct the claims mention: markers, independent variables, binary
arithmetic, the variable-arity `CSumOp`/`CSkipOp`, indirect loads, and the
five atomic-protocol opcodes.
-/

namespace RevSweep

/-- Opcode tags, named as in the source dispatch switch. -/
inductive OpCode where
  | BeginOp | InvOp | AddvvOp | MulvvOp | CSumOp | CSkipOp
  | LdpOp | LdvOp
  | UserOp | UsrapOp | UsravOp | UsrrpOp | UsrrvOp
  | EndOp
deriving DecidableEq, Repr

open OpCode

/-- Modelled from the spec: the player's fixed argument-count table consumed by
`reverse_next` (the table itself is in a header outside the extracted sources).
Per the source comments at the `CSkipOp`/`CSumOp` cases, the table reports one
argument for the two variable-arity opcodes ("reverse_next thinks it one has
one argument"), so the dedicated advance primitive must supply the rest. -/
def NumArg : OpCode → Nat
  | BeginOp => 1
  | InvOp   => 0
  | AddvvOp => 2
  | MulvvOp => 2
  | CSumOp  => 1
  | CSkipOp => 1
  | LdpOp   => 3
  | LdvOp   => 3
  | UserOp  => 4
  | UsrapOp => 1
  | UsravOp => 1
  | UsrrpOp => 1
  | UsrrvOp => 0
  | EndOp   => 0

/-- Modelled from the spec: result-variable counts per opcode (tape data model:
each record "implicitly produces zero or more result variables at consecutive
indices"). -/
def NumRes : OpCode → Nat
  | BeginOp => 1
  | InvOp   => 1
  | AddvvOp => 1
  | MulvvOp => 1
  | CSumOp  => 1
  | CSkipOp => 0
  | LdpOp   => 1
  | LdvOp   => 1
  | UserOp  => 0
  | UsrapOp => 0
  | UsravOp => 0
  | UsrrpOp => 0
  | UsrrvOp => 1
  | EndOp   => 0

/-- Modelled from the spec: an atomic-operation callback handle
(`atomic_base<Base>` / `user_atomic<Base>`, outside the extracted sources).
`rev q tx ty py` returns the argument adjoints `px`, or `none` when the
callback reports failure. -/
structure Atom where
  rev : Nat → (Nat → ℚ) → (Nat → ℚ) → (Nat → ℚ) → Option (Nat → ℚ)

/-- Read-only context of one sweep: the differentiation order, the Taylor
coefficient matrix, the parameter vector, the callback registry with its
name table, and the load-indirection map `var_by_load_op`. -/
structure Ctx where
  d : Nat
  taylor : Nat → Nat → ℚ
  par : Nat → ℚ
  reg : Nat → Option Atom
  atomName : Nat → String
  ldmap : Nat → Nat

/-- The `user_state` enumeration of the atomic protocol
(`user_start, user_arg, user_ret, user_end` in the source). -/
inductive UState where
  | uStart | uArg | uRet | uEnd
deriving DecidableEq, Repr

/-- Observable sweep events: invocations of the dedicated variable-arity
cursor advances (`reverse_cskip` / `reverse_csum`) and of atomic callbacks. -/
inductive Event where
  | cskipAdv (iop : Nat)
  | csumAdv (iop : Nat)
  | cbInvoke (idx id k : Nat)
deriving DecidableEq, Repr

/-- Mutable sweep state: the Adjoint Matrix `Partial` (row, order) plus the
atomic-protocol scratch (`user_*` locals of the source), and the event log. -/
structure St where
  adj : Nat → Nat → ℚ
  ustate : UState
  uix : Nat → Nat
  utx : Nat → ℚ
  uty : Nat → ℚ
  upx : Nat → ℚ
  upy : Nat → ℚ
  uindex : Nat
  uid : Nat
  un : Nat
  um : Nat
  ui : Nat
  uj : Nat
  events : List Event

/-- Initial sweep state over a seeded Adjoint Matrix: protocol in `user_end`,
scratch zeroed. -/
def mkSt (P : Nat → Nat → ℚ) : St :=
  { adj := P, ustate := .uEnd, uix := fun _ => 0, utx := fun _ => 0
  , uty := fun _ => 0, upx := fun _ => 0, upy := fun _ => 0
  , uindex := 0, uid := 0, un := 0, um := 0, ui := 0, uj := 0, events := [] }

/-- Pointwise update of a one-index buffer. -/
def upd1 {α : Type} (f : Nat → α) (i : Nat) (x : α) : Nat → α :=
  fun i' => if i' = i then x else f i'

/-- Pointwise update of a matrix entry. -/
def upd2 (f : Nat → Nat → ℚ) (i k : Nat) (x : ℚ) : Nat → Nat → ℚ :=
  fun i' k' => if i' = i ∧ k' = k then x else f i' k'

/-- `Partial[i*K+k] += x`, the basic adjoint accumulation. -/
def padd (f : Nat → Nat → ℚ) (i k : Nat) (x : ℚ) : Nat → Nat → ℚ :=
  upd2 f i k (f i k + x)

/-- Modelled from the spec: `reverse_addvv_op` (add_op.hpp, outside the
extracted sources) — "direct addition ... for add": the result's adjoint row
is added into both operands' adjoint rows for every order `0..d`. -/
def reverse_addvv_op (d iz a0 a1 : Nat) (P : Nat → Nat → ℚ) : Nat → Nat → ℚ :=
  (List.range (d+1)).foldl (fun P k =>
    let P1 := padd P a0 k (P iz k)
    padd P1 a1 k (P1 iz k)) P

/-- Modelled from the spec: `reverse_mulvv_op` (mul_op.hpp, outside the
extracted sources) — "the standard order-by-order Cauchy-product convolution
for multiplication": for orders `j = d..0` and `k ≤ j`,
`px[k] += pz[j]*y[j-k]` and `py[k] += pz[j]*x[j-k]`. -/
def reverse_mulvv_op (d iz a0 a1 : Nat) (ty : Nat → Nat → ℚ)
    (P : Nat → Nat → ℚ) : Nat → Nat → ℚ :=
  ((List.range (d+1)).reverse).foldl (fun P j =>
    (List.range (j+1)).foldl (fun P k =>
      let P1 := padd P a0 k (P iz j * ty a1 (j - k))
      padd P1 a1 k (P1 iz j * ty a0 (j - k))) P) P

/-- Modelled from the spec: `reverse_csum_op` (csum_op.hpp, outside the
extracted sources) — "`CSum`'s rule distributes its result adjoint across an
arbitrary number of operand terms with signs recorded in the instruction".
Argument layout: `arg[0]` = number of addition terms, `arg[1]` = number of
subtraction terms, `arg[2]` = parameter index, terms from `arg[3]` on. -/
def reverse_csum_op (d iz : Nat) (argAt : Nat → ℤ)
    (P : Nat → Nat → ℚ) : Nat → Nat → ℚ :=
  let nadd := (argAt 0).toNat
  let nsub := (argAt 1).toNat
  let P1 := (List.range nadd).foldl (fun P i =>
    (List.range (d+1)).foldl (fun P k =>
      padd P (argAt (3+i)).toNat k (P iz k)) P) P
  (List.range nsub).foldl (fun P i =>
    (List.range (d+1)).foldl (fun P k =>
      padd P (argAt (3+nadd+i)).toNat k (-(P iz k))) P) P1

/-- Modelled from the spec: `reverse_load_op` with the load-indirection map
(load_op.hpp, outside the extracted sources) — "forward the result's adjoint
to the operand identified by the Load-Indirection Map entry for that
instruction (no-op if the map resolved to a parameter)".  `arg[2]` is the
load-instruction counter indexing `var_by_load_op`. -/
def reverse_load_op (ldmap : Nat → Nat) (d iz : Nat) (argAt : Nat → ℤ)
    (P : Nat → Nat → ℚ) : Nat → Nat → ℚ :=
  let iload := ldmap (argAt 2).toNat
  if 0 < iload then
    ((List.range (d+1)).reverse).foldl (fun P k => padd P iload k (P iz k)) P
  else P

/-- Modelled from the spec: the map-less `reverse_load_op` overload invoked by
`myReverseSweep` (outside the extracted sources; `myReverseSweep` receives no
`var_by_load_op` at all).  Per the spec's §9 open question the selective sweep
"does not consult the Load-Indirection Map": this overload treats `arg[2]`
itself as the already-resolved variable index (the pre-`var_by_load_op`
convention), forwarding the adjoint there, or nowhere when it is zero. -/
def reverse_load_op_sel (d iz : Nat) (argAt : Nat → ℤ)
    (P : Nat → Nat → ℚ) : Nat → Nat → ℚ :=
  let iload := (argAt 2).toNat
  if 0 < iload then
    ((List.range (d+1)).reverse).foldl (fun P k => padd P iload k (P iz k)) P
  else P

/-- The adjoint scatter at the atomic Start-marker: for every argument slot
`j < n` whose recorded variable index is positive, add the returned argument
adjoints into that variable's adjoint row for every order `0..d`
(source lines 624-628). -/
def userScatter (n k1 : Nat) (uix : Nat → Nat) (px : Nat → ℚ)
    (P : Nat → Nat → ℚ) : Nat → Nat → ℚ :=
  (List.range n).foldl (fun P j =>
    if 0 < uix j then
      (List.range k1).foldl (fun P ell =>
        padd P (uix j) ell (px (j * k1 + ell))) P
    else P) P

/-- Zero a buffer outside `[0, n)`: the callback receives vectors of exactly
the advertised size, so the sweep hands it the live slots only. -/
def trunc (n : Nat) (f : Nat → ℚ) : Nat → ℚ :=
  fun s => if s < n then f s else 0

/-- `UserOp`, `user_end` branch of `ReverseSweep` (source lines 576-603):
capture the `(callback-id, instance-id, n, m)` tuple from the End-marker,
look the callback up in the registry (fatal, with its recorded name, when it
has been deleted), and enter `user_ret` expecting `m` result tokens. -/
def stepUserEndF (ctx : Ctx) (argAt : Nat → ℤ) (st : St) :
    Except (String × St) St :=
  let uindex := (argAt 0).toNat
  match ctx.reg uindex with
  | none =>
      .error (ctx.atomName uindex ++ ": atomic_base function has been deleted", st)
  | some _ =>
      .ok { st with
        uindex := uindex
        uid := (argAt 1).toNat
        un := (argAt 2).toNat
        um := (argAt 3).toNat
        uj := (argAt 2).toNat
        ui := (argAt 3).toNat
        ustate := .uRet }

/-- `UserOp`, `user_start` branch of `ReverseSweep` (source lines 604-630):
check the Start-marker tuple against the captured one, invoke the callback's
reverse routine at order `d` with the buffered Taylor coefficients and
adjoints, and scatter the returned argument adjoints into the Adjoint Matrix
rows of the variable argument slots. -/
def stepUserStartF (ctx : Ctx) (argAt : Nat → ℤ) (st : St) :
    Except (String × St) St :=
  if ¬ ((argAt 0).toNat = st.uindex ∧ (argAt 1).toNat = st.uid ∧
        (argAt 2).toNat = st.un ∧ (argAt 3).toNat = st.um) then
    .error ("UserOp marker mismatch", st)
  else
    match ctx.reg st.uindex with
    | none =>
        .error (ctx.atomName st.uindex ++ ": atomic_base function has been deleted", st)
    | some atom =>
      let k1 := ctx.d + 1
      let st1 := { st with events := .cbInvoke st.uindex st.uid ctx.d :: st.events }
      match atom.rev ctx.d (trunc (st.un * k1) st.utx)
          (trunc (st.um * k1) st.uty) (trunc (st.um * k1) st.upy) with
      | none =>
          .error (ctx.atomName st.uindex ++ ": atomic_base.reverse: returned false", st1)
      | some px =>
          .ok { st1 with
            adj := userScatter st.un k1 st.uix px st1.adj
            upx := px
            ustate := .uEnd }

/-- `UserOp` dispatch of `ReverseSweep`: branch on the protocol state; a state
other than `user_end`/`user_start` violates the protocol-shape assertion. -/
def stepUserF (ctx : Ctx) (argAt : Nat → ℤ) (st : St) :
    Except (String × St) St :=
  match st.ustate with
  | .uEnd => stepUserEndF ctx argAt st
  | .uStart => stepUserStartF ctx argAt st
  | _ => .error ("UserOp: user_state", st)

/-- `UsrapOp` (source lines 633-647): parameter argument token — record slot
index `0`, buffer the parameter as an order-0 Taylor coefficient. -/
def stepUsrap (ctx : Ctx) (argAt : Nat → ℤ) (st : St) :
    Except (String × St) St :=
  if st.ustate ≠ .uArg then .error ("UsrapOp: user_state", st)
  else if ¬ (0 < st.uj ∧ st.uj ≤ st.un) then .error ("UsrapOp: user_j", st)
  else
    let k1 := ctx.d + 1
    let j := st.uj - 1
    let utx1 := upd1 st.utx (j * k1) (ctx.par (argAt 0).toNat)
    let utx2 := (List.range ctx.d).foldl
      (fun f ell => upd1 f (j * k1 + (ell + 1)) 0) utx1
    .ok { st with
      uj := j
      uix := upd1 st.uix j 0
      utx := utx2
      ustate := if j = 0 then .uStart else st.ustate }

/-- `UsravOp` (source lines 649-662): variable argument token — record the
variable index and buffer its Taylor row. -/
def stepUsrav (ctx : Ctx) (argAt : Nat → ℤ) (st : St) :
    Except (String × St) St :=
  if st.ustate ≠ .uArg then .error ("UsravOp: user_state", st)
  else if ¬ (0 < st.uj ∧ st.uj ≤ st.un) then .error ("UsravOp: user_j", st)
  else
    let k1 := ctx.d + 1
    let j := st.uj - 1
    let v := (argAt 0).toNat
    let utx2 := (List.range k1).foldl
      (fun f ell => upd1 f (j * k1 + ell) (ctx.taylor v ell)) st.utx
    .ok { st with
      uj := j
      uix := upd1 st.uix j v
      utx := utx2
      ustate := if j = 0 then .uStart else st.ustate }

/-- `UsrrpOp` (source lines 664-678): parameter result token — zero the
result adjoint slot, buffer the parameter as an order-0 Taylor coefficient. -/
def stepUsrrp (ctx : Ctx) (argAt : Nat → ℤ) (st : St) :
    Except (String × St) St :=
  if st.ustate ≠ .uRet then .error ("UsrrpOp: user_state", st)
  else if ¬ (0 < st.ui ∧ st.ui ≤ st.um) then .error ("UsrrpOp: user_i", st)
  else
    let k1 := ctx.d + 1
    let i := st.ui - 1
    let upy2 := (List.range k1).foldl
      (fun f ell => upd1 f (i * k1 + ell) 0) st.upy
    let uty2 := (List.range k1).foldl
      (fun f ell => upd1 f (i * k1 + ell) 0) st.uty
    let uty3 := upd1 uty2 (i * k1) (ctx.par (argAt 0).toNat)
    .ok { st with
      ui := i
      upy := upy2
      uty := uty3
      ustate := if i = 0 then .uArg else st.ustate }

/-- `UsrrvOp` (source lines 680-693): variable result token — copy the result
variable's adjoint row and Taylor row into the protocol's scratch buffers. -/
def stepUsrrv (ctx : Ctx) (ivar : Nat) (st : St) :
    Except (String × St) St :=
  if st.ustate ≠ .uRet then .error ("UsrrvOp: user_state", st)
  else if ¬ (0 < st.ui ∧ st.ui ≤ st.um) then .error ("UsrrvOp: user_i", st)
  else
    let k1 := ctx.d + 1
    let i := st.ui - 1
    let upy2 := (List.range k1).foldl
      (fun f ell => upd1 f (i * k1 + ell) (st.adj ivar ell)) st.upy
    let uty2 := (List.range k1).foldl
      (fun f ell => upd1 f (i * k1 + ell) (ctx.taylor ivar ell)) st.uty
    .ok { st with
      ui := i
      upy := upy2
      uty := uty2
      ustate := if i = 0 then .uArg else st.ustate }

/-- One record's dispatch of the full sweep's switch (source lines 266-698),
with the cursor arithmetic factored out: `argAt k` reads the record's `k`-th
argument slot (for the variable-arity opcodes, based at the block start the
dedicated advance produced).  `BeginOp` is handled by the driver loop;
an opcode outside the switch hits the `default` assertion. -/
def stepOpF (ctx : Ctx) (argAt : Nat → ℤ) (iop ivar : Nat) (op : OpCode)
    (st : St) : Except (String × St) St :=
  match op with
  | AddvvOp =>
      .ok { st with adj := reverse_addvv_op ctx.d ivar (argAt 0).toNat (argAt 1).toNat st.adj }
  | MulvvOp =>
      .ok { st with adj := reverse_mulvv_op ctx.d ivar (argAt 0).toNat (argAt 1).toNat ctx.taylor st.adj }
  | CSumOp =>
      .ok { st with adj := reverse_csum_op ctx.d ivar argAt st.adj
                  , events := .csumAdv iop :: st.events }
  | CSkipOp =>
      .ok { st with events := .cskipAdv iop :: st.events }
  | LdpOp =>
      .ok { st with adj := reverse_load_op ctx.ldmap ctx.d ivar argAt st.adj }
  | LdvOp =>
      .ok { st with adj := reverse_load_op ctx.ldmap ctx.d ivar argAt st.adj }
  | InvOp => .ok st
  | UserOp => stepUserF ctx argAt st
  | UsrapOp => stepUsrap ctx argAt st
  | UsravOp => stepUsrav ctx argAt st
  | UsrrpOp => stepUsrrp ctx argAt st
  | UsrrvOp => stepUsrrv ctx ivar st
  | BeginOp => .error ("BeginOp outside driver", st)
  | EndOp => .error ("default assertion", st)

/-! ## The tape and the full sweep's backward cursor

Modelled from the spec (§3, §6): the player stores an operator vector and a
flat argument vector; the backward step primitive decrements the record index,
moves the argument cursor back by the table arity, and decrements the variable
index by the record's result count; the variable-arity records (`CSumOp`,
`CSkipOp`) carry their total length in their trailing slot so the dedicated
advance variants (`reverse_csum` / `reverse_cskip`) can recover the block
start. -/

/-- A recording: operator vector and flat argument vector. -/
structure Tape where
  ops : List OpCode
  argv : List ℤ

/-- Opcode of record `i`. -/
def getOpT (T : Tape) (i : Nat) : OpCode := T.ops.getD i EndOp

/-- Flat argument-vector read. -/
def argvAt (T : Tape) (i : Nat) : ℤ := T.argv.getD i 0

/-- `play->num_var_rec()`: total result count of the recording. -/
def numvarOf (T : Tape) : Nat := (T.ops.map NumRes).sum

/-- Modelled from the spec: `reverse_csum` dedicated cursor advance — after
the table step the cursor sits on the `CSum` block's trailing count slot;
move it back over the recorded terms and the three fixed slots to the
block start. -/
def csumAdj (T : Tape) (a : Nat) : Nat := a - (3 + (argvAt T a).toNat)

/-- Modelled from the spec: `reverse_cskip` dedicated cursor advance — after
the table step the cursor sits on the `CSkip` block's trailing count slot;
move it back over the recorded indices and the six fixed slots to the
block start. -/
def cskipAdj (T : Tape) (a : Nat) : Nat := a - (6 + (argvAt T a).toNat)

/-- Result of a completed full sweep: final state and the cursor observed
when the loop exited (`i_op`, `i_var`, and the record that ended it). -/
structure Out where
  st : St
  iop : Nat
  ivar : Nat
  lastOp : OpCode

/-- The full sweep's main loop (source lines 227-699): one backward step per
call — fetch the next record; if the skip mask marks it, advance the cursor
past it (realigning only for `CSumOp`, as in the source's skip loop) without
evaluating any rule; otherwise dispatch, with `BeginOp` ending the loop and
`CSkipOp`/`CSumOp` first realigned by their dedicated advance.  Stepping past
record 0 is the player's traversal-underflow assertion. -/
def loopF (ctx : Ctx) (T : Tape) (mask : Nat → Bool) :
    Nat → Nat → Nat → St → Except (String × St) Out
  | 0, _, _, st => .error ("reverse_next: past BeginOp", st)
  | i+1, a, ivar, st =>
    let op := getOpT T i
    let a' := a - NumArg op
    let v' := ivar - NumRes op
    if mask i then
      if op = CSumOp then
        loopF ctx T mask i (csumAdj T a') v'
          { st with events := .csumAdv i :: st.events }
      else
        loopF ctx T mask i a' v' st
    else
      match op with
      | BeginOp => .ok ⟨st, i, v', BeginOp⟩
      | CSkipOp =>
        match stepOpF ctx (fun k => argvAt T (cskipAdj T a' + k)) i v' CSkipOp st with
        | .error e => .error e
        | .ok st' => loopF ctx T mask i (cskipAdj T a') v' st'
      | CSumOp =>
        match stepOpF ctx (fun k => argvAt T (csumAdj T a' + k)) i v' CSumOp st with
        | .error e => .error e
        | .ok st' => loopF ctx T mask i (csumAdj T a') v' st'
      | op =>
        match stepOpF ctx (fun k => argvAt T (a' + k)) i v' op st with
        | .error e => .error e
        | .ok st' => loopF ctx T mask i a' v' st'

/-- `ReverseSweep` (source lines 162-706): entry assertions (`num_var_rec`
equals `numvar`, `numvar > 0`), `reverse_start` yielding the tape's last
record which must be the `EndOp` marker, the main loop, and the post-loop
cursor assertions (`i_op == 0` and `i_var == 0`). -/
def ReverseSweep (ctx : Ctx) (numvar : Nat) (T : Tape) (mask : Nat → Bool)
    (st0 : St) : Except (String × St) Out :=
  if numvar ≠ numvarOf T then .error ("numvar: play num_var_rec mismatch", st0)
  else if numvar = 0 then .error ("numvar: numvar > 0", st0)
  else if getOpT T (T.ops.length - 1) ≠ EndOp then
    .error ("reverse_start: op == EndOp", st0)
  else
    match loopF ctx T mask (T.ops.length - 1) T.argv.length numvar st0 with
    | .error e => .error e
    | .ok out =>
      if out.iop = 0 ∧ out.ivar = 0 then .ok out
      else .error ("post-loop: i_op == 0 and i_var == 0", out.st)

/-! ## The selective sweep (`myReverseSweep`) -/

/-- `UserOp`, `user_end` branch of `myReverseSweep` (source lines 1142-1160):
as in the full sweep but with no registry lookup at the End-marker. -/
def stepUserEndS (argAt : Nat → ℤ) (st : St) : Except (String × St) St :=
  .ok { st with
    uindex := (argAt 0).toNat
    uid := (argAt 1).toNat
    un := (argAt 2).toNat
    um := (argAt 3).toNat
    uj := (argAt 2).toNat
    ui := (argAt 3).toNat
    ustate := .uRet }

/-- `UserOp`, `user_start` branch of `myReverseSweep` (source lines
1161-1179): marker-match assertions, then `user_atomic<Base>::reverse` and
the adjoint scatter.  The lookup inside `user_atomic<Base>::reverse` is
modelled from the spec ("the registry has no live handle for a recorded
callback-id → fatal, surfaced with the callback's recorded name"); the
routine itself is outside the extracted sources. -/
def stepUserStartS (ctx : Ctx) (argAt : Nat → ℤ) (st : St) :
    Except (String × St) St :=
  if ¬ ((argAt 0).toNat = st.uindex ∧ (argAt 1).toNat = st.uid ∧
        (argAt 2).toNat = st.un ∧ (argAt 3).toNat = st.um) then
    .error ("UserOp marker mismatch (selective)", st)
  else
    match ctx.reg st.uindex with
    | none =>
        .error (ctx.atomName st.uindex ++ ": user_atomic function not registered", st)
    | some atom =>
      let k1 := ctx.d + 1
      let st1 := { st with events := .cbInvoke st.uindex st.uid ctx.d :: st.events }
      match atom.rev ctx.d (trunc (st.un * k1) st.utx)
          (trunc (st.um * k1) st.uty) (trunc (st.um * k1) st.upy) with
      | none =>
          .error (ctx.atomName st.uindex ++ ": user_atomic reverse failed", st1)
      | some px =>
          .ok { st1 with
            adj := userScatter st.un k1 st.uix px st1.adj
            upx := px
            ustate := .uEnd }

/-- `UserOp` dispatch of `myReverseSweep`. -/
def stepUserS (ctx : Ctx) (argAt : Nat → ℤ) (st : St) :
    Except (String × St) St :=
  match st.ustate with
  | .uEnd => stepUserEndS argAt st
  | .uStart => stepUserStartS ctx argAt st
  | _ => .error ("UserOp: user_state (selective)", st)

/-- One record's dispatch of the selective sweep's switch (source lines
839-1247).  Differences from the full sweep's switch, as in the source: the
marked list's argument pointers are precomputed, so `CSumOp` needs no
dedicated advance; the indirect loads use the map-less `reverse_load_op`
overload; `BeginOp` asserts arity `(0,1)` against the table; the atomic
protocol goes through `user_atomic`. -/
def stepOpS (ctx : Ctx) (argAt : Nat → ℤ) (_iop ivar : Nat) (op : OpCode)
    (st : St) : Except (String × St) St :=
  match op with
  | AddvvOp =>
      .ok { st with adj := reverse_addvv_op ctx.d ivar (argAt 0).toNat (argAt 1).toNat st.adj }
  | MulvvOp =>
      .ok { st with adj := reverse_mulvv_op ctx.d ivar (argAt 0).toNat (argAt 1).toNat ctx.taylor st.adj }
  | CSumOp =>
      .ok { st with adj := reverse_csum_op ctx.d ivar argAt st.adj }
  | CSkipOp =>
      .ok st
  | LdpOp =>
      .ok { st with adj := reverse_load_op_sel ctx.d ivar argAt st.adj }
  | LdvOp =>
      .ok { st with adj := reverse_load_op_sel ctx.d ivar argAt st.adj }
  | InvOp => .ok st
  | UserOp => stepUserS ctx argAt st
  | UsrapOp => stepUsrap ctx argAt st
  | UsravOp => stepUsrav ctx argAt st
  | UsrrpOp => stepUsrrp ctx argAt st
  | UsrrvOp => stepUsrrv ctx ivar st
  | BeginOp =>
      if NumArg BeginOp = 0 ∧ NumRes BeginOp = 1 then .ok st
      else .error ("BeginOp: NARG_NRES(0,1) (selective)", st)
  | EndOp => .error ("default assertion (selective)", st)

/-- One marked-operator entry of the Selective mode (`tape_point` data as the
spec's §6 interface: record index, result-variable index, opcode, argument
pointer into the flat argument vector). -/
structure TP where
  op : OpCode
  argOff : Nat
  iop : Nat
  ivar : Nat
deriving Repr

/-- `myReverseSweep` (source lines 709-1255): traverse the precomputed
marked-operator list back to front (`op_mark_index_.rbegin()..rend()`),
dispatching each entry's precomputed tape point with the selective switch.
Modelled per the production (`NDEBUG`) build: the entry assertion at source
line 798 reads an uninitialized `op` (the `reverse_start` call above it is
commented out), so the debug assertions of this routine have no defined
semantics and are omitted. -/
def myReverseSweep (ctx : Ctx) (T : Tape) (L : List TP) (st0 : St) :
    Except (String × St) St :=
  (L.reverse).foldlM
    (fun st tp =>
      stepOpS ctx (fun k => argvAt T (tp.argOff + k)) tp.iop tp.ivar tp.op st)
    st0

/-! ## Well-formed recordings

The sweeps' preconditions (spec §3, §4.3) say record 0 is the `Begin` marker,
the recording ends with the `End` marker, argument blocks obey the recorded
layout, and atomic groups are properly bracketed.  We write such recordings as
the image of a structured instruction list under an encoder, so that "for
every tape" quantifies over every recording satisfying the tape invariant. -/

/-- An atomic-group argument token: parameter or variable. -/
inductive ArgTok where
  | apar (p : Nat)
  | avar (v : Nat)
deriving DecidableEq, Repr

/-- An atomic-group result token: parameter or variable. -/
inductive ResTok where
  | rpar (p : Nat)
  | rvar
deriving DecidableEq, Repr

/-- One source-level instruction; each encodes to one record, except the
atomic group which encodes to its bracketed record sequence. -/
inductive SInstr where
  | inv
  | addvv (a b : Nat)
  | mulvv (a b : Nat)
  | csum (adds subs : List Nat) (p : Nat)
  | cskip (h1 h2 h3 h4 h5 h6 : ℤ) (idx : List ℤ)
  | ldp (x y : ℤ) (ld : Nat)
  | ldv (x y : ℤ) (ld : Nat)
  | atomic (ai aid : Nat) (ats : List ArgTok) (rts : List ResTok)
deriving Repr

/-- The recorded argument block of a `CSum` instruction:
`[n_add, n_sub, parameter, addition terms, subtraction terms, count]`. -/
def csumArgs (adds subs : List Nat) (q : Nat) : List ℤ :=
  (adds.length : ℤ) :: (subs.length : ℤ) :: (q : ℤ) ::
    (adds.map (fun t : Nat => (t : ℤ)) ++ subs.map (fun t : Nat => (t : ℤ)) ++
      [((adds.length + subs.length : Nat) : ℤ)])

/-- Encode an argument token as its tape record. -/
def encTokA : ArgTok → OpCode × List ℤ
  | .apar p => (UsrapOp, [(p : ℤ)])
  | .avar v => (UsravOp, [(v : ℤ)])

/-- Encode a result token as its tape record. -/
def encTokR : ResTok → OpCode × List ℤ
  | .rpar p => (UsrrpOp, [(p : ℤ)])
  | .rvar => (UsrrvOp, [])

/-- Encode one instruction as its record sequence, with the recorded argument
layouts: `CSum` blocks are `[n_add, n_sub, p, terms.., count]`, `CSkip`
blocks are `[6 fixed slots, indices.., count]`, atomic groups are
`Start-marker, argument tokens, result tokens, End-marker` with the
`(callback-id, instance-id, n, m)` tuple on both markers. -/
def encode1 : SInstr → List (OpCode × List ℤ)
  | .inv => [(InvOp, [])]
  | .addvv a b => [(AddvvOp, [(a : ℤ), (b : ℤ)])]
  | .mulvv a b => [(MulvvOp, [(a : ℤ), (b : ℤ)])]
  | .csum adds subs p => [(CSumOp, csumArgs adds subs p)]
  | .cskip h1 h2 h3 h4 h5 h6 idx =>
      [(CSkipOp, [h1, h2, h3, h4, h5, h6] ++ idx ++ [(idx.length : ℤ)])]
  | .ldp x y ld => [(LdpOp, [x, y, (ld : ℤ)])]
  | .ldv x y ld => [(LdvOp, [x, y, (ld : ℤ)])]
  | .atomic ai aid ats rts =>
      let mk : List ℤ := [(ai : ℤ), (aid : ℤ), (ats.length : ℤ), (rts.length : ℤ)]
      (UserOp, mk) :: (ats.map encTokA ++ rts.map encTokR ++ [(UserOp, mk)])

/-- All records of a program, in tape order. -/
def recsOf (prog : List SInstr) : List (OpCode × List ℤ) :=
  (prog.map encode1).flatten

/-- The recording of a program: `Begin` marker (one argument slot), the
instruction records, the `End` marker. -/
def tapeOf (prog : List SInstr) : Tape :=
  { ops := BeginOp :: ((recsOf prog).map Prod.fst ++ [EndOp])
  , argv := 0 :: ((recsOf prog).map Prod.snd).flatten }

/-- A decoded record: opcode, its own argument block, record index, and
result-variable index (the count of results recorded before it). -/
structure DRec where
  op : OpCode
  args : List ℤ
  iop : Nat
  ivar : Nat
deriving Repr

/-- Attach record and variable indices to a record list, scanning forward. -/
def withPos : List (OpCode × List ℤ) → Nat → Nat → List DRec
  | [], _, _ => []
  | (op, args) :: rest, iop, ivar =>
      ⟨op, args, iop, ivar⟩ :: withPos rest (iop + 1) (ivar + NumRes op)

/-- The decoded record list of a program (record 0 is the `Begin` marker
producing variable 0, so the instruction records start at indices 1, 1). -/
def decRecs (prog : List SInstr) : List DRec :=
  withPos (recsOf prog) 1 1

/-- Reverse traversal of a decoded record list with the full sweep's switch:
the reference the cursor-based loop is proved to implement. -/
def foldDF (ctx : Ctx) (l : List DRec) (st : St) : Except (String × St) St :=
  (l.reverse).foldlM
    (fun st r => stepOpF ctx (fun k => r.args.getD k 0) r.iop r.ivar r.op st) st

/-- Number of records one instruction encodes to. -/
def instrLen (ins : SInstr) : Nat := (encode1 ins).length

/-- Number of result variables one instruction produces. -/
def instrRes (ins : SInstr) : Nat :=
  ((encode1 ins).map (fun r => NumRes r.fst)).sum

/-- Number of flat argument slots one instruction occupies. -/
def instrArgs (ins : SInstr) : Nat :=
  ((encode1 ins).map (fun r => r.snd.length)).sum

/-- Position of an instruction on the tape: ordinal, first record index,
result count before it, and argument offset of its first record. -/
structure IPos where
  idx : Nat
  opB : Nat
  varB : Nat
  argB : Nat
deriving Repr

/-- Decoded records of one instruction at its position. -/
def instrDR (ins : SInstr) (p : IPos) : List DRec :=
  withPos (encode1 ins) p.opB p.varB

/-- Attach record, variable and argument positions to a record list. -/
def withTP : List (OpCode × List ℤ) → Nat → Nat → Nat → List TP
  | [], _, _, _ => []
  | (op, args) :: rest, iop, ivar, aoff =>
      ⟨op, aoff, iop, ivar⟩ :: withTP rest (iop + 1) (ivar + NumRes op) (aoff + args.length)

/-- Marked-operator entries of one instruction at its position (the
dependency-marking pass precomputes each record's argument pointer). -/
def instrTP (ins : SInstr) (p : IPos) : List TP :=
  withTP (encode1 ins) p.opB p.varB p.argB

/-- Scan a program, attaching each instruction's tape position. -/
def scanI : List SInstr → IPos → List (SInstr × IPos)
  | [], _ => []
  | ins :: rest, p =>
      (ins, p) :: scanI rest
        ⟨p.idx + 1, p.opB + instrLen ins, p.varB + instrRes ins, p.argB + instrArgs ins⟩

/-- The positioned instruction list of a program (record 0 / variable 0 /
argument slot 0 belong to the `Begin` marker). -/
def iprog (prog : List SInstr) : List (SInstr × IPos) :=
  scanI prog ⟨0, 1, 1, 1⟩

/-- The Marked-Operator List for an instruction subset `M`: the records of
the marked instructions in tape order, with precomputed tape points
(spec §3: "an externally precomputed sequence of operator references
(record index, variable index, opcode, argument pointer) restricted to the
sub-tape relevant to one dependent variable"). -/
def markedTP (prog : List SInstr) (M : Nat → Bool) : List TP :=
  ((iprog prog).filter (fun e => M e.2.idx)).flatMap (fun e => instrTP e.1 e.2)

/-- The record-level skip mask induced by a dead instruction subset `D`:
record `r` is marked exactly when it belongs to a dead instruction. -/
def maskOf (prog : List SInstr) (D : Nat → Bool) : Nat → Bool := fun r =>
  ((iprog prog).filter (fun e => D e.2.idx)).any
    (fun e => e.2.opB ≤ r ∧ r < e.2.opB + instrLen e.1)

/-! ## Basic reading lemmas for the accumulation folds -/

theorem padd_apply (f : Nat → Nat → ℚ) (i k : Nat) (x : ℚ) (v l : Nat) :
    padd f i k x v l = if v = i ∧ l = k then f i k + x else f v l := rfl

theorem padd_self (f : Nat → Nat → ℚ) (i k : Nat) (x : ℚ) :
    padd f i k x i k = f i k + x := by
  simp [padd_apply]

theorem padd_ne (f : Nat → Nat → ℚ) (i k : Nat) (x : ℚ) (v l : Nat)
    (h : ¬ (v = i ∧ l = k)) : padd f i k x v l = f v l := by
  simp [padd_apply, h]

theorem upd1_apply {α : Type} (f : Nat → α) (i : Nat) (x : α) (s : Nat) :
    upd1 f i x s = if s = i then x else f s := rfl

/-- Reading a buffer after a block write of `k1` consecutive slots. -/
theorem foldWrite_at (k1 : Nat) (g : Nat → ℚ) (f : Nat → ℚ) (base ell : Nat)
    (h : ell < k1) :
    ((List.range k1).foldl (fun f e => upd1 f (base + e) (g e)) f) (base + ell)
      = g ell := by
  induction k1 with
  | zero => omega
  | succ n ih =>
    rw [List.range_succ, List.foldl_append]
    rcases Nat.lt_succ_iff_lt_or_eq.mp h with h' | h'
    · simp only [List.foldl_cons, List.foldl_nil, upd1_apply]
      rw [if_neg (by omega), ih h']
    · subst h'
      simp [upd1_apply]

/-- Slots outside a block write are untouched. -/
theorem foldWrite_ne (k1 : Nat) (g : Nat → ℚ) (f : Nat → ℚ) (base s : Nat)
    (h : ∀ e, e < k1 → s ≠ base + e) :
    ((List.range k1).foldl (fun f e => upd1 f (base + e) (g e)) f) s = f s := by
  induction k1 with
  | zero => simp
  | succ n ih =>
    rw [List.range_succ, List.foldl_append]
    simp only [List.foldl_cons, List.foldl_nil, upd1_apply]
    rw [if_neg (h n (Nat.lt_succ_self n))]
    exact ih (fun e he => h e (Nat.lt_succ_of_lt he))

/-- Reading the Adjoint Matrix after one argument slot's scatter row. -/
theorem scatterRow_apply (k1 : Nat) (i : Nat) (px : Nat → ℚ) (base : Nat)
    (P : Nat → Nat → ℚ) (v k : Nat) :
    ((List.range k1).foldl (fun P ell => padd P i ell (px (base + ell))) P) v k
      = P v k + if v = i ∧ k < k1 then px (base + k) else 0 := by
  induction k1 generalizing P with
  | zero => simp
  | succ n ih =>
    rw [List.range_succ, List.foldl_append]
    simp only [List.foldl_cons, List.foldl_nil]
    rw [padd_apply]
    by_cases hv : v = i
    · subst hv
      by_cases hk : k = n
      · subst hk
        rw [if_pos ⟨rfl, rfl⟩, ih, if_neg (by simp), if_pos ⟨rfl, by omega⟩]
        ring
      · rw [if_neg (by simp [hk]), ih]
        by_cases hk' : k < n
        · rw [if_pos ⟨rfl, hk'⟩, if_pos ⟨rfl, by omega⟩]
        · rw [if_neg (by simp only [eq_self_iff_true, true_and]; omega),
            if_neg (by simp only [eq_self_iff_true, true_and]; omega)]
    · rw [if_neg (by simp [hv]), ih, if_neg (by simp [hv]), if_neg (by simp [hv])]

/-- Entrywise reading of the atomic Start-marker scatter: row `v`, order `k`
gains the sum of the returned argument adjoints over the argument slots
recorded with variable index `v > 0`. -/
theorem userScatter_apply (n k1 : Nat) (uix : Nat → Nat) (px : Nat → ℚ)
    (P : Nat → Nat → ℚ) (v k : Nat) :
    userScatter n k1 uix px P v k =
      P v k + if k < k1 then
        (Finset.range n).sum (fun j => if uix j = v ∧ 0 < v then px (j * k1 + k) else 0)
      else 0 := by
  induction n generalizing P with
  | zero => simp [userScatter]
  | succ n ih =>
    rw [userScatter, List.range_succ, List.foldl_append]
    simp only [List.foldl_cons, List.foldl_nil]
    rw [show ((List.range n).foldl (fun P j => if 0 < uix j then
        (List.range k1).foldl (fun P ell => padd P (uix j) ell (px (j * k1 + ell))) P
      else P) P) = userScatter n k1 uix px P from rfl]
    by_cases hj : 0 < uix n
    · rw [if_pos hj, scatterRow_apply, ih, Finset.sum_range_succ]
      by_cases hk : k < k1
      · rw [if_pos hk, if_pos hk]
        by_cases hv : uix n = v
        · rw [if_pos ⟨hv.symm, hk⟩, if_pos ⟨hv, by rw [← hv]; exact hj⟩]
          ring
        · rw [if_neg (fun h => hv h.1.symm), if_neg (fun h => hv h.1)]
          ring
      · rw [if_neg hk, if_neg hk, if_neg (fun h => hk h.2)]
        ring
    · rw [if_neg hj, ih, Finset.sum_range_succ]
      by_cases hk : k < k1
      · rw [if_pos hk, if_pos hk,
          if_neg (by rintro ⟨h1, h2⟩; rw [h1] at hj; exact hj h2)]
        ring
      · rw [if_neg hk, if_neg hk]

/-! ## Claim C2 — the Start-marker step of the atomic protocol -/

/-- C2: with the atomic protocol in state `ready` (`user_start`), processing
the Start-marker record invokes the callback's reverse routine at order `d`
with the buffered argument/result Taylor coefficients and adjoints, then adds
the returned argument adjoints into the Adjoint Matrix row of every argument
slot whose recorded variable index is strictly positive, for every order
`0..d` (parameter slots, recorded index 0, receive nothing), and transitions
the protocol back to `user_end`. -/
theorem C2_user_start_scatter (ctx : Ctx) (argAt : Nat → ℤ) (iop ivar : Nat)
    (st : St) (atom : Atom) (px : Nat → ℚ)
    (hstate : st.ustate = .uStart)
    (hmatch : (argAt 0).toNat = st.uindex ∧ (argAt 1).toNat = st.uid ∧
      (argAt 2).toNat = st.un ∧ (argAt 3).toNat = st.um)
    (hreg : ctx.reg st.uindex = some atom)
    (hrev : atom.rev ctx.d (trunc (st.un * (ctx.d + 1)) st.utx)
      (trunc (st.um * (ctx.d + 1)) st.uty)
      (trunc (st.um * (ctx.d + 1)) st.upy) = some px) :
    ∃ st', stepOpF ctx argAt iop ivar UserOp st = .ok st' ∧
      st'.ustate = .uEnd ∧
      st'.events = .cbInvoke st.uindex st.uid ctx.d :: st.events ∧
      ∀ v k, st'.adj v k = st.adj v k +
        if k ≤ ctx.d then
          (Finset.range st.un).sum
            (fun j => if st.uix j = v ∧ 0 < v then px (j * (ctx.d + 1) + k) else 0)
        else 0 := by
  have hstep : stepOpF ctx argAt iop ivar UserOp st = stepUserStartF ctx argAt st := by
    simp only [stepOpF, stepUserF, hstate]
  rw [stepUserStartF, if_neg (not_not_intro hmatch), hreg] at hstep
  simp only [hrev] at hstep
  exact ⟨_, hstep, rfl, rfl, fun v k => by
    simpa [Nat.lt_succ_iff] using userScatter_apply st.un (ctx.d + 1) st.uix px
      { st with events := .cbInvoke st.uindex st.uid ctx.d :: st.events }.adj v k⟩

/-- Witness for C2: a concrete protocol state (one variable argument slot, one
result, order `d = 0`) where the Start-marker step scatters `2·x·ȳ = 6` into
the argument variable's row. -/
theorem C2_witness :
    ∃ st', stepOpF
      { d := 0, taylor := fun i k => if i = 1 ∧ k = 0 then 3 else 0
      , par := fun _ => 0
      , reg := fun i => if i = 0 then
          some { rev := fun _ tx _ py => some (fun s => 2 * tx s * py s) } else none
      , atomName := fun _ => "sq", ldmap := fun _ => 0 }
      (fun k => if k = 2 then 1 else if k = 3 then 1 else 0) 2 2 UserOp
      { mkSt (fun i k => if i = 2 ∧ k = 0 then 1 else 0) with
        ustate := .uStart, uix := fun j => if j = 0 then 1 else 0
      , utx := fun s => if s = 0 then 3 else 0
      , uty := fun s => if s = 0 then 9 else 0
      , upy := fun s => if s = 0 then 1 else 0
      , un := 1, um := 1 } = .ok st' ∧
      st'.ustate = .uEnd ∧ st'.adj 1 0 = 6 := by
  obtain ⟨st', hok, hus, -, hadj⟩ :=
    C2_user_start_scatter
      { d := 0, taylor := fun i k => if i = 1 ∧ k = 0 then 3 else 0
      , par := fun _ => 0
      , reg := fun i => if i = 0 then
          some { rev := fun _ tx _ py => some (fun s => 2 * tx s * py s) } else none
      , atomName := fun _ => "sq", ldmap := fun _ => 0 }
      (fun k => if k = 2 then 1 else if k = 3 then 1 else 0) 2 2
      { mkSt (fun i k => if i = 2 ∧ k = 0 then 1 else 0) with
        ustate := .uStart, uix := fun j => if j = 0 then 1 else 0
      , utx := fun s => if s = 0 then 3 else 0
      , uty := fun s => if s = 0 then 9 else 0
      , upy := fun s => if s = 0 then 1 else 0
      , un := 1, um := 1 }
      { rev := fun _ tx _ py => some (fun s => 2 * tx s * py s) }
      (fun s => 2 * trunc 1 (fun s => if s = 0 then 3 else 0) s *
        trunc 1 (fun s => if s = 0 then 1 else 0) s)
      rfl (by refine ⟨rfl, rfl, rfl, rfl⟩) rfl rfl
  refine ⟨st', hok, hus, ?_⟩
  rw [hadj]
  norm_num [mkSt, trunc]

/-! ## Claim C10 — the variable-result token is a pure copy -/

/-- C10: processing a variable-result token (`UsrrvOp`) copies the result
variable's adjoint row and Taylor row into the protocol's scratch buffers
(`user_py`, `user_ty`) for every order `0..d`, and leaves every entry of the
Adjoint Matrix unchanged. -/
theorem C10_usrrv_copies_without_mutation (ctx : Ctx) (argAt : Nat → ℤ)
    (iop ivar : Nat) (st : St)
    (h1 : st.ustate = .uRet) (h2 : 0 < st.ui) (h3 : st.ui ≤ st.um) :
    ∃ st', stepOpF ctx argAt iop ivar UsrrvOp st = .ok st' ∧
      (∀ v k, st'.adj v k = st.adj v k) ∧
      (∀ ell, ell ≤ ctx.d →
        st'.upy ((st.ui - 1) * (ctx.d + 1) + ell) = st.adj ivar ell ∧
        st'.uty ((st.ui - 1) * (ctx.d + 1) + ell) = ctx.taylor ivar ell) := by
  have hstep : stepOpF ctx argAt iop ivar UsrrvOp st = stepUsrrv ctx ivar st := by
    simp only [stepOpF]
  rw [stepUsrrv, if_neg (not_not_intro h1), if_neg (not_not_intro ⟨h2, h3⟩)]
    at hstep
  refine ⟨_, hstep, fun v k => rfl, fun ell hell => ?_⟩
  constructor
  · exact foldWrite_at (ctx.d + 1) _ st.upy ((st.ui - 1) * (ctx.d + 1)) ell
      (by omega)
  · exact foldWrite_at (ctx.d + 1) _ st.uty ((st.ui - 1) * (ctx.d + 1)) ell
      (by omega)

/-- Witness for C10: a concrete `UsrrvOp` step copying adjoint row 2 into the
result-adjoint buffer while leaving the Adjoint Matrix untouched. -/
theorem C10_witness :
    ∃ st', stepOpF
      { d := 0, taylor := fun i k => if i = 2 ∧ k = 0 then 9 else 0
      , par := fun _ => 0, reg := fun _ => none
      , atomName := fun _ => "sq", ldmap := fun _ => 0 }
      (fun _ => 0) 4 2 UsrrvOp
      { mkSt (fun i k => if i = 2 ∧ k = 0 then 5 else 0) with
        ustate := .uRet, un := 1, um := 1, ui := 1, uj := 1 } = .ok st' ∧
      st'.adj 2 0 = 5 ∧ st'.upy 0 = 5 ∧ st'.uty 0 = 9 := by
  obtain ⟨st', hok, hadj, hcopy⟩ :=
    C10_usrrv_copies_without_mutation
      { d := 0, taylor := fun i k => if i = 2 ∧ k = 0 then 9 else 0
      , par := fun _ => 0, reg := fun _ => none
      , atomName := fun _ => "sq", ldmap := fun _ => 0 }
      (fun _ => 0) 4 2
      { mkSt (fun i k => if i = 2 ∧ k = 0 then 5 else 0) with
        ustate := .uRet, un := 1, um := 1, ui := 1, uj := 1 }
      rfl (by norm_num) (by norm_num)
  obtain ⟨hpy, hty⟩ := hcopy 0 (by norm_num)
  refine ⟨st', hok, ?_, ?_, ?_⟩
  · rw [hadj]; norm_num [mkSt]
  · simpa [mkSt] using hpy
  · simpa using hty

/-! ## Frame lemmas: the token steps never touch the Adjoint Matrix -/

theorem stepUsrap_adj {ctx : Ctx} {argAt : Nat → ℤ} {st st' : St}
    (h : stepUsrap ctx argAt st = .ok st') : st'.adj = st.adj := by
  unfold stepUsrap at h
  split at h
  · exact Except.noConfusion h
  · split at h
    · exact Except.noConfusion h
    · simp only [Except.ok.injEq] at h
      rw [← h]

theorem stepUsrav_adj {ctx : Ctx} {argAt : Nat → ℤ} {st st' : St}
    (h : stepUsrav ctx argAt st = .ok st') : st'.adj = st.adj := by
  unfold stepUsrav at h
  split at h
  · exact Except.noConfusion h
  · split at h
    · exact Except.noConfusion h
    · simp only [Except.ok.injEq] at h
      rw [← h]

theorem stepUsrrp_adj {ctx : Ctx} {argAt : Nat → ℤ} {st st' : St}
    (h : stepUsrrp ctx argAt st = .ok st') : st'.adj = st.adj := by
  unfold stepUsrrp at h
  split at h
  · exact Except.noConfusion h
  · split at h
    · exact Except.noConfusion h
    · simp only [Except.ok.injEq] at h
      rw [← h]

theorem stepUsrrv_adj {ctx : Ctx} {ivar : Nat} {st st' : St}
    (h : stepUsrrv ctx ivar st = .ok st') : st'.adj = st.adj := by
  unfold stepUsrrv at h
  split at h
  · exact Except.noConfusion h
  · split at h
    · exact Except.noConfusion h
    · simp only [Except.ok.injEq] at h
      rw [← h]

/-! ## Claim C4 — missing atomic callback is fatal and mutation-free -/

/-- C4: a recorded callback-id with no live handle in the registry aborts the
sweep with a fatal condition carrying the callback's recorded name, and the
atomic group mutates no row of the Adjoint Matrix: the full sweep fails at
the group's End-marker with the state untouched; the selective sweep fails at
the Start-marker with the state untouched, and the group's token records
never alter the Adjoint Matrix on their way there. -/
theorem C4_missing_callback_fatal (ctx : Ctx) (argAt : Nat → ℤ)
    (iop ivar : Nat) (st : St) :
    (st.ustate = .uEnd → ctx.reg (argAt 0).toNat = none →
      stepOpF ctx argAt iop ivar UserOp st =
        .error (ctx.atomName (argAt 0).toNat ++
          ": atomic_base function has been deleted", st)) ∧
    (st.ustate = .uStart →
      ((argAt 0).toNat = st.uindex ∧ (argAt 1).toNat = st.uid ∧
        (argAt 2).toNat = st.un ∧ (argAt 3).toNat = st.um) →
      ctx.reg st.uindex = none →
      stepOpS ctx argAt iop ivar UserOp st =
        .error (ctx.atomName st.uindex ++
          ": user_atomic function not registered", st)) ∧
    (∀ op, (op = UsrapOp ∨ op = UsravOp ∨ op = UsrrpOp ∨ op = UsrrvOp) →
      ∀ st1 st2, stepOpS ctx argAt iop ivar op st1 = .ok st2 →
        st2.adj = st1.adj) := by
  refine ⟨?_, ?_, ?_⟩
  · intro h1 h2
    simp only [stepOpF, stepUserF, h1, stepUserEndF, h2]
  · intro h1 h2 h3
    simp only [stepOpS, stepUserS, h1, stepUserStartS,
      if_neg (not_not_intro h2), h3]
  · rintro op (rfl | rfl | rfl | rfl) st1 st2 h
    · exact stepUsrap_adj (by simpa [stepOpS] using h)
    · exact stepUsrav_adj (by simpa [stepOpS] using h)
    · exact stepUsrrp_adj (by simpa [stepOpS] using h)
    · exact stepUsrrv_adj (by simpa [stepOpS] using h)

/-- Witness for C4: a concrete End-marker step over an empty registry fails
with the recorded callback name and the untouched state. -/
theorem C4_witness :
    stepOpF
      { d := 0, taylor := fun _ _ => 0, par := fun _ => 0
      , reg := fun _ => none, atomName := fun _ => "badf", ldmap := fun _ => 0 }
      (fun _ => 0) 2 2 UserOp (mkSt fun _ _ => 0) =
      .error ("badf" ++ ": atomic_base function has been deleted",
        mkSt fun _ _ => 0) :=
  (C4_missing_callback_fatal
    { d := 0, taylor := fun _ _ => 0, par := fun _ => 0
    , reg := fun _ => none, atomName := fun _ => "badf", ldmap := fun _ => 0 }
    (fun _ => 0) 2 2 (mkSt fun _ _ => 0)).1 rfl rfl

/-! ## Claim C8 — marker-tuple mismatch is fatal, before any callback work -/

/-- C8: if the `(callback-id, instance-id, n, m)` tuple on the Start-marker
differs in any component from the tuple captured at the End-marker, the full
sweep raises the tape-corruption assertions and returns the state untouched:
the callback is not invoked (the event log is unchanged) and no adjoint is
scattered (the Adjoint Matrix is unchanged). -/
theorem C8_marker_mismatch_fatal (ctx : Ctx) (argAt : Nat → ℤ)
    (iop ivar : Nat) (st : St)
    (hstate : st.ustate = .uStart)
    (hmm : ¬ ((argAt 0).toNat = st.uindex ∧ (argAt 1).toNat = st.uid ∧
      (argAt 2).toNat = st.un ∧ (argAt 3).toNat = st.um)) :
    stepOpF ctx argAt iop ivar UserOp st =
      .error ("UserOp marker mismatch", st) := by
  simp only [stepOpF, stepUserF, hstate, stepUserStartF, if_pos hmm]

/-- Witness for C8: a Start-marker whose recorded `n` disagrees with the
captured one fails without invoking the callback. -/
theorem C8_witness :
    stepOpF
      { d := 0, taylor := fun _ _ => 0, par := fun _ => 0
      , reg := fun _ => some { rev := fun _ _ _ _ => some (fun _ => 0) }
      , atomName := fun _ => "f", ldmap := fun _ => 0 }
      (fun k => if k = 2 then 5 else 0) 9 3 UserOp
      { mkSt (fun _ _ => 0) with ustate := .uStart, un := 1, um := 1 } =
      .error ("UserOp marker mismatch",
        { mkSt (fun _ _ => 0) with ustate := .uStart, un := 1, um := 1 }) :=
  C8_marker_mismatch_fatal _ _ 9 3 _ rfl (by decide)

/-! ## Claim C9 — entry preconditions of the full sweep -/

/-- C9: beyond the tape invariant, `ReverseSweep` requires `numvar > 0` and
that the record yielded first by backward traversal — the tape's last record —
is the `EndOp` marker; a violation fails the entry assertions and returns the
initial state untouched, before any record is dispatched. -/
theorem C9_entry_preconditions (ctx : Ctx) (T : Tape) (mask : Nat → Bool)
    (st0 : St)
    (h : numvarOf T = 0 ∨ getOpT T (T.ops.length - 1) ≠ EndOp) :
    ReverseSweep ctx (numvarOf T) T mask st0 =
      .error ("numvar: numvar > 0", st0) ∨
    ReverseSweep ctx (numvarOf T) T mask st0 =
      .error ("reverse_start: op == EndOp", st0) := by
  by_cases hz : numvarOf T = 0
  · left
    rw [ReverseSweep, if_neg (by simp), if_pos hz]
  · right
    have hEnd : getOpT T (T.ops.length - 1) ≠ EndOp := h.resolve_left hz
    rw [ReverseSweep, if_neg (by simp), if_neg hz, if_pos hEnd]

/-- Witness for C9: a one-record tape holding only the `Begin` marker (so the
backward traversal does not start at an `EndOp`) fails the entry assertion
with the initial state untouched. -/
theorem C9_witness :
    ReverseSweep
      { d := 0, taylor := fun _ _ => 0, par := fun _ => 0, reg := fun _ => none
      , atomName := fun _ => "f", ldmap := fun _ => 0 }
      (numvarOf { ops := [BeginOp], argv := [0] })
      { ops := [BeginOp], argv := [0] } (fun _ => false) (mkSt fun _ _ => 0) =
      .error ("numvar: numvar > 0", mkSt fun _ _ => 0) ∨
    ReverseSweep
      { d := 0, taylor := fun _ _ => 0, par := fun _ => 0, reg := fun _ => none
      , atomName := fun _ => "f", ldmap := fun _ => 0 }
      (numvarOf { ops := [BeginOp], argv := [0] })
      { ops := [BeginOp], argv := [0] } (fun _ => false) (mkSt fun _ _ => 0) =
      .error ("reverse_start: op == EndOp", mkSt fun _ _ => 0) :=
  C9_entry_preconditions _ _ _ _ (Or.inr (by decide))

/-! ## Claim C5 — loop exit only at the Begin marker, cursor at (0, 0) -/

/-- The main loop returns normally only from the `BeginOp` dispatch, and then
the exit record index names a `BeginOp` record. -/
theorem loopF_ok_begin (ctx : Ctx) (T : Tape) (mask : Nat → Bool) :
    ∀ i a v st out, loopF ctx T mask i a v st = .ok out →
      out.lastOp = BeginOp ∧ getOpT T out.iop = BeginOp := by
  intro i
  induction i with
  | zero =>
    intro a v st out h
    exact absurd h (by simp [loopF])
  | succ n ih =>
    intro a v st out h
    rw [loopF] at h
    split at h
    · split at h
      · exact ih _ _ _ _ h
      · exact ih _ _ _ _ h
    · split at h
      · rename_i heq
        simp only [Except.ok.injEq] at h
        rw [← h]
        exact ⟨rfl, heq⟩
      · split at h
        · exact Except.noConfusion h
        · exact ih _ _ _ _ h
      · split at h
        · exact Except.noConfusion h
        · exact ih _ _ _ _ h
      · split at h
        · exact Except.noConfusion h
        · exact ih _ _ _ _ h

/-- A normal return of the full sweep exits at a `BeginOp` dispatch with the
cursor at operator index 0 and variable index 0. -/
theorem ReverseSweep_ok_exit (ctx : Ctx) (numvar : Nat) (T : Tape)
    (mask : Nat → Bool) (st0 : St) (out : Out)
    (h : ReverseSweep ctx numvar T mask st0 = .ok out) :
    out.lastOp = BeginOp ∧ out.iop = 0 ∧ out.ivar = 0 ∧
      getOpT T 0 = BeginOp := by
  rw [ReverseSweep] at h
  split at h
  · exact Except.noConfusion h
  · split at h
    · exact Except.noConfusion h
    · split at h
      · exact Except.noConfusion h
      · split at h
        · exact Except.noConfusion h
        · rename_i out1 hloop
          split at h
          · rename_i hc
            simp only [Except.ok.injEq] at h
            obtain ⟨h1, h2⟩ := loopF_ok_begin ctx T mask _ _ _ _ _ hloop
            rw [← h]
            exact ⟨h1, hc.1, hc.2, by rw [← hc.1]; exact h2⟩
          · exact Except.noConfusion h

/-- C5: the full sweep terminates normally exactly when the `Begin` marker is
dispatched, and at that moment the traversal cursor holds operator index 0 and
variable index 0 (so record 0 is the `Begin` marker); a loop exit in any other
cursor state is turned into the post-loop fatal assertions rather than a
normal return. -/
theorem C5_begin_exit_cursor (ctx : Ctx) (numvar : Nat) (T : Tape)
    (mask : Nat → Bool) (st0 : St) (out : Out)
    (h : ReverseSweep ctx numvar T mask st0 = .ok out) :
    out.lastOp = BeginOp ∧ out.iop = 0 ∧ out.ivar = 0 ∧
      getOpT T 0 = BeginOp :=
  ReverseSweep_ok_exit ctx numvar T mask st0 out h

/-- Witness for C5: a concrete successful sweep (`y = x` at order 0) exits at
the `Begin` marker with the cursor at (0, 0). -/
theorem C5_witness :
    ∃ out, ReverseSweep
      { d := 0, taylor := fun _ _ => 0, par := fun _ => 0, reg := fun _ => none
      , atomName := fun _ => "f", ldmap := fun _ => 0 }
      2 (tapeOf [SInstr.inv]) (fun _ => false)
      (mkSt fun i k => if i = 1 ∧ k = 0 then 1 else 0) = .ok out ∧
      out.lastOp = BeginOp ∧ out.iop = 0 ∧ out.ivar = 0 := by
  have hrun : ∃ out, ReverseSweep
      { d := 0, taylor := fun _ _ => 0, par := fun _ => 0, reg := fun _ => none
      , atomName := fun _ => "f", ldmap := fun _ => 0 }
      2 (tapeOf [SInstr.inv]) (fun _ => false)
      (mkSt fun i k => if i = 1 ∧ k = 0 then 1 else 0) = .ok out := ⟨_, rfl⟩
  obtain ⟨out, hout⟩ := hrun
  obtain ⟨h1, h2, h3, -⟩ := C5_begin_exit_cursor _ _ _ _ _ _ hout
  exact ⟨out, hout, h1, h2, h3⟩

/-! ## Claim C7 — product rule at order d = 1 -/

/-- C7: on the tape recording `y = x1 * x2` with `d = 1`, forward Taylor
coefficients `x1 = (a0, a1)`, `x2 = (b0, b1)`, and the dependent row seeded
with order-1 adjoint 1 and order-0 adjoint 0, the full sweep produces
`adjoint(x1) = (b1, b0)` and `adjoint(x2) = (a1, a0)` — the reverse of the
order-1 Cauchy product. -/
theorem C7_product_rule_order1 (a0 a1 b0 b1 : ℚ) :
    ∃ out, ReverseSweep
      { d := 1
      , taylor := fun i k =>
          if i = 1 then (if k = 0 then a0 else if k = 1 then a1 else 0)
          else if i = 2 then (if k = 0 then b0 else if k = 1 then b1 else 0)
          else 0
      , par := fun _ => 0, reg := fun _ => none
      , atomName := fun _ => "f", ldmap := fun _ => 0 }
      4 (tapeOf [.inv, .inv, .mulvv 1 2]) (fun _ => false)
      (mkSt fun i k => if i = 3 ∧ k = 1 then 1 else 0) = .ok out ∧
      out.st.adj 1 0 = b1 ∧ out.st.adj 1 1 = b0 ∧
      out.st.adj 2 0 = a1 ∧ out.st.adj 2 1 = a0 := by
  refine ⟨_, rfl, ?_, ?_, ?_, ?_⟩ <;>
    simp [ReverseSweep, loopF, stepOpF, tapeOf, recsOf, encode1, getOpT,
      argvAt, numvarOf, NumArg, NumRes, mkSt, reverse_mulvv_op, padd, upd2,
      List.range_succ]

/-! ## Concrete inputs for the counterexamples -/

/-- A context at order 0 with empty registry and a trivial load map. -/
def cexCtx : Ctx :=
  { d := 0, taylor := fun _ _ => 0, par := fun _ => 0, reg := fun _ => none
  , atomName := fun _ => "f", ldmap := fun _ => 0 }

/-- `y = x1 + x2` followed by a `CSkip` record (no differentiable effect):
variables are `x1 = 1`, `x2 = 2`, `y = 3`. -/
def cexProgSkip : List SInstr :=
  [.inv, .inv, .addvv 1 2, .cskip 0 0 0 0 0 0 []]

/-- Seed: dependent row 3, order 0, weight 1. -/
def cexSeedSkip : Nat → Nat → ℚ := fun i k => if i = 3 ∧ k = 0 then 1 else 0

/-! ## Event-log monotonicity of the dispatch and the loop -/

theorem stepOpF_events {ctx : Ctx} {argAt : Nat → ℤ} {iop ivar : Nat}
    {op : OpCode} {st st' : St} (h : stepOpF ctx argAt iop ivar op st = .ok st') :
    ∀ e, e ∈ st.events → e ∈ st'.events := by
  intro e he
  cases op <;> simp only [stepOpF] at h
  case BeginOp => exact Except.noConfusion h
  case EndOp => exact Except.noConfusion h
  case InvOp => rw [← (Except.ok.injEq _ _).mp h]; exact he
  case AddvvOp => rw [← (Except.ok.injEq _ _).mp h]; exact he
  case MulvvOp => rw [← (Except.ok.injEq _ _).mp h]; exact he
  case LdpOp => rw [← (Except.ok.injEq _ _).mp h]; exact he
  case LdvOp => rw [← (Except.ok.injEq _ _).mp h]; exact he
  case CSumOp =>
    rw [← (Except.ok.injEq _ _).mp h]
    exact List.mem_cons_of_mem _ he
  case CSkipOp =>
    rw [← (Except.ok.injEq _ _).mp h]
    exact List.mem_cons_of_mem _ he
  case UserOp =>
    unfold stepUserF at h
    split at h
    · cases hreg : ctx.reg ((argAt 0).toNat) with
      | none =>
        simp only [stepUserEndF, hreg] at h
        exact Except.noConfusion h
      | some atom =>
        simp only [stepUserEndF, hreg] at h
        rw [← (Except.ok.injEq _ _).mp h]; exact he
    · unfold stepUserStartF at h
      split at h
      · exact Except.noConfusion h
      · split at h
        · exact Except.noConfusion h
        · rename_i atom heq
          cases hrev : atom.rev ctx.d (trunc (st.un * (ctx.d + 1)) st.utx)
              (trunc (st.um * (ctx.d + 1)) st.uty)
              (trunc (st.um * (ctx.d + 1)) st.upy) with
          | none =>
            simp only [hrev] at h
            exact Except.noConfusion h
          | some px =>
            simp only [hrev] at h
            rw [← (Except.ok.injEq _ _).mp h]
            exact List.mem_cons_of_mem _ he
    · exact Except.noConfusion h
  case UsrapOp =>
    unfold stepUsrap at h
    split at h
    · exact Except.noConfusion h
    · split at h
      · exact Except.noConfusion h
      · rw [← (Except.ok.injEq _ _).mp h]; exact he
  case UsravOp =>
    unfold stepUsrav at h
    split at h
    · exact Except.noConfusion h
    · split at h
      · exact Except.noConfusion h
      · rw [← (Except.ok.injEq _ _).mp h]; exact he
  case UsrrpOp =>
    unfold stepUsrrp at h
    split at h
    · exact Except.noConfusion h
    · split at h
      · exact Except.noConfusion h
      · rw [← (Except.ok.injEq _ _).mp h]; exact he
  case UsrrvOp =>
    unfold stepUsrrv at h
    split at h
    · exact Except.noConfusion h
    · split at h
      · exact Except.noConfusion h
      · rw [← (Except.ok.injEq _ _).mp h]; exact he

/-- Along a successful loop run: the event log only grows, and every live
`CSkipOp` record strictly between the exit record and the start is stepped
with `reverse_cskip`, leaving its advance event in the log. -/
theorem loopF_cskip_events (ctx : Ctx) (T : Tape) (mask : Nat → Bool) :
    ∀ i a v st out, loopF ctx T mask i a v st = .ok out →
      (∀ e, e ∈ st.events → e ∈ out.st.events) ∧
      (∀ r, out.iop < r → r < i → getOpT T r = CSkipOp → mask r = false →
        Event.cskipAdv r ∈ out.st.events) := by
  intro i
  induction i with
  | zero =>
    intro a v st out h
    exact absurd h (by simp [loopF])
  | succ n ih =>
    intro a v st out h
    rw [loopF] at h
    split at h
    · rename_i hmask
      split at h
      · refine ⟨fun e he => (ih _ _ _ _ h).1 e (List.mem_cons_of_mem _ he), ?_⟩
        intro r hr1 hr2 hop hlive
        rcases Nat.lt_succ_iff_lt_or_eq.mp hr2 with h' | h'
        · exact (ih _ _ _ _ h).2 r hr1 h' hop hlive
        · subst h'; rw [hmask] at hlive; exact Bool.noConfusion hlive
      · refine ⟨fun e he => (ih _ _ _ _ h).1 e he, ?_⟩
        intro r hr1 hr2 hop hlive
        rcases Nat.lt_succ_iff_lt_or_eq.mp hr2 with h' | h'
        · exact (ih _ _ _ _ h).2 r hr1 h' hop hlive
        · subst h'; rw [hmask] at hlive; exact Bool.noConfusion hlive
    · split at h
      · simp only [Except.ok.injEq] at h
        subst h
        refine ⟨fun e he => he, ?_⟩
        intro r hr1 hr2 _ _
        have hr1n : n < r := hr1
        omega
      · rename_i heq
        split at h
        · exact Except.noConfusion h
        · rename_i st' hstep
          have hmem : Event.cskipAdv n ∈ st'.events := by
            simp only [stepOpF, Except.ok.injEq] at hstep
            rw [← hstep]
            exact List.mem_cons_self _ _
          refine ⟨fun e he => (ih _ _ _ _ h).1 e (stepOpF_events hstep e he), ?_⟩
          intro r hr1 hr2 hop hlive
          rcases Nat.lt_succ_iff_lt_or_eq.mp hr2 with h' | h'
          · exact (ih _ _ _ _ h).2 r hr1 h' hop hlive
          · subst h'
            exact (ih _ _ _ _ h).1 _ hmem
      · rename_i heq
        split at h
        · exact Except.noConfusion h
        · rename_i st' hstep
          refine ⟨fun e he => (ih _ _ _ _ h).1 e (stepOpF_events hstep e he), ?_⟩
          intro r hr1 hr2 hop hlive
          rcases Nat.lt_succ_iff_lt_or_eq.mp hr2 with h' | h'
          · exact (ih _ _ _ _ h).2 r hr1 h' hop hlive
          · subst h'; rw [heq] at hop; exact OpCode.noConfusion hop
      · rename_i hne1 hne2 hne3
        split at h
        · exact Except.noConfusion h
        · rename_i st' hstep
          refine ⟨fun e he => (ih _ _ _ _ h).1 e (stepOpF_events hstep e he), ?_⟩
          intro r hr1 hr2 hop hlive
          rcases Nat.lt_succ_iff_lt_or_eq.mp hr2 with h' | h'
          · exact (ih _ _ _ _ h).2 r hr1 h' hop hlive
          · subst h'; exact absurd hop (by exact hne2)

/-! ## Claim C6 — CSkip records and the dedicated cursor advance -/

/-- Counterexample to C6 as stated: on the recording
`[Begin, Inv, Inv, Addvv, CSkip, End]` with the skip mask marking the `CSkip`
record (record 4), the sweep completes normally yet its event log is empty:
the dead-marked `CSkip` record was *not* stepped with `reverse_cskip` (the
skip loop realigns only `CSumOp`). -/
theorem C6_counterexample :
    ∃ out, ReverseSweep cexCtx 4 (tapeOf cexProgSkip) (fun i => i == 4)
      (mkSt cexSeedSkip) = .ok out ∧
      getOpT (tapeOf cexProgSkip) 4 = CSkipOp ∧
      (fun i => i == 4) 4 = true ∧
      Event.cskipAdv 4 ∉ out.st.events := by
  refine ⟨_, rfl, rfl, rfl, ?_⟩
  decide

/-- C6 (amended): every `CSkip` record the full sweep *dispatches live* is
stepped with the dedicated `reverse_cskip` cursor advance, and its dispatch
contributes no adjoint update to any row of the Adjoint Matrix (the state
changes only by logging the advance); a `CSkip` record marked dead by the
skip mask is passed over by the plain table advance instead (the skip loop
special-cases only `CSumOp`). -/
theorem C6_live_cskip_advance (ctx : Ctx) (numvar : Nat) (T : Tape)
    (mask : Nat → Bool) (st0 : St) (out : Out)
    (h : ReverseSweep ctx numvar T mask st0 = .ok out) :
    (∀ r, out.iop < r → r < T.ops.length - 1 → getOpT T r = CSkipOp →
      mask r = false → Event.cskipAdv r ∈ out.st.events) ∧
    (∀ argAt iop ivar st, stepOpF ctx argAt iop ivar CSkipOp st =
      .ok { st with events := Event.cskipAdv iop :: st.events }) := by
  refine ⟨?_, fun _ _ _ _ => rfl⟩
  rw [ReverseSweep] at h
  split at h
  · exact Except.noConfusion h
  · split at h
    · exact Except.noConfusion h
    · split at h
      · exact Except.noConfusion h
      · split at h
        · exact Except.noConfusion h
        · rename_i out1 hloop
          split at h
          · simp only [Except.ok.injEq] at h
            subst h
            exact (loopF_cskip_events ctx T mask _ _ _ _ _ hloop).2
          · exact Except.noConfusion h

/-- Witness for C6 (amended): on the same recording with an all-false mask,
the live `CSkip` record 4 leaves its `reverse_cskip` advance in the log. -/
theorem C6_witness :
    ∃ out, ReverseSweep cexCtx 4 (tapeOf cexProgSkip) (fun _ => false)
      (mkSt cexSeedSkip) = .ok out ∧
      Event.cskipAdv 4 ∈ out.st.events := by
  have hrun : ∃ out, ReverseSweep cexCtx 4 (tapeOf cexProgSkip)
      (fun _ => false) (mkSt cexSeedSkip) = .ok out := ⟨_, rfl⟩
  obtain ⟨out, hout⟩ := hrun
  refine ⟨out, hout, ?_⟩
  have h4 : out.iop = 0 := ((ReverseSweep_ok_exit _ _ _ _ _ _ hout).2).1
  exact (C6_live_cskip_advance _ _ _ _ _ _ hout).1 4
    (by omega) (by decide) (by decide) rfl

/-! ## Counterexample inputs with an indirect load -/

/-- A context whose Load-Indirection Map resolves load instruction 0 to
variable 1. -/
def cexCtxLd : Ctx :=
  { d := 0, taylor := fun _ _ => 0, par := fun _ => 0, reg := fun _ => none
  , atomName := fun _ => "f", ldmap := fun _ => 1 }

/-- One independent variable and one indirect load whose recorded load
counter is 0: variables are `x = 1`, `y = 2` (the load's result, the
dependent variable). -/
def cexProgLd : List SInstr := [.inv, .ldp 0 0 0]

/-- Seed: dependent row 2, order 0, weight 1. -/
def cexSeedLd : Nat → Nat → ℚ := fun i k => if i = 2 ∧ k = 0 then 1 else 0

/-! ## Claim C3 — the skip mask as a pure optimization -/

/-- Counterexample to C3 as stated: on `[Begin, Inv, Inv, Addvv, CSkip, End]`,
marking only the `CSkip` record (record 4, which has no result variables, so
it affects no dependent variable) makes the masked sweep disagree with the
all-false sweep on the independent adjoints: the skip loop advances over the
dead `CSkip` with the one-slot table arity, misaligning the argument cursor
for the live `Addvv` record.  Both runs return normally; the adjoint of
variable 1 at order 0 is 1 without the mask and 0 with it. -/
theorem C3_counterexample :
    ∃ outF outM,
      ReverseSweep cexCtx 4 (tapeOf cexProgSkip) (fun _ => false)
        (mkSt cexSeedSkip) = .ok outF ∧
      ReverseSweep cexCtx 4 (tapeOf cexProgSkip) (fun i => i == 4)
        (mkSt cexSeedSkip) = .ok outM ∧
      getOpT (tapeOf cexProgSkip) 4 = CSkipOp ∧ NumRes CSkipOp = 0 ∧
      outF.st.adj 1 0 = 1 ∧ outM.st.adj 1 0 = 0 := by
  refine ⟨_, _, rfl, rfl, rfl, rfl, ?_, ?_⟩ <;>
    simp [ReverseSweep, loopF, stepOpF, tapeOf, recsOf, encode1, getOpT,
      argvAt, numvarOf, NumArg, NumRes, mkSt, cexCtx, cexProgSkip, cexSeedSkip,
      reverse_addvv_op, padd, upd2, cskipAdj, csumAdj, List.range_succ]

/-! ## Claim C1 — selective versus full sweep, with indirect loads -/

/-- Counterexample to C1 as stated: on the recording
`[Begin, Inv, Ldp, End]` whose load resolves (through the Load-Indirection
Map) to variable 1, with the dependent row 2 seeded, the full sweep forwards
the adjoint to variable 1, while the selective sweep over the *complete*
marked-operator list of that dependent variable — `myReverseSweep` receives
no `var_by_load_op` — leaves it at 0. -/
theorem C1_counterexample :
    ∃ outF stS,
      ReverseSweep cexCtxLd 3 (tapeOf cexProgLd) (fun _ => false)
        (mkSt cexSeedLd) = .ok outF ∧
      myReverseSweep cexCtxLd (tapeOf cexProgLd)
        (markedTP cexProgLd (fun _ => true)) (mkSt cexSeedLd) = .ok stS ∧
      outF.st.adj 1 0 = 1 ∧ stS.adj 1 0 = 0 := by
  refine ⟨_, _, rfl, rfl, ?_, ?_⟩ <;>
    simp [ReverseSweep, myReverseSweep, loopF, stepOpF, stepOpS, tapeOf,
      recsOf, encode1, getOpT, argvAt, numvarOf, NumArg, NumRes, mkSt,
      cexCtxLd, cexProgLd, cexSeedLd, reverse_load_op, reverse_load_op_sel,
      padd, upd2, markedTP, iprog, scanI, instrTP, withTP, instrLen, instrRes,
      instrArgs, List.range_succ]

/-! ## Generic fold lemmas -/

theorem foldl_fixed {α β : Type} (f : α → β → α) (l : List β) (x : α)
    (h : ∀ b ∈ l, f x b = x) : l.foldl f x = x := by
  induction l with
  | nil => rfl
  | cons b l ih =>
    rw [List.foldl_cons, h b (List.mem_cons_self b l)]
    exact ih (fun b' hb' => h b' (List.mem_cons_of_mem b hb'))

theorem foldl_inv {α β : Type} (f : α → β → α) (l : List β) (x : α)
    (Q : α → Prop) (hx : Q x)
    (h : ∀ a b, b ∈ l → Q a → Q (f a b)) : Q (l.foldl f x) := by
  induction l generalizing x with
  | nil => exact hx
  | cons b l ih =>
    rw [List.foldl_cons]
    exact ih (f x b) (h x b (List.mem_cons_self b l) hx)
      (fun a b' hb' => h a b' (List.mem_cons_of_mem b hb'))

theorem padd_zero (f : Nat → Nat → ℚ) (i k : Nat) : padd f i k 0 = f := by
  funext v l
  rw [padd_apply]
  split_ifs with h
  · rw [h.1, h.2, add_zero]
  · rfl

/-! ## Zero-adjoint rules act as the identity -/

theorem reverse_addvv_op_zero (d iz a0 a1 : Nat) (P : Nat → Nat → ℚ)
    (h : ∀ k, P iz k = 0) : reverse_addvv_op d iz a0 a1 P = P := by
  unfold reverse_addvv_op
  refine foldl_fixed _ _ _ (fun k _ => ?_)
  simp only [h k, padd_zero]

theorem reverse_mulvv_op_zero (d iz a0 a1 : Nat) (ty : Nat → Nat → ℚ)
    (P : Nat → Nat → ℚ) (h : ∀ k, P iz k = 0) :
    reverse_mulvv_op d iz a0 a1 ty P = P := by
  unfold reverse_mulvv_op
  refine foldl_fixed _ _ _ (fun j _ => ?_)
  refine foldl_fixed _ _ _ (fun k _ => ?_)
  simp only [h j, zero_mul, padd_zero]

theorem reverse_csum_op_zero (d iz : Nat) (argAt : Nat → ℤ)
    (P : Nat → Nat → ℚ) (h : ∀ k, P iz k = 0) :
    reverse_csum_op d iz argAt P = P := by
  unfold reverse_csum_op
  have h1 : (List.range (argAt 0).toNat).foldl (fun P i =>
      (List.range (d+1)).foldl (fun P k =>
        padd P (argAt (3+i)).toNat k (P iz k)) P) P = P := by
    refine foldl_fixed _ _ _ (fun i _ => ?_)
    refine foldl_fixed _ _ _ (fun k _ => ?_)
    simp only [h k, padd_zero]
  simp only [h1]
  refine foldl_fixed _ _ _ (fun i _ => ?_)
  refine foldl_fixed _ _ _ (fun k _ => ?_)
  simp only [h k, neg_zero, padd_zero]

theorem reverse_load_op_zero (ldmap : Nat → Nat) (d iz : Nat)
    (argAt : Nat → ℤ) (P : Nat → Nat → ℚ) (h : ∀ k, P iz k = 0) :
    reverse_load_op ldmap d iz argAt P = P := by
  simp only [reverse_load_op]
  split_ifs with h0
  · refine foldl_fixed _ _ _ (fun k _ => ?_)
    simp only [h k, padd_zero]
  · rfl

/-! ## Frame: rules write only their operand rows -/

theorem reverse_addvv_op_frame (d iz a0 a1 : Nat) (P : Nat → Nat → ℚ)
    (v : Nat) (hv0 : v ≠ a0) (hv1 : v ≠ a1) :
    ∀ k, reverse_addvv_op d iz a0 a1 P v k = P v k := by
  unfold reverse_addvv_op
  refine foldl_inv _ _ _ (fun (Q : Nat → Nat → ℚ) => ∀ k, Q v k = P v k) (fun _ => rfl) ?_
  intro Q k _ hq k'
  rw [padd_ne _ _ _ _ _ _ (fun hc => hv1 hc.1),
    padd_ne _ _ _ _ _ _ (fun hc => hv0 hc.1)]
  exact hq k'

theorem reverse_mulvv_op_frame (d iz a0 a1 : Nat) (ty : Nat → Nat → ℚ)
    (P : Nat → Nat → ℚ) (v : Nat) (hv0 : v ≠ a0) (hv1 : v ≠ a1) :
    ∀ k, reverse_mulvv_op d iz a0 a1 ty P v k = P v k := by
  unfold reverse_mulvv_op
  refine foldl_inv _ _ _ (fun (Q : Nat → Nat → ℚ) => ∀ k, Q v k = P v k) (fun _ => rfl) ?_
  intro Q j _ hq
  refine foldl_inv _ _ _ (fun (Q' : Nat → Nat → ℚ) => ∀ k, Q' v k = P v k) hq ?_
  intro Q' k _ hq' k'
  rw [padd_ne _ _ _ _ _ _ (fun hc => hv1 hc.1),
    padd_ne _ _ _ _ _ _ (fun hc => hv0 hc.1)]
  exact hq' k'

theorem reverse_csum_op_frame (d iz : Nat) (argAt : Nat → ℤ)
    (P : Nat → Nat → ℚ) (v : Nat)
    (ha : ∀ i, i < (argAt 0).toNat → v ≠ (argAt (3+i)).toNat)
    (hs : ∀ i, i < (argAt 1).toNat → v ≠ (argAt (3+(argAt 0).toNat+i)).toNat) :
    ∀ k, reverse_csum_op d iz argAt P v k = P v k := by
  unfold reverse_csum_op
  refine foldl_inv _ _ _ (fun (Q : Nat → Nat → ℚ) => ∀ k, Q v k = P v k) ?_ ?_
  · refine foldl_inv _ _ _ (fun (Q : Nat → Nat → ℚ) => ∀ k, Q v k = P v k) (fun _ => rfl) ?_
    intro Q i hi hq
    refine foldl_inv _ _ _ (fun (Q' : Nat → Nat → ℚ) => ∀ k, Q' v k = P v k) hq ?_
    intro Q' k _ hq' k'
    rw [padd_ne _ _ _ _ _ _ (fun hc => ha i (List.mem_range.mp hi) hc.1)]
    exact hq' k'
  · intro Q i hi hq
    refine foldl_inv _ _ _ (fun (Q' : Nat → Nat → ℚ) => ∀ k, Q' v k = P v k) hq ?_
    intro Q' k _ hq' k'
    rw [padd_ne _ _ _ _ _ _ (fun hc => hs i (List.mem_range.mp hi) hc.1)]
    exact hq' k'

theorem reverse_load_op_frame (ldmap : Nat → Nat) (d iz : Nat)
    (argAt : Nat → ℤ) (P : Nat → Nat → ℚ) (v : Nat)
    (hv : v ≠ ldmap (argAt 2).toNat) :
    ∀ k, reverse_load_op ldmap d iz argAt P v k = P v k := by
  simp only [reverse_load_op]
  split_ifs with h0
  · refine foldl_inv _ _ _ (fun (Q : Nat → Nat → ℚ) => ∀ k, Q v k = P v k) (fun _ => rfl) ?_
    intro Q k _ hq k'
    rw [padd_ne _ _ _ _ _ _ (fun hc => hv hc.1)]
    exact hq k'
  · exact fun _ => rfl

theorem userScatter_frame (n k1 : Nat) (uix : Nat → Nat) (px : Nat → ℚ)
    (P : Nat → Nat → ℚ) (v : Nat)
    (hv : ∀ j, j < n → 0 < uix j → v ≠ uix j) :
    ∀ k, userScatter n k1 uix px P v k = P v k := by
  intro k
  rw [userScatter_apply]
  have hz : (Finset.range n).sum
      (fun j => if uix j = v ∧ 0 < v then px (j * k1 + k) else 0) = 0 := by
    refine Finset.sum_eq_zero (fun j hj => ?_)
    rw [if_neg]
    rintro ⟨h1, h2⟩
    exact hv j (Finset.mem_range.mp hj) (h1 ▸ h2) h1.symm
  rw [hz]
  split_ifs <;> ring

theorem userScatter_zero (n k1 : Nat) (uix : Nat → Nat)
    (P : Nat → Nat → ℚ) :
    userScatter n k1 uix (fun _ => 0) P = P := by
  funext v k
  rw [userScatter_apply]
  simp

theorem userScatter_congr (n k1 : Nat) {uix uix' : Nat → Nat} (px : Nat → ℚ)
    (P : Nat → Nat → ℚ) (h : ∀ j, j < n → uix j = uix' j) :
    userScatter n k1 uix px P = userScatter n k1 uix' px P := by
  funext v k
  rw [userScatter_apply, userScatter_apply]
  congr 1
  split_ifs with hk
  · exact Finset.sum_congr rfl (fun j hj => by
      rw [h j (Finset.mem_range.mp hj)])
  · rfl

/-! ## The instruction-level reverse fold -/

/-- Dispatch one instruction's records (in reverse) with the full sweep's
switch. -/
def stepInstrF (ctx : Ctx) (ins : SInstr) (p : IPos) (st : St) :
    Except (String × St) St :=
  foldDF ctx (instrDR ins p) st

/-- Reverse traversal of a positioned instruction list with the full sweep's
switch. -/
def foldIF (ctx : Ctx) : List (SInstr × IPos) → St → Except (String × St) St
  | [], st => .ok st
  | e :: rest, st =>
    match foldIF ctx rest st with
    | .error err => .error err
    | .ok st' => stepInstrF ctx e.1 e.2 st'

/-- Rows an instruction's reverse rule may write (its operand rows; for an
indirect load, the map-resolved row; for an atomic group, the variable
argument slots). -/
def writeSet (ctx : Ctx) : SInstr → List Nat
  | .inv => []
  | .addvv a b => [a, b]
  | .mulvv a b => [a, b]
  | .csum adds subs _ => adds ++ subs
  | .cskip _ _ _ _ _ _ _ => []
  | .ldp _ _ ld => [ctx.ldmap ld]
  | .ldv _ _ ld => [ctx.ldmap ld]
  | .atomic _ _ ats _ =>
      ats.filterMap (fun t => match t with | .apar _ => none | .avar v => some v)

/-- A callback handle that is total (never reports failure) and maps zero
result adjoints to zero argument adjoints — the defining property of a
reverse-mode routine at the zero covector. -/
def AtomOk (atom : Atom) : Prop :=
  (∀ k tx ty py, ∃ px, atom.rev k tx ty py = some px) ∧
  (∀ k tx ty, atom.rev k tx ty (fun _ => 0) = some (fun _ => 0))

/-- Well-formedness of an instruction's external dependencies: an atomic
group has at least one argument and one result token and a registered,
well-behaved callback. -/
def GroupOk (ctx : Ctx) : SInstr → Prop
  | .atomic ai _ ats rts => 0 < ats.length ∧ 0 < rts.length ∧
      ∃ atom, ctx.reg ai = some atom ∧ AtomOk atom
  | _ => True

/-! ## Closed forms for the atomic group's buffered data -/

/-- Value an argument token leaves in the argument Taylor buffer at order
`ell`. -/
def tokTxVal (ctx : Ctx) (t : ArgTok) (ell : Nat) : ℚ :=
  match t with
  | .apar p => if ell = 0 then ctx.par p else 0
  | .avar v => ctx.taylor v ell

/-- Variable index an argument token records in `user_ix`. -/
def tokIxVal : ArgTok → Nat
  | .apar _ => 0
  | .avar v => v

/-- Value a result token leaves in the result Taylor buffer at order `ell`;
`v` is the token's result-variable index when it is a variable. -/
def tokTyVal (ctx : Ctx) (t : ResTok) (v ell : Nat) : ℚ :=
  match t with
  | .rpar p => if ell = 0 then ctx.par p else 0
  | .rvar => ctx.taylor v ell

/-- Value a result token leaves in the result adjoint buffer at order
`ell`. -/
def tokPyVal (t : ResTok) (adj : Nat → Nat → ℚ) (v ell : Nat) : ℚ :=
  match t with
  | .rpar _ => 0
  | .rvar => adj v ell

/-- The argument Taylor buffer an atomic group presents to the callback. -/
def groupTx (ctx : Ctx) (ats : List ArgTok) : Nat → ℚ := fun s =>
  let k1 := ctx.d + 1
  if h : s / k1 < ats.length then
    tokTxVal ctx (ats.get ⟨s / k1, h⟩) (s % k1)
  else 0

/-- The result Taylor buffer an atomic group presents to the callback;
`vb` is the variable index of the group's first variable result. -/
def groupTy (ctx : Ctx) (rts : List ResTok) (vb : Nat) : Nat → ℚ := fun s =>
  let k1 := ctx.d + 1
  if h : s / k1 < rts.length then
    tokTyVal ctx (rts.get ⟨s / k1, h⟩)
      (vb + (rts.take (s / k1)).count ResTok.rvar) (s % k1)
  else 0

/-- The result adjoint buffer an atomic group presents to the callback. -/
def groupPy (ctx : Ctx) (rts : List ResTok) (vb : Nat)
    (adj : Nat → Nat → ℚ) : Nat → ℚ := fun s =>
  let k1 := ctx.d + 1
  if h : s / k1 < rts.length then
    tokPyVal (rts.get ⟨s / k1, h⟩) adj
      (vb + (rts.take (s / k1)).count ResTok.rvar) (s % k1)
  else 0

/-- The recorded variable index of each argument slot. -/
def groupIx (ats : List ArgTok) : Nat → Nat := fun j =>
  if h : j < ats.length then tokIxVal (ats.get ⟨j, h⟩) else 0

/-! ## Structure of decoded record lists -/

/-- Result count of a raw record list. -/
def resLen (l : List (OpCode × List ℤ)) : Nat :=
  (l.map (fun r => NumRes r.fst)).sum

theorem resLen_cons (op : OpCode) (args : List ℤ)
    (l : List (OpCode × List ℤ)) :
    resLen ((op, args) :: l) = NumRes op + resLen l := by
  simp [resLen]

theorem withPos_append (l1 l2 : List (OpCode × List ℤ)) (i v : Nat) :
    withPos (l1 ++ l2) i v =
      withPos l1 i v ++ withPos l2 (i + l1.length) (v + resLen l1) := by
  induction l1 generalizing i v with
  | nil => simp [withPos, resLen]
  | cons r l1 ih =>
    obtain ⟨op, args⟩ := r
    simp only [List.cons_append, withPos, List.length_cons, resLen_cons,
      List.append_eq]
    rw [ih,
      show i + (l1.length + 1) = (i + 1) + l1.length from by omega,
      show v + (NumRes op + resLen l1) = (v + NumRes op) + resLen l1 from by omega]

theorem foldDF_append (ctx : Ctx) (l1 l2 : List DRec) (st : St) :
    foldDF ctx (l1 ++ l2) st =
      match foldDF ctx l2 st with
      | .error e => .error e
      | .ok st' => foldDF ctx l1 st' := by
  unfold foldDF
  rw [List.reverse_append, List.foldlM_append]
  cases (l2.reverse).foldlM
      (fun st r => stepOpF ctx (fun k => r.args.getD k 0) r.iop r.ivar r.op st)
      st with
  | error e => rfl
  | ok st' => rfl

theorem foldDF_single (ctx : Ctx) (r : DRec) (st : St) :
    foldDF ctx [r] st =
      stepOpF ctx (fun k => r.args.getD k 0) r.iop r.ivar r.op st := by
  unfold foldDF
  simp only [List.reverse_singleton, List.foldlM_cons, List.foldlM_nil]
  cases stepOpF ctx (fun k => r.args.getD k 0) r.iop r.ivar r.op st with
  | error e => rfl
  | ok st' => rfl

/-! ## Per-instruction dispatch: the non-atomic cases -/

theorem stepInstrF_inv (ctx : Ctx) (p : IPos) (st : St) :
    stepInstrF ctx .inv p st = .ok st := by
  simp [stepInstrF, instrDR, encode1, withPos, foldDF_single, stepOpF]

theorem stepInstrF_cskip (ctx : Ctx) (h1 h2 h3 h4 h5 h6 : ℤ) (idx : List ℤ)
    (p : IPos) (st : St) :
    stepInstrF ctx (.cskip h1 h2 h3 h4 h5 h6 idx) p st =
      .ok { st with events := .cskipAdv p.opB :: st.events } := by
  simp [stepInstrF, instrDR, encode1, withPos, foldDF_single, stepOpF]

theorem stepInstrF_addvv (ctx : Ctx) (a b : Nat) (p : IPos) (st : St) :
    stepInstrF ctx (.addvv a b) p st =
      .ok { st with adj := reverse_addvv_op ctx.d p.varB a b st.adj } := by
  simp [stepInstrF, instrDR, encode1, withPos, foldDF_single, stepOpF,
    Int.toNat_natCast]

theorem stepInstrF_mulvv (ctx : Ctx) (a b : Nat) (p : IPos) (st : St) :
    stepInstrF ctx (.mulvv a b) p st =
      .ok { st with adj := reverse_mulvv_op ctx.d p.varB a b ctx.taylor st.adj } := by
  simp [stepInstrF, instrDR, encode1, withPos, foldDF_single, stepOpF,
    Int.toNat_natCast]

theorem stepInstrF_csum (ctx : Ctx) (adds subs : List Nat) (q : Nat)
    (p : IPos) (st : St) :
    stepInstrF ctx (.csum adds subs q) p st =
      .ok { st with
        adj :=
          reverse_csum_op ctx.d p.varB (fun k => (csumArgs adds subs q).getD k 0) st.adj
        events := .csumAdv p.opB :: st.events } := by
  simp [stepInstrF, instrDR, encode1, withPos, foldDF_single, stepOpF]

theorem stepInstrF_ldp (ctx : Ctx) (x y : ℤ) (ld : Nat) (p : IPos) (st : St) :
    stepInstrF ctx (.ldp x y ld) p st =
      .ok { st with
        adj :=
          reverse_load_op ctx.ldmap ctx.d p.varB (fun k => [x, y, (ld : ℤ)].getD k 0) st.adj } := by
  simp [stepInstrF, instrDR, encode1, withPos, foldDF_single, stepOpF]

theorem stepInstrF_ldv (ctx : Ctx) (x y : ℤ) (ld : Nat) (p : IPos) (st : St) :
    stepInstrF ctx (.ldv x y ld) p st =
      .ok { st with
        adj :=
          reverse_load_op ctx.ldmap ctx.d p.varB (fun k => [x, y, (ld : ℤ)].getD k 0) st.adj } := by
  simp [stepInstrF, instrDR, encode1, withPos, foldDF_single, stepOpF]

/-! ## Block-slot arithmetic -/

theorem blockDiv (k a e : Nat) (he : e < k) : (a * k + e) / k = a := by
  rw [Nat.mul_comm, Nat.mul_add_div (by omega)]
  simp [Nat.div_eq_of_lt he]

theorem blockMod (k a e : Nat) (he : e < k) : (a * k + e) % k = e := by
  rw [Nat.add_mod, Nat.mul_mod_left]
  simp [Nat.mod_eq_of_lt he]

theorem resLen_encTokA (ats : List ArgTok) : resLen (ats.map encTokA) = 0 := by
  induction ats with
  | nil => rfl
  | cons t ats ih =>
    cases t <;> simp [encTokA, resLen_cons, NumRes, ih]

theorem resLen_encTokR (rts : List ResTok) :
    resLen (rts.map encTokR) = rts.count ResTok.rvar := by
  induction rts with
  | nil => rfl
  | cons t rts ih =>
    cases t <;> simp [encTokR, resLen_cons, NumRes, ih, List.count_cons] <;> omega

/-! ## Reading the group closed forms at a block slot -/

theorem groupTy_at (ctx : Ctx) (rts : List ResTok) (vb i ell : Nat)
    (hi : i < rts.length) (hell : ell < ctx.d + 1) :
    groupTy ctx rts vb (i * (ctx.d + 1) + ell) =
      tokTyVal ctx (rts.get ⟨i, hi⟩)
        (vb + (rts.take i).count ResTok.rvar) ell := by
  unfold groupTy
  simp only [blockDiv _ _ _ hell, blockMod _ _ _ hell, dif_pos hi]

theorem groupPy_at (ctx : Ctx) (rts : List ResTok) (vb i ell : Nat)
    (adj : Nat → Nat → ℚ) (hi : i < rts.length) (hell : ell < ctx.d + 1) :
    groupPy ctx rts vb adj (i * (ctx.d + 1) + ell) =
      tokPyVal (rts.get ⟨i, hi⟩) adj
        (vb + (rts.take i).count ResTok.rvar) ell := by
  unfold groupPy
  simp only [blockDiv _ _ _ hell, blockMod _ _ _ hell, dif_pos hi]

theorem groupTx_at (ctx : Ctx) (ats : List ArgTok) (i ell : Nat)
    (hi : i < ats.length) (hell : ell < ctx.d + 1) :
    groupTx ctx ats (i * (ctx.d + 1) + ell) =
      tokTxVal ctx (ats.get ⟨i, hi⟩) ell := by
  unfold groupTx
  simp only [blockDiv _ _ _ hell, blockMod _ _ _ hell, dif_pos hi]

theorem groupTy_ge (ctx : Ctx) (rts : List ResTok) (vb s : Nat)
    (h : rts.length * (ctx.d + 1) ≤ s) : groupTy ctx rts vb s = 0 := by
  unfold groupTy
  rw [dif_neg]
  rw [not_lt]
  exact (Nat.le_div_iff_mul_le (by omega)).mpr h

theorem groupPy_ge (ctx : Ctx) (rts : List ResTok) (vb s : Nat)
    (adj : Nat → Nat → ℚ) (h : rts.length * (ctx.d + 1) ≤ s) :
    groupPy ctx rts vb adj s = 0 := by
  unfold groupPy
  rw [dif_neg]
  rw [not_lt]
  exact (Nat.le_div_iff_mul_le (by omega)).mpr h

theorem groupTx_ge (ctx : Ctx) (ats : List ArgTok) (s : Nat)
    (h : ats.length * (ctx.d + 1) ≤ s) : groupTx ctx ats s = 0 := by
  unfold groupTx
  rw [dif_neg]
  rw [not_lt]
  exact (Nat.le_div_iff_mul_le (by omega)).mpr h

theorem groupTy_append_lt (ctx : Ctx) (A : List ResTok) (t : ResTok)
    (vb i ell : Nat) (hi : i < A.length) (hell : ell < ctx.d + 1) :
    groupTy ctx (A ++ [t]) vb (i * (ctx.d + 1) + ell) =
      groupTy ctx A vb (i * (ctx.d + 1) + ell) := by
  rw [groupTy_at ctx (A ++ [t]) vb i ell
      (by simpa using Nat.lt_succ_of_lt hi) hell,
    groupTy_at ctx A vb i ell hi hell,
    List.get_append i hi,
    List.take_append_of_le_length (Nat.le_of_lt hi)]

theorem groupPy_append_lt (ctx : Ctx) (A : List ResTok) (t : ResTok)
    (vb i ell : Nat) (adj : Nat → Nat → ℚ)
    (hi : i < A.length) (hell : ell < ctx.d + 1) :
    groupPy ctx (A ++ [t]) vb adj (i * (ctx.d + 1) + ell) =
      groupPy ctx A vb adj (i * (ctx.d + 1) + ell) := by
  rw [groupPy_at ctx (A ++ [t]) vb i ell adj
      (by simpa using Nat.lt_succ_of_lt hi) hell,
    groupPy_at ctx A vb i ell adj hi hell,
    List.get_append i hi,
    List.take_append_of_le_length (Nat.le_of_lt hi)]

theorem groupTx_append_lt (ctx : Ctx) (A : List ArgTok) (t : ArgTok)
    (i ell : Nat) (hi : i < A.length) (hell : ell < ctx.d + 1) :
    groupTx ctx (A ++ [t]) (i * (ctx.d + 1) + ell) =
      groupTx ctx A (i * (ctx.d + 1) + ell) := by
  rw [groupTx_at ctx (A ++ [t]) i ell
      (by simpa using Nat.lt_succ_of_lt hi) hell,
    groupTx_at ctx A i ell hi hell,
    List.get_append i hi]

theorem group_get_last {α : Type} (A : List α) (t : α)
    (h : A.length < (A ++ [t]).length) : (A ++ [t]).get ⟨A.length, h⟩ = t := by
  simp

theorem group_take_last {α : Type} (A : List α) (t : α) :
    (A ++ [t]).take A.length = A :=
  (List.take_append_of_le_length (Nat.le_refl _)).trans (List.take_length A)

/-! ## Single-token steps of the atomic protocol -/

theorem stepTokR (ctx : Ctx) (t : ResTok) (i v : Nat) (st : St)
    (hst : st.ustate = .uRet) (hpos : 0 < st.ui) (hle : st.ui ≤ st.um) :
    ∃ st1, foldDF ctx (withPos [encTokR t] i v) st = .ok st1 ∧
      st1.ustate = (if st.ui - 1 = 0 then UState.uArg else st.ustate) ∧
      st1.ui = st.ui - 1 ∧ st1.uj = st.uj ∧ st1.adj = st.adj ∧
      st1.uix = st.uix ∧ st1.utx = st.utx ∧ st1.un = st.un ∧
      st1.um = st.um ∧ st1.uindex = st.uindex ∧ st1.uid = st.uid ∧
      st1.events = st.events ∧ st1.upx = st.upx ∧
      (∀ ell, ell < ctx.d + 1 →
        st1.upy ((st.ui - 1) * (ctx.d + 1) + ell) = tokPyVal t st.adj v ell ∧
        st1.uty ((st.ui - 1) * (ctx.d + 1) + ell) = tokTyVal ctx t v ell) ∧
      (∀ s, (∀ ell, ell < ctx.d + 1 → s ≠ (st.ui - 1) * (ctx.d + 1) + ell) →
        st1.upy s = st.upy s ∧ st1.uty s = st.uty s) := by
  cases t with
  | rpar p =>
    have hstep : foldDF ctx (withPos [encTokR (.rpar p)] i v) st =
        stepUsrrp ctx (fun k => [(p : ℤ)].getD k 0) st := by
      simp [encTokR, withPos, foldDF_single, stepOpF]
    rw [stepUsrrp, if_neg (not_not_intro hst),
      if_neg (not_not_intro ⟨hpos, hle⟩)] at hstep
    refine ⟨_, hstep, rfl, rfl, rfl, rfl, rfl, rfl, rfl, rfl, rfl, rfl, rfl,
      rfl, ?_, ?_⟩
    · intro ell hell
      constructor
      · simpa [tokPyVal] using foldWrite_at (ctx.d + 1) (fun _ => (0 : ℚ))
          st.upy ((st.ui - 1) * (ctx.d + 1)) ell hell
      · show upd1 _ ((st.ui - 1) * (ctx.d + 1)) _ _ = _
        rw [upd1_apply]
        by_cases h0 : ell = 0
        · subst h0
          rw [if_pos (by omega)]
          simp [tokTyVal]
        · rw [if_neg (by
            intro hc
            exact h0 (by omega))]
          rw [show tokTyVal ctx (ResTok.rpar p) v ell = 0 by
            simp [tokTyVal, h0]]
          exact foldWrite_at (ctx.d + 1) (fun _ => (0 : ℚ)) st.uty
            ((st.ui - 1) * (ctx.d + 1)) ell hell
    · intro s hs
      constructor
      · exact foldWrite_ne (ctx.d + 1) _ st.upy ((st.ui - 1) * (ctx.d + 1)) s
          (fun e he hc => hs e he hc)
      · show upd1 _ ((st.ui - 1) * (ctx.d + 1)) _ _ = _
        rw [upd1_apply, if_neg (by have := hs 0 (by omega); omega)]
        exact foldWrite_ne (ctx.d + 1) _ st.uty ((st.ui - 1) * (ctx.d + 1)) s
          (fun e he hc => hs e he hc)
  | rvar =>
    have hstep : foldDF ctx (withPos [encTokR .rvar] i v) st =
        stepUsrrv ctx v st := by
      simp [encTokR, withPos, foldDF_single, stepOpF]
    rw [stepUsrrv, if_neg (not_not_intro hst),
      if_neg (not_not_intro ⟨hpos, hle⟩)] at hstep
    refine ⟨_, hstep, rfl, rfl, rfl, rfl, rfl, rfl, rfl, rfl, rfl, rfl, rfl,
      rfl, ?_, ?_⟩
    · intro ell hell
      refine ⟨?_, ?_⟩
      · simpa [tokPyVal] using foldWrite_at (ctx.d + 1)
          (fun e => st.adj v e) st.upy ((st.ui - 1) * (ctx.d + 1)) ell hell
      · simpa [tokTyVal] using foldWrite_at (ctx.d + 1)
          (fun e => ctx.taylor v e) st.uty ((st.ui - 1) * (ctx.d + 1)) ell hell
    · intro s hs
      exact ⟨foldWrite_ne (ctx.d + 1) _ st.upy ((st.ui - 1) * (ctx.d + 1)) s
          (fun e he hc => hs e he hc),
        foldWrite_ne (ctx.d + 1) _ st.uty ((st.ui - 1) * (ctx.d + 1)) s
          (fun e he hc => hs e he hc)⟩


theorem stepTokA (ctx : Ctx) (t : ArgTok) (i v : Nat) (st : St)
    (hst : st.ustate = .uArg) (hpos : 0 < st.uj) (hle : st.uj ≤ st.un) :
    ∃ st1, foldDF ctx (withPos [encTokA t] i v) st = .ok st1 ∧
      st1.ustate = (if st.uj - 1 = 0 then UState.uStart else st.ustate) ∧
      st1.uj = st.uj - 1 ∧ st1.ui = st.ui ∧ st1.adj = st.adj ∧
      st1.upy = st.upy ∧ st1.uty = st.uty ∧ st1.un = st.un ∧
      st1.um = st.um ∧ st1.uindex = st.uindex ∧ st1.uid = st.uid ∧
      st1.events = st.events ∧ st1.upx = st.upx ∧
      st1.uix (st.uj - 1) = tokIxVal t ∧
      (∀ j, j ≠ st.uj - 1 → st1.uix j = st.uix j) ∧
      (∀ ell, ell < ctx.d + 1 →
        st1.utx ((st.uj - 1) * (ctx.d + 1) + ell) = tokTxVal ctx t ell) ∧
      (∀ s, (∀ ell, ell < ctx.d + 1 → s ≠ (st.uj - 1) * (ctx.d + 1) + ell) →
        st1.utx s = st.utx s) := by
  cases t with
  | apar p =>
    have hstep : foldDF ctx (withPos [encTokA (.apar p)] i v) st =
        stepUsrap ctx (fun k => [(p : ℤ)].getD k 0) st := by
      simp [encTokA, withPos, foldDF_single, stepOpF]
    rw [stepUsrap, if_neg (not_not_intro hst),
      if_neg (not_not_intro ⟨hpos, hle⟩)] at hstep
    refine ⟨_, hstep, rfl, rfl, rfl, rfl, rfl, rfl, rfl, rfl, rfl, rfl, rfl,
      rfl, ?_, ?_, ?_, ?_⟩
    · show upd1 st.uix (st.uj - 1) 0 (st.uj - 1) = tokIxVal (.apar p)
      rw [upd1_apply, if_pos rfl]
      rfl
    · intro j hj
      show upd1 st.uix (st.uj - 1) 0 j = st.uix j
      rw [upd1_apply, if_neg hj]
    · intro ell hell
      show (List.range ctx.d).foldl
          (fun f e => upd1 f ((st.uj - 1) * (ctx.d + 1) + (e + 1)) 0)
          (upd1 st.utx ((st.uj - 1) * (ctx.d + 1))
            (ctx.par ([(p : ℤ)].getD 0 0).toNat))
          ((st.uj - 1) * (ctx.d + 1) + ell) = tokTxVal ctx (.apar p) ell
      have hbody : (fun (f : Nat → ℚ) e =>
          upd1 f ((st.uj - 1) * (ctx.d + 1) + (e + 1)) (0 : ℚ)) =
          (fun f e => upd1 f (((st.uj - 1) * (ctx.d + 1) + 1) + e)
            ((fun _ => (0 : ℚ)) e)) := by
        funext f e
        rw [show (st.uj - 1) * (ctx.d + 1) + (e + 1) =
          ((st.uj - 1) * (ctx.d + 1) + 1) + e from by omega]
      rw [hbody]
      by_cases h0 : ell = 0
      · subst h0
        rw [foldWrite_ne ctx.d (fun _ => (0 : ℚ)) _
          ((st.uj - 1) * (ctx.d + 1) + 1) _ (fun e he hc => by omega)]
        rw [upd1_apply, if_pos (by omega)]
        simp [tokTxVal]
      · have hsplit : (st.uj - 1) * (ctx.d + 1) + ell =
            ((st.uj - 1) * (ctx.d + 1) + 1) + (ell - 1) := by omega
        rw [hsplit, foldWrite_at ctx.d (fun _ => (0 : ℚ)) _
          ((st.uj - 1) * (ctx.d + 1) + 1) (ell - 1) (by omega)]
        simp [tokTxVal, h0]
    · intro s hs
      show (List.range ctx.d).foldl
          (fun f e => upd1 f ((st.uj - 1) * (ctx.d + 1) + (e + 1)) 0)
          (upd1 st.utx ((st.uj - 1) * (ctx.d + 1))
            (ctx.par ([(p : ℤ)].getD 0 0).toNat)) s = st.utx s
      have hbody : (fun (f : Nat → ℚ) e =>
          upd1 f ((st.uj - 1) * (ctx.d + 1) + (e + 1)) (0 : ℚ)) =
          (fun f e => upd1 f (((st.uj - 1) * (ctx.d + 1) + 1) + e)
            ((fun _ => (0 : ℚ)) e)) := by
        funext f e
        rw [show (st.uj - 1) * (ctx.d + 1) + (e + 1) =
          ((st.uj - 1) * (ctx.d + 1) + 1) + e from by omega]
      rw [hbody, foldWrite_ne ctx.d (fun _ => (0 : ℚ)) _
        ((st.uj - 1) * (ctx.d + 1) + 1) s
        (fun e he => by have := hs (e + 1) (by omega); omega)]
      rw [upd1_apply, if_neg (by have := hs 0 (by omega); omega)]
  | avar w =>
    have hstep : foldDF ctx (withPos [encTokA (.avar w)] i v) st =
        stepUsrav ctx (fun k => [(w : ℤ)].getD k 0) st := by
      simp [encTokA, withPos, foldDF_single, stepOpF]
    rw [stepUsrav, if_neg (not_not_intro hst),
      if_neg (not_not_intro ⟨hpos, hle⟩)] at hstep
    refine ⟨_, hstep, rfl, rfl, rfl, rfl, rfl, rfl, rfl, rfl, rfl, rfl, rfl,
      rfl, ?_, ?_, ?_, ?_⟩
    · show upd1 st.uix (st.uj - 1) (([(w : ℤ)].getD 0 0).toNat) (st.uj - 1) =
        tokIxVal (.avar w)
      rw [upd1_apply, if_pos rfl]
      simp [tokIxVal]
    · intro j hj
      show upd1 st.uix (st.uj - 1) _ j = st.uix j
      rw [upd1_apply, if_neg hj]
    · intro ell hell
      have := foldWrite_at (ctx.d + 1)
        (fun e => ctx.taylor ([(w : ℤ)].getD 0 0).toNat e) st.utx
        ((st.uj - 1) * (ctx.d + 1)) ell hell
      simpa [tokTxVal] using this
    · intro s hs
      exact foldWrite_ne (ctx.d + 1) _ st.utx ((st.uj - 1) * (ctx.d + 1)) s
        (fun e he hc => hs e he hc)



/-! ## The result-token phase of an atomic group -/

/-- State facts after processing all result tokens of an atomic group. -/
structure ResPhaseOut (ctx : Ctx) (rts : List ResTok) (vb : Nat)
    (st st' : St) : Prop where
  hust : st'.ustate = if rts.length = 0 then st.ustate else UState.uArg
  hui : st'.ui = 0
  huj : st'.uj = st.uj
  hadj : st'.adj = st.adj
  huix : st'.uix = st.uix
  hutx : st'.utx = st.utx
  hun : st'.un = st.un
  hum : st'.um = st.um
  huindex : st'.uindex = st.uindex
  huid : st'.uid = st.uid
  hev : st'.events = st.events
  hupx : st'.upx = st.upx
  hw : ∀ i ell, i < rts.length → ell < ctx.d + 1 →
    st'.upy (i * (ctx.d + 1) + ell) =
      groupPy ctx rts vb st.adj (i * (ctx.d + 1) + ell) ∧
    st'.uty (i * (ctx.d + 1) + ell) =
      groupTy ctx rts vb (i * (ctx.d + 1) + ell)
  hfr : ∀ s, rts.length * (ctx.d + 1) ≤ s →
    st'.upy s = st.upy s ∧ st'.uty s = st.uty s

theorem resPhase (ctx : Ctx) (rts : List ResTok) : ∀ (opB vb : Nat) (st : St),
    st.ustate = .uRet → st.ui = rts.length → rts.length ≤ st.um →
    ∃ st', foldDF ctx (withPos (rts.map encTokR) opB vb) st = .ok st' ∧
      ResPhaseOut ctx rts vb st st' := by
  induction rts using List.reverseRecOn with
  | nil =>
    intro opB vb st hst hui hle
    refine ⟨st, rfl, ?_⟩
    exact {
      hust := by simp
      hui := by simpa using hui
      huj := rfl, hadj := rfl, huix := rfl, hutx := rfl, hun := rfl
      hum := rfl, huindex := rfl, huid := rfl, hev := rfl, hupx := rfl
      hw := by intro i ell hi _; simp at hi
      hfr := fun s _ => ⟨rfl, rfl⟩ }
  | append_singleton A t ih =>
    intro opB vb st hst hui hle
    have hui' : st.ui = A.length + 1 := by simpa using hui
    have hle' : A.length + 1 ≤ st.um := by simpa using hle
    have hrec : withPos ((A ++ [t]).map encTokR) opB vb =
        withPos (A.map encTokR) opB vb ++
          withPos [encTokR t] (opB + A.length) (vb + A.count ResTok.rvar) := by
      rw [List.map_append, withPos_append, List.length_map, resLen_encTokR]
      rfl
    rw [hrec, foldDF_append]
    obtain ⟨st1, hstep, c1, c2, c3, c4, c5, c6, c7, c8, c9, c10, c11, c12,
        hw1, hfr1⟩ :=
      stepTokR ctx t (opB + A.length) (vb + A.count ResTok.rvar) st hst
        (by omega) (by omega)
    rw [hstep]
    have hmul : (A.length + 1) * (ctx.d + 1) =
        A.length * (ctx.d + 1) + (ctx.d + 1) := Nat.succ_mul _ _
    by_cases hA : A.length = 0
    · obtain rfl : A = [] := List.length_eq_zero.mp hA
      simp only [List.length_nil] at hui' hle'
      have h0 : st.ui - 1 = 0 := by omega
      refine ⟨st1, rfl, ?_⟩
      show ResPhaseOut ctx ([] ++ [t]) vb st st1
      refine {
        hust := by rw [c1, h0, if_pos rfl, if_neg (by simp)]
        hui := by omega
        huj := c3, hadj := c4, huix := c5, hutx := c6, hun := c7
        hum := c8, huindex := c9, huid := c10, hev := c11, hupx := c12
        hw := ?_, hfr := ?_ }
      · intro i ell hi hell
        have hi0 : i = 0 := by simpa using hi
        subst hi0
        obtain ⟨hpy, hty⟩ := hw1 ell hell
        rw [h0] at hpy hty
        constructor
        · rw [hpy, groupPy_at ctx ([] ++ [t]) vb 0 ell st.adj (by simp) hell]
          simp
        · rw [hty, groupTy_at ctx ([] ++ [t]) vb 0 ell (by simp) hell]
          simp
      · intro s hsle
        simp only [List.length_append, List.length_nil,
          List.length_singleton, Nat.zero_add, Nat.one_mul] at hsle
        refine hfr1 s (fun ell hell hc => ?_)
        rw [h0] at hc
        simp only [Nat.zero_mul, Nat.zero_add] at hc
        omega
    · have hst1 : st1.ustate = .uRet := by
        rw [c1, if_neg (by omega), hst]
      have hui1 : st1.ui = A.length := by omega
      have hle1 : A.length ≤ st1.um := by rw [c8]; omega
      obtain ⟨st2, hstep2, O⟩ := ih opB vb st1 hst1 hui1 (by omega)
      refine ⟨st2, hstep2, ?_⟩
      refine {
        hust := by
          rw [O.hust, if_neg hA, if_neg (by simp)]
        hui := O.hui
        huj := O.huj.trans c3
        hadj := O.hadj.trans c4
        huix := O.huix.trans c5
        hutx := O.hutx.trans c6
        hun := O.hun.trans c7
        hum := O.hum.trans c8
        huindex := O.huindex.trans c9
        huid := O.huid.trans c10
        hev := O.hev.trans c11
        hupx := O.hupx.trans c12
        hw := ?_, hfr := ?_ }
      · intro i ell hi hell
        have hi' : i < A.length + 1 := by simpa using hi
        rcases Nat.lt_succ_iff_lt_or_eq.mp hi' with hiA | hiA
        · obtain ⟨hpy, hty⟩ := O.hw i ell hiA hell
          rw [c4] at hpy
          constructor
          · rw [hpy, groupPy_append_lt ctx A t vb i ell st.adj hiA hell]
          · rw [hty, groupTy_append_lt ctx A t vb i ell hiA hell]
        · subst hiA
          obtain ⟨hfy, hft⟩ := O.hfr (A.length * (ctx.d + 1) + ell)
            (by omega)
          obtain ⟨hpy, hty⟩ := hw1 ell hell
          have h1 : st.ui - 1 = A.length := by omega
          rw [h1] at hpy hty
          constructor
          · rw [hfy, hpy,
              groupPy_at ctx (A ++ [t]) vb A.length ell st.adj
                (by simp) hell,
              group_get_last, group_take_last]
          · rw [hft, hty,
              groupTy_at ctx (A ++ [t]) vb A.length ell (by simp) hell,
              group_get_last, group_take_last]
      · intro s hsle
        simp only [List.length_append, List.length_singleton] at hsle
        obtain ⟨hfy, hft⟩ := O.hfr s (by omega)
        obtain ⟨hgy, hgt⟩ := hfr1 s (fun ell hell hc => by
          have h1 : st.ui - 1 = A.length := by omega
          rw [h1] at hc
          omega)
        exact ⟨hfy.trans hgy, hft.trans hgt⟩



/-! ## The argument-token phase of an atomic group -/

/-- State facts after processing all argument tokens of an atomic group. -/
structure ArgPhaseOut (ctx : Ctx) (ats : List ArgTok) (st st' : St) : Prop where
  hust : st'.ustate = if ats.length = 0 then st.ustate else UState.uStart
  huj : st'.uj = 0
  hui : st'.ui = st.ui
  hadj : st'.adj = st.adj
  hupy : st'.upy = st.upy
  huty : st'.uty = st.uty
  hun : st'.un = st.un
  hum : st'.um = st.um
  huindex : st'.uindex = st.uindex
  huid : st'.uid = st.uid
  hev : st'.events = st.events
  hupx : st'.upx = st.upx
  hix : ∀ j, j < ats.length → st'.uix j = groupIx ats j
  hixfr : ∀ j, ats.length ≤ j → st'.uix j = st.uix j
  hw : ∀ i ell, i < ats.length → ell < ctx.d + 1 →
    st'.utx (i * (ctx.d + 1) + ell) = groupTx ctx ats (i * (ctx.d + 1) + ell)
  hfr : ∀ s, ats.length * (ctx.d + 1) ≤ s → st'.utx s = st.utx s

theorem argPhase (ctx : Ctx) (ats : List ArgTok) : ∀ (opB vb : Nat) (st : St),
    st.ustate = .uArg → st.uj = ats.length → ats.length ≤ st.un →
    ∃ st', foldDF ctx (withPos (ats.map encTokA) opB vb) st = .ok st' ∧
      ArgPhaseOut ctx ats st st' := by
  induction ats using List.reverseRecOn with
  | nil =>
    intro opB vb st hst huj hle
    refine ⟨st, rfl, ?_⟩
    exact {
      hust := by simp
      huj := by simpa using huj
      hui := rfl, hadj := rfl, hupy := rfl, huty := rfl, hun := rfl
      hum := rfl, huindex := rfl, huid := rfl, hev := rfl, hupx := rfl
      hix := by intro j hj; simp at hj
      hixfr := fun j _ => rfl
      hw := by intro i ell hi _; simp at hi
      hfr := fun s _ => rfl }
  | append_singleton A t ih =>
    intro opB vb st hst huj hle
    have huj' : st.uj = A.length + 1 := by simpa using huj
    have hle' : A.length + 1 ≤ st.un := by simpa using hle
    have hrec : withPos ((A ++ [t]).map encTokA) opB vb =
        withPos (A.map encTokA) opB vb ++
          withPos [encTokA t] (opB + A.length) (vb + 0) := by
      rw [List.map_append, withPos_append, List.length_map, resLen_encTokA]
      rfl
    rw [hrec, foldDF_append]
    obtain ⟨st1, hstep, c1, c2, c3, c4, c5, c6, c7, c8, c9, c10, c11, c12,
        cix, cixfr, hw1, hfr1⟩ :=
      stepTokA ctx t (opB + A.length) (vb + 0) st hst (by omega) (by omega)
    rw [hstep]
    have hmul : (A.length + 1) * (ctx.d + 1) =
        A.length * (ctx.d + 1) + (ctx.d + 1) := Nat.succ_mul _ _
    by_cases hA : A.length = 0
    · obtain rfl : A = [] := List.length_eq_zero.mp hA
      simp only [List.length_nil] at huj' hle'
      have h0 : st.uj - 1 = 0 := by omega
      refine ⟨st1, rfl, ?_⟩
      show ArgPhaseOut ctx ([] ++ [t]) st st1
      refine {
        hust := by rw [c1, h0, if_pos rfl, if_neg (by simp)]
        huj := by omega
        hui := c3, hadj := c4, hupy := c5, huty := c6, hun := c7
        hum := c8, huindex := c9, huid := c10, hev := c11, hupx := c12
        hix := ?_, hixfr := ?_, hw := ?_, hfr := ?_ }
      · intro j hj
        have hj0 : j = 0 := by simpa using hj
        subst hj0
        rw [h0] at cix
        rw [cix]
        unfold groupIx
        rw [dif_pos (by simp)]
        simp
      · intro j hj
        have hj1 : 1 ≤ j := by simpa using hj
        rw [cixfr j (by omega)]
      · intro i ell hi hell
        have hi0 : i = 0 := by simpa using hi
        subst hi0
        have := hw1 ell hell
        rw [h0] at this
        rw [this, groupTx_at ctx ([] ++ [t]) 0 ell (by simp) hell]
        simp
      · intro s hsle
        simp only [List.length_append, List.length_nil,
          List.length_singleton, Nat.zero_add, Nat.one_mul] at hsle
        refine hfr1 s (fun ell hell hc => ?_)
        rw [h0] at hc
        simp only [Nat.zero_mul, Nat.zero_add] at hc
        omega
    · have hst1 : st1.ustate = .uArg := by
        rw [c1, if_neg (by omega), hst]
      have huj1 : st1.uj = A.length := by omega
      obtain ⟨st2, hstep2, O⟩ := ih opB vb st1 hst1 huj1 (by rw [c7]; omega)
      refine ⟨st2, hstep2, ?_⟩
      refine {
        hust := by rw [O.hust, if_neg hA, if_neg (by simp)]
        huj := O.huj
        hui := O.hui.trans c3
        hadj := O.hadj.trans c4
        hupy := O.hupy.trans c5
        huty := O.huty.trans c6
        hun := O.hun.trans c7
        hum := O.hum.trans c8
        huindex := O.huindex.trans c9
        huid := O.huid.trans c10
        hev := O.hev.trans c11
        hupx := O.hupx.trans c12
        hix := ?_, hixfr := ?_, hw := ?_, hfr := ?_ }
      · intro j hj
        have hj' : j < A.length + 1 := by simpa using hj
        rcases Nat.lt_succ_iff_lt_or_eq.mp hj' with hjA | hjA
        · rw [O.hix j hjA]
          unfold groupIx
          rw [dif_pos hjA, dif_pos (by simp; omega)]
          congr 1
          exact (List.get_append j hjA).symm
        · subst hjA
          rw [O.hixfr A.length (Nat.le_refl _)]
          have h1 : st.uj - 1 = A.length := by omega
          rw [h1] at cix
          rw [cix]
          unfold groupIx
          rw [dif_pos (by simp)]
          rw [group_get_last]
      · intro j hj
        simp only [List.length_append, List.length_singleton] at hj
        rw [O.hixfr j (by omega), cixfr j (by omega)]
      · intro i ell hi hell
        have hi' : i < A.length + 1 := by simpa using hi
        rcases Nat.lt_succ_iff_lt_or_eq.mp hi' with hiA | hiA
        · rw [O.hw i ell hiA hell,
            groupTx_append_lt ctx A t i ell hiA hell]
        · subst hiA
          rw [O.hfr (A.length * (ctx.d + 1) + ell) (by omega)]
          have h1 : st.uj - 1 = A.length := by omega
          have := hw1 ell hell
          rw [h1] at this
          rw [this, groupTx_at ctx (A ++ [t]) A.length ell (by simp) hell,
            group_get_last]
      · intro s hsle
        simp only [List.length_append, List.length_singleton] at hsle
        rw [O.hfr s (by omega)]
        refine hfr1 s (fun ell hell hc => by
          have h1 : st.uj - 1 = A.length := by omega
          rw [h1] at hc
          omega)



/-! ## The marker steps of an atomic group -/

theorem foldDF_cons (ctx : Ctx) (r : DRec) (l : List DRec) (st : St) :
    foldDF ctx (r :: l) st =
      match foldDF ctx l st with
      | .error e => .error e
      | .ok st' =>
          stepOpF ctx (fun k => r.args.getD k 0) r.iop r.ivar r.op st' := by
  have : r :: l = [r] ++ l := rfl
  rw [this, foldDF_append]
  cases foldDF ctx l st with
  | error e => rfl
  | ok st' =>
    show foldDF ctx [r] st' = _
    rw [foldDF_single]

theorem closeStep (ctx : Ctx) (ai aid n m iop ivar : Nat) (st : St)
    (atom : Atom) (hst : st.ustate = .uEnd) (hreg : ctx.reg ai = some atom) :
    stepOpF ctx (fun k => [(ai : ℤ), (aid : ℤ), (n : ℤ), (m : ℤ)].getD k 0)
      iop ivar UserOp st =
      .ok { st with uindex := ai, uid := aid, un := n, um := m,
                    uj := n, ui := m, ustate := .uRet } := by
  simp [stepOpF, stepUserF, hst, stepUserEndF, hreg, Int.toNat_natCast]

theorem openStep (ctx : Ctx) (ai aid n m iop ivar : Nat) (st : St)
    (atom : Atom) (px : Nat → ℚ)
    (hst : st.ustate = .uStart) (hix : st.uindex = ai) (hid : st.uid = aid)
    (hn : st.un = n) (hm : st.um = m) (hreg : ctx.reg ai = some atom)
    (hrev : atom.rev ctx.d (trunc (n * (ctx.d + 1)) st.utx)
      (trunc (m * (ctx.d + 1)) st.uty)
      (trunc (m * (ctx.d + 1)) st.upy) = some px) :
    stepOpF ctx (fun k => [(ai : ℤ), (aid : ℤ), (n : ℤ), (m : ℤ)].getD k 0)
      iop ivar UserOp st =
      .ok { st with
        adj := userScatter n (ctx.d + 1) st.uix px st.adj
        upx := px
        ustate := .uEnd
        events := .cbInvoke ai aid ctx.d :: st.events } := by
  have hstep : stepOpF ctx
      (fun k => [(ai : ℤ), (aid : ℤ), (n : ℤ), (m : ℤ)].getD k 0)
      iop ivar UserOp st =
      stepUserStartF ctx
        (fun k => [(ai : ℤ), (aid : ℤ), (n : ℤ), (m : ℤ)].getD k 0) st := by
    simp only [stepOpF, stepUserF, hst]
  rw [stepUserStartF,
    if_neg (not_not_intro (by
      simp [Int.toNat_natCast, hix, hid, hn, hm])),
    hix, hreg] at hstep
  rw [hn, hm] at hstep
  simp only [hrev] at hstep
  rw [hstep]
  simp [Int.toNat_natCast, hix, hid, hn, hm]



/-! ## The atomic group as one closed-form step -/

theorem stepInstrF_atomic (ctx : Ctx) (ai aid : Nat) (ats : List ArgTok)
    (rts : List ResTok) (p : IPos) (st : St) (atom : Atom) (px : Nat → ℚ)
    (hn : 0 < ats.length) (hm : 0 < rts.length)
    (hst : st.ustate = .uEnd) (hreg : ctx.reg ai = some atom)
    (hrev : atom.rev ctx.d (groupTx ctx ats) (groupTy ctx rts p.varB)
      (groupPy ctx rts p.varB st.adj) = some px) :
    ∃ st', stepInstrF ctx (.atomic ai aid ats rts) p st = .ok st' ∧
      st'.adj = userScatter ats.length (ctx.d + 1) (groupIx ats) px st.adj ∧
      st'.ustate = .uEnd ∧
      st'.events = .cbInvoke ai aid ctx.d :: st.events := by
  have hdr : instrDR (.atomic ai aid ats rts) p =
      (⟨UserOp, [(ai : ℤ), (aid : ℤ), (ats.length : ℤ), (rts.length : ℤ)],
          p.opB, p.varB⟩ : DRec) ::
        (withPos (ats.map encTokA) (p.opB + 1) p.varB ++
          (withPos (rts.map encTokR) (p.opB + 1 + ats.length) p.varB ++
            [⟨UserOp, [(ai : ℤ), (aid : ℤ), (ats.length : ℤ), (rts.length : ℤ)],
              p.opB + 1 + ats.length + rts.length,
              p.varB + rts.count ResTok.rvar⟩])) := by
    simp only [instrDR, encode1]
    rw [withPos, List.append_assoc, withPos_append, withPos_append,
      List.length_map, List.length_map, resLen_encTokA, resLen_encTokR,
      withPos, withPos]
    simp only [NumRes, Nat.add_zero]
  have hclose : foldDF ctx
      [⟨UserOp, [(ai : ℤ), (aid : ℤ), (ats.length : ℤ), (rts.length : ℤ)],
        p.opB + 1 + ats.length + rts.length,
        p.varB + rts.count ResTok.rvar⟩] st =
      .ok { st with uindex := ai, uid := aid, un := ats.length,
                    um := rts.length, uj := ats.length, ui := rts.length,
                    ustate := .uRet } := by
    rw [foldDF_single]
    exact closeStep ctx ai aid ats.length rts.length _ _ st atom hst hreg
  obtain ⟨st2, hstep2, O1⟩ := resPhase ctx rts (p.opB + 1 + ats.length) p.varB
    { st with uindex := ai, uid := aid, un := ats.length, um := rts.length,
              uj := ats.length, ui := rts.length, ustate := .uRet }
    rfl rfl (Nat.le_refl _)
  have hres : foldDF ctx
      (withPos (rts.map encTokR) (p.opB + 1 + ats.length) p.varB ++
        [⟨UserOp, [(ai : ℤ), (aid : ℤ), (ats.length : ℤ), (rts.length : ℤ)],
          p.opB + 1 + ats.length + rts.length,
          p.varB + rts.count ResTok.rvar⟩]) st = .ok st2 := by
    rw [foldDF_append, hclose]
    exact hstep2
  have hst2 : st2.ustate = .uArg := by
    rw [O1.hust, if_neg (by omega)]
  have huj2 : st2.uj = ats.length := O1.huj
  have hun2 : st2.un = ats.length := O1.hun
  obtain ⟨st3, hstep3, O2⟩ := argPhase ctx ats (p.opB + 1) p.varB st2 hst2
    huj2 (by omega)
  have harg : foldDF ctx
      (withPos (ats.map encTokA) (p.opB + 1) p.varB ++
        (withPos (rts.map encTokR) (p.opB + 1 + ats.length) p.varB ++
          [⟨UserOp, [(ai : ℤ), (aid : ℤ), (ats.length : ℤ), (rts.length : ℤ)],
            p.opB + 1 + ats.length + rts.length,
            p.varB + rts.count ResTok.rvar⟩])) st = .ok st3 := by
    rw [foldDF_append, hres]
    exact hstep3
  have hk1 : 0 < ctx.d + 1 := Nat.succ_pos _
  have htx : trunc (ats.length * (ctx.d + 1)) st3.utx = groupTx ctx ats := by
    funext s
    unfold trunc
    split_ifs with hs
    · have hdiv : s / (ctx.d + 1) < ats.length :=
        (Nat.div_lt_iff_lt_mul hk1).mpr hs
      have hmod : s % (ctx.d + 1) < ctx.d + 1 := Nat.mod_lt _ hk1
      have hsplit : s = (s / (ctx.d + 1)) * (ctx.d + 1) + s % (ctx.d + 1) := by
        rw [Nat.mul_comm]
        exact (Nat.div_add_mod s (ctx.d + 1)).symm
      rw [hsplit, O2.hw (s / (ctx.d + 1)) (s % (ctx.d + 1)) hdiv hmod,
        ← hsplit]
    · rw [groupTx_ge ctx ats s (by omega)]
  have hty : trunc (rts.length * (ctx.d + 1)) st3.uty =
      groupTy ctx rts p.varB := by
    funext s
    unfold trunc
    split_ifs with hs
    · have hdiv : s / (ctx.d + 1) < rts.length :=
        (Nat.div_lt_iff_lt_mul hk1).mpr hs
      have hmod : s % (ctx.d + 1) < ctx.d + 1 := Nat.mod_lt _ hk1
      have hsplit : s = (s / (ctx.d + 1)) * (ctx.d + 1) + s % (ctx.d + 1) := by
        rw [Nat.mul_comm]
        exact (Nat.div_add_mod s (ctx.d + 1)).symm
      rw [show st3.uty = st2.uty from O2.huty, hsplit,
        (O1.hw (s / (ctx.d + 1)) (s % (ctx.d + 1)) hdiv hmod).2, ← hsplit]
    · rw [groupTy_ge ctx rts p.varB s (by omega)]
  have hpy : trunc (rts.length * (ctx.d + 1)) st3.upy =
      groupPy ctx rts p.varB st.adj := by
    funext s
    unfold trunc
    split_ifs with hs
    · have hdiv : s / (ctx.d + 1) < rts.length :=
        (Nat.div_lt_iff_lt_mul hk1).mpr hs
      have hmod : s % (ctx.d + 1) < ctx.d + 1 := Nat.mod_lt _ hk1
      have hsplit : s = (s / (ctx.d + 1)) * (ctx.d + 1) + s % (ctx.d + 1) := by
        rw [Nat.mul_comm]
        exact (Nat.div_add_mod s (ctx.d + 1)).symm
      rw [show st3.upy = st2.upy from O2.hupy, hsplit,
        (O1.hw (s / (ctx.d + 1)) (s % (ctx.d + 1)) hdiv hmod).1, ← hsplit]
    · rw [groupPy_ge ctx rts p.varB s st.adj (by omega)]
  have hst3 : st3.ustate = .uStart := by
    rw [O2.hust, if_neg (by omega)]
  have hix3 : st3.uindex = ai := O2.huindex.trans O1.huindex
  have hid3 : st3.uid = aid := O2.huid.trans O1.huid
  have hun3 : st3.un = ats.length := O2.hun.trans O1.hun
  have hum3 : st3.um = rts.length := O2.hum.trans O1.hum
  have hrev3 : atom.rev ctx.d
      (trunc (ats.length * (ctx.d + 1)) st3.utx)
      (trunc (rts.length * (ctx.d + 1)) st3.uty)
      (trunc (rts.length * (ctx.d + 1)) st3.upy) = some px := by
    rw [htx, hty, hpy]
    exact hrev
  have hopen := openStep ctx ai aid ats.length rts.length p.opB p.varB st3
    atom px hst3 hix3 hid3 hun3 hum3 hreg hrev3
  refine ⟨{ st3 with
      adj := userScatter ats.length (ctx.d + 1) st3.uix px st3.adj
      upx := px
      ustate := .uEnd
      events := .cbInvoke ai aid ctx.d :: st3.events }, ?_, ?_, rfl, ?_⟩
  · show foldDF ctx (instrDR (.atomic ai aid ats rts) p) st = _
    rw [hdr, foldDF_cons, harg]
    exact hopen
  · show userScatter ats.length (ctx.d + 1) st3.uix px st3.adj = _
    have hadj3 : st3.adj = st.adj := O2.hadj.trans O1.hadj
    rw [hadj3]
    exact userScatter_congr ats.length (ctx.d + 1) px st.adj
      (fun j hj => O2.hix j hj)
  · show Event.cbInvoke ai aid ctx.d :: st3.events = _
    have hev3 : st3.events = st.events := O2.hev.trans O1.hev
    rw [hev3]


/-! ## The adjoint action of one instruction, as a function of the matrix -/

/-- What one instruction's reverse dispatch does to the Adjoint Matrix,
written as a function of the incoming matrix alone. -/
def adjF (ctx : Ctx) : SInstr → IPos → (Nat → Nat → ℚ) → (Nat → Nat → ℚ)
  | .inv, _, P => P
  | .addvv a b, p, P => reverse_addvv_op ctx.d p.varB a b P
  | .mulvv a b, p, P => reverse_mulvv_op ctx.d p.varB a b ctx.taylor P
  | .csum adds subs q, p, P =>
      reverse_csum_op ctx.d p.varB (fun k => (csumArgs adds subs q).getD k 0) P
  | .cskip _ _ _ _ _ _ _, _, P => P
  | .ldp x y ld, p, P =>
      reverse_load_op ctx.ldmap ctx.d p.varB (fun k => [x, y, (ld : ℤ)].getD k 0) P
  | .ldv x y ld, p, P =>
      reverse_load_op ctx.ldmap ctx.d p.varB (fun k => [x, y, (ld : ℤ)].getD k 0) P
  | .atomic ai _ ats rts, p, P =>
      match ctx.reg ai with
      | none => P
      | some atom =>
        match atom.rev ctx.d (groupTx ctx ats) (groupTy ctx rts p.varB)
            (groupPy ctx rts p.varB P) with
        | none => P
        | some px => userScatter ats.length (ctx.d + 1) (groupIx ats) px P

/-- Rows whose adjoints an instruction's reverse rule reads as its incoming
covector: the rows of its own results. -/
def resRows : SInstr → IPos → List Nat
  | .inv, _ => []
  | .addvv _ _, p => [p.varB]
  | .mulvv _ _, p => [p.varB]
  | .csum _ _ _, p => [p.varB]
  | .cskip _ _ _ _ _ _ _, _ => []
  | .ldp _ _ _, p => [p.varB]
  | .ldv _ _ _, p => [p.varB]
  | .atomic _ _ _ rts, p =>
      (List.range (rts.count ResTok.rvar)).map (fun i => p.varB + i)

/-- One dispatched instruction succeeds under `GroupOk`, transforms the
Adjoint Matrix by `adjF`, and leaves the protocol at `end`. -/
theorem stepInstrF_spec (ctx : Ctx) (ins : SInstr) (p : IPos) (st : St)
    (hg : GroupOk ctx ins) (hst : st.ustate = .uEnd) :
    ∃ st', stepInstrF ctx ins p st = .ok st' ∧
      st'.adj = adjF ctx ins p st.adj ∧ st'.ustate = .uEnd := by
  cases ins with
  | inv => exact ⟨st, stepInstrF_inv ctx p st, rfl, hst⟩
  | addvv a b => exact ⟨_, stepInstrF_addvv ctx a b p st, rfl, hst⟩
  | mulvv a b => exact ⟨_, stepInstrF_mulvv ctx a b p st, rfl, hst⟩
  | csum adds subs q => exact ⟨_, stepInstrF_csum ctx adds subs q p st, rfl, hst⟩
  | cskip h1 h2 h3 h4 h5 h6 idx =>
      exact ⟨_, stepInstrF_cskip ctx h1 h2 h3 h4 h5 h6 idx p st, rfl, hst⟩
  | ldp x y ld => exact ⟨_, stepInstrF_ldp ctx x y ld p st, rfl, hst⟩
  | ldv x y ld => exact ⟨_, stepInstrF_ldv ctx x y ld p st, rfl, hst⟩
  | atomic ai aid ats rts =>
    obtain ⟨hn, hm, atom, hreg, hAok⟩ := hg
    obtain ⟨px, hrev⟩ := hAok.1 ctx.d (groupTx ctx ats) (groupTy ctx rts p.varB)
      (groupPy ctx rts p.varB st.adj)
    obtain ⟨st', hstep, hadj, hust, hev⟩ :=
      stepInstrF_atomic ctx ai aid ats rts p st atom px hn hm hst hreg hrev
    refine ⟨st', hstep, ?_, hust⟩
    rw [hadj]
    simp only [adjF, hreg, hrev]

/-! ## `adjF` writes only an instruction's write set -/

theorem csumArgAt_add (adds subs : List Nat) (q : Nat) (i : Nat)
    (hi : i < adds.length) :
    (csumArgs adds subs q).getD (3 + i) 0 =
      ((adds.get ⟨i, hi⟩ : Nat) : ℤ) := by
  simp only [csumArgs]
  rw [show 3 + i = ((i + 1) + 1) + 1 from by omega,
    List.getD_cons_succ, List.getD_cons_succ, List.getD_cons_succ,
    List.getD_append _ _ _ _
      (by simp only [List.length_append, List.length_map]; omega),
    List.getD_append _ _ _ _ (by simp only [List.length_map]; omega),
    List.getD_eq_getElem _ _ (by simp only [List.length_map]; omega),
    List.getElem_map]
  rfl

theorem csumArgAt_sub (adds subs : List Nat) (q : Nat) (i : Nat)
    (hi : i < subs.length) :
    (csumArgs adds subs q).getD (3 + adds.length + i) 0 =
      ((subs.get ⟨i, hi⟩ : Nat) : ℤ) := by
  simp only [csumArgs]
  rw [show 3 + adds.length + i = ((adds.length + i + 1) + 1) + 1 from by omega,
    List.getD_cons_succ, List.getD_cons_succ, List.getD_cons_succ,
    List.getD_append _ _ _ _
      (by simp only [List.length_append, List.length_map]; omega),
    List.getD_append_right _ _ _ _ (by simp only [List.length_map]; omega),
    show adds.length + i - (List.map (fun t : Nat => (t : ℤ)) adds).length = i
      from by simp only [List.length_map]; omega,
    List.getD_eq_getElem _ _ (by simp only [List.length_map]; omega),
    List.getElem_map]
  rfl

theorem adjF_frame (ctx : Ctx) (ins : SInstr) (p : IPos) (P : Nat → Nat → ℚ)
    (v : Nat) (hv : v ∉ writeSet ctx ins) :
    ∀ k, adjF ctx ins p P v k = P v k := by
  cases ins with
  | inv => exact fun _ => rfl
  | addvv a b =>
    simp only [writeSet, List.mem_cons, List.mem_singleton, not_or] at hv
    exact reverse_addvv_op_frame ctx.d p.varB a b P v hv.1 hv.2.1
  | mulvv a b =>
    simp only [writeSet, List.mem_cons, List.mem_singleton, not_or] at hv
    exact reverse_mulvv_op_frame ctx.d p.varB a b ctx.taylor P v hv.1 hv.2.1
  | csum adds subs q =>
    simp only [writeSet, List.mem_append] at hv
    simp only [adjF]
    refine reverse_csum_op_frame ctx.d p.varB _ P v ?_ ?_
    · intro i hi
      have hi' : i < adds.length := hi
      show v ≠ ((csumArgs adds subs q).getD (3 + i) 0).toNat
      rw [csumArgAt_add adds subs q i hi', Int.toNat_natCast]
      intro hc
      refine hv (Or.inl ?_)
      rw [hc]
      exact List.get_mem adds i hi'
    · intro i hi
      have hi' : i < subs.length := hi
      show v ≠ ((csumArgs adds subs q).getD (3 + adds.length + i) 0).toNat
      rw [csumArgAt_sub adds subs q i hi', Int.toNat_natCast]
      intro hc
      refine hv (Or.inr ?_)
      rw [hc]
      exact List.get_mem subs i hi'
  | cskip h1 h2 h3 h4 h5 h6 idx => exact fun _ => rfl
  | ldp x y ld =>
    simp only [writeSet, List.mem_singleton] at hv
    simp only [adjF]
    exact reverse_load_op_frame ctx.ldmap ctx.d p.varB _ P v hv
  | ldv x y ld =>
    simp only [writeSet, List.mem_singleton] at hv
    simp only [adjF]
    exact reverse_load_op_frame ctx.ldmap ctx.d p.varB _ P v hv
  | atomic ai aid ats rts =>
    intro k
    cases hr : ctx.reg ai with
    | none => simp [adjF, hr]
    | some atom =>
      cases hw : atom.rev ctx.d (groupTx ctx ats) (groupTy ctx rts p.varB)
          (groupPy ctx rts p.varB P) with
      | none => simp [adjF, hr, hw]
      | some px =>
        simp only [adjF, hr, hw]
        refine userScatter_frame ats.length (ctx.d + 1) (groupIx ats) px P v
          ?_ k
        intro j hj hpos
        simp only [groupIx, dif_pos hj] at hpos ⊢
        cases ht : ats.get ⟨j, hj⟩ with
        | apar q' => rw [ht] at hpos; simp [tokIxVal] at hpos
        | avar w =>
          simp only [tokIxVal]
          intro hc
          refine hv ?_
          simp only [writeSet, List.mem_filterMap]
          refine ⟨.avar w, ?_, by simp [hc]⟩
          rw [← ht]
          exact List.get_mem ats j hj

/-! ## `adjF` is the identity when the instruction's result rows are zero -/

theorem count_take_lt (l : List ResTok) (i : Nat) (h : i < l.length)
    (ht : l.get ⟨i, h⟩ = ResTok.rvar) :
    (l.take i).count ResTok.rvar < l.count ResTok.rvar := by
  conv_rhs => rw [← List.take_append_drop i l, List.count_append]
  have hd : l.drop i = l[i] :: l.drop (i + 1) := List.drop_eq_getElem_cons h
  have hgi : l[i] = ResTok.rvar := ht
  rw [hd, hgi, List.count_cons_self]
  omega

theorem groupPy_zero (ctx : Ctx) (rts : List ResTok) (vb : Nat)
    (adj : Nat → Nat → ℚ)
    (h : ∀ i, i < rts.count ResTok.rvar → ∀ k, adj (vb + i) k = 0) :
    groupPy ctx rts vb adj = fun _ => 0 := by
  funext s
  unfold groupPy
  simp only
  split_ifs with hlt
  · cases ht : rts.get ⟨s / (ctx.d + 1), hlt⟩ with
    | rpar q => simp [tokPyVal]
    | rvar =>
      simp only [tokPyVal]
      exact h _ (count_take_lt rts _ hlt ht) _
  · rfl

theorem adjF_zero (ctx : Ctx) (ins : SInstr) (p : IPos) (P : Nat → Nat → ℚ)
    (hg : GroupOk ctx ins)
    (h : ∀ v ∈ resRows ins p, ∀ k, P v k = 0) :
    adjF ctx ins p P = P := by
  cases ins with
  | inv => rfl
  | addvv a b =>
    exact reverse_addvv_op_zero ctx.d p.varB a b P
      (h p.varB (List.mem_singleton.mpr rfl))
  | mulvv a b =>
    exact reverse_mulvv_op_zero ctx.d p.varB a b ctx.taylor P
      (h p.varB (List.mem_singleton.mpr rfl))
  | csum adds subs q =>
    simp only [adjF]
    exact reverse_csum_op_zero ctx.d p.varB _ P
      (h p.varB (List.mem_singleton.mpr rfl))
  | cskip h1 h2 h3 h4 h5 h6 idx => rfl
  | ldp x y ld =>
    simp only [adjF]
    exact reverse_load_op_zero ctx.ldmap ctx.d p.varB _ P
      (h p.varB (List.mem_singleton.mpr rfl))
  | ldv x y ld =>
    simp only [adjF]
    exact reverse_load_op_zero ctx.ldmap ctx.d p.varB _ P
      (h p.varB (List.mem_singleton.mpr rfl))
  | atomic ai aid ats rts =>
    obtain ⟨hn, hm, atom, hreg, hAok⟩ := hg
    have hpy : groupPy ctx rts p.varB P = fun _ => 0 := by
      refine groupPy_zero ctx rts p.varB P ?_
      intro i hi k
      refine h (p.varB + i) ?_ k
      simp only [resRows, List.mem_map, List.mem_range]
      exact ⟨i, hi, rfl⟩
    simp only [adjF, hreg, hpy, hAok.2 ctx.d (groupTx ctx ats)
      (groupTy ctx rts p.varB)]
    exact userScatter_zero ats.length (ctx.d + 1) (groupIx ats) P


/-! ## Skipping dead instructions does not change live adjoints -/

/-- Dropping the instructions marked dead from the reverse instruction fold
leaves the Adjoint Matrix unchanged, provided every dead instruction's
result rows lie in a set `Z` of rows that are zero at entry and that no
live instruction writes. -/
theorem foldIF_filter (ctx : Ctx) (live : SInstr × IPos → Bool)
    (Z : Nat → Prop) (l : List (SInstr × IPos))
    (hG : ∀ e ∈ l, GroupOk ctx e.1)
    (hdead : ∀ e ∈ l, live e = false → ∀ v ∈ resRows e.1 e.2, Z v)
    (hlive : ∀ e ∈ l, live e = true → ∀ v ∈ writeSet ctx e.1, ¬ Z v)
    (st : St) (hst : st.ustate = .uEnd)
    (hz : ∀ v, Z v → ∀ k, st.adj v k = 0) :
    ∃ st1 st2, foldIF ctx l st = .ok st1 ∧
      foldIF ctx (l.filter live) st = .ok st2 ∧
      st1.adj = st2.adj ∧ st1.ustate = .uEnd ∧ st2.ustate = .uEnd ∧
      ∀ v, Z v → ∀ k, st1.adj v k = 0 := by
  induction l with
  | nil => exact ⟨st, st, rfl, rfl, rfl, hst, hst, hz⟩
  | cons e l ih =>
    obtain ⟨st1, st2, h1, h2, hadj, hu1, hu2, hz1⟩ :=
      ih (fun e' he' => hG e' (List.mem_cons_of_mem e he'))
        (fun e' he' => hdead e' (List.mem_cons_of_mem e he'))
        (fun e' he' => hlive e' (List.mem_cons_of_mem e he'))
    have hGe : GroupOk ctx e.1 := hG e (List.mem_cons_self e l)
    cases hl : live e with
    | true =>
      obtain ⟨st1', hs1, ha1, hu1'⟩ := stepInstrF_spec ctx e.1 e.2 st1 hGe hu1
      obtain ⟨st2', hs2, ha2, hu2'⟩ := stepInstrF_spec ctx e.1 e.2 st2 hGe hu2
      refine ⟨st1', st2', ?_, ?_, ?_, hu1', hu2', ?_⟩
      · simp only [foldIF, h1]
        exact hs1
      · rw [List.filter_cons_of_pos hl]
        simp only [foldIF, h2]
        exact hs2
      · rw [ha1, ha2, hadj]
      · intro v hv k
        have hvw : v ∉ writeSet ctx e.1 :=
          fun hmem => hlive e (List.mem_cons_self e l) hl v hmem hv
        rw [ha1, adjF_frame ctx e.1 e.2 st1.adj v hvw k]
        exact hz1 v hv k
    | false =>
      obtain ⟨st1', hs1, ha1, hu1'⟩ := stepInstrF_spec ctx e.1 e.2 st1 hGe hu1
      have hid : adjF ctx e.1 e.2 st1.adj = st1.adj :=
        adjF_zero ctx e.1 e.2 st1.adj hGe
          (fun v hvm k => hz1 v (hdead e (List.mem_cons_self e l) hl v hvm) k)
      refine ⟨st1', st2, ?_, ?_, ?_, hu1', hu2, ?_⟩
      · simp only [foldIF, h1]
        exact hs1
      · rw [List.filter_cons_of_neg (by simp [hl])]
        exact h2
      · rw [ha1, hid, hadj]
      · intro v hv k
        rw [ha1, hid]
        exact hz1 v hv k


/-! ## Reads of one dispatch are bounded by the record's argument block -/

theorem reverse_load_op_congr (ldmap : Nat → Nat) (d iz : Nat)
    (f g : Nat → ℤ) (P : Nat → Nat → ℚ) (h2 : f 2 = g 2) :
    reverse_load_op ldmap d iz f P = reverse_load_op ldmap d iz g P := by
  unfold reverse_load_op
  rw [h2]

theorem reverse_load_op_sel_congr (d iz : Nat)
    (f g : Nat → ℤ) (P : Nat → Nat → ℚ) (h2 : f 2 = g 2) :
    reverse_load_op_sel d iz f P = reverse_load_op_sel d iz g P := by
  unfold reverse_load_op_sel
  rw [h2]

theorem reverse_csum_op_congr (d iz : Nat) (f g : Nat → ℤ)
    (P : Nat → Nat → ℚ)
    (h : ∀ k, k < 3 + (g 0).toNat + (g 1).toNat → f k = g k) :
    reverse_csum_op d iz f P = reverse_csum_op d iz g P := by
  have h0 : f 0 = g 0 := h 0 (by omega)
  have h1 : f 1 = g 1 := h 1 (by omega)
  unfold reverse_csum_op
  simp only [h0, h1]
  have hP1 : (List.range (g 0).toNat).foldl (fun P i =>
      (List.range (d+1)).foldl (fun P k =>
        padd P (f (3+i)).toNat k (P iz k)) P) P =
      (List.range (g 0).toNat).foldl (fun P i =>
        (List.range (d+1)).foldl (fun P k =>
          padd P (g (3+i)).toNat k (P iz k)) P) P := by
    refine List.foldl_ext _ _ P (fun P' i hi => ?_)
    rw [h (3+i) (by have := List.mem_range.mp hi; omega)]
  rw [hP1]
  refine List.foldl_ext _ _ _ (fun P' i hi => ?_)
  rw [h (3+(g 0).toNat+i) (by have := List.mem_range.mp hi; omega)]

theorem stepUserF_congr (ctx : Ctx) (f g : Nat → ℤ) (st : St)
    (h : ∀ k, k < 4 → f k = g k) :
    stepUserF ctx f st = stepUserF ctx g st := by
  have h0 := h 0 (by omega)
  have h1 := h 1 (by omega)
  have h2 := h 2 (by omega)
  have h3 := h 3 (by omega)
  unfold stepUserF stepUserEndF stepUserStartF
  simp only [h0, h1, h2, h3]

theorem stepUsrap_congr (ctx : Ctx) (f g : Nat → ℤ) (st : St)
    (h0 : f 0 = g 0) : stepUsrap ctx f st = stepUsrap ctx g st := by
  unfold stepUsrap
  simp only [h0]

theorem stepUsrav_congr (ctx : Ctx) (f g : Nat → ℤ) (st : St)
    (h0 : f 0 = g 0) : stepUsrav ctx f st = stepUsrav ctx g st := by
  unfold stepUsrav
  simp only [h0]

theorem stepUsrrp_congr (ctx : Ctx) (f g : Nat → ℤ) (st : St)
    (h0 : f 0 = g 0) : stepUsrrp ctx f st = stepUsrrp ctx g st := by
  unfold stepUsrrp
  simp only [h0]

/-- A record whose opcode is none of the loop-special ones and whose block
length equals the table arity (all encoder records except `CSum`/`CSkip`). -/
def plainRec (r : OpCode × List ℤ) : Prop :=
  (r.1 ≠ BeginOp ∧ r.1 ≠ EndOp ∧ r.1 ≠ CSumOp ∧ r.1 ≠ CSkipOp) ∧
    r.2.length = NumArg r.1

theorem stepOpF_congr_plain (ctx : Ctx) (f g : Nat → ℤ) (iop ivar : Nat)
    (op : OpCode) (st : St)
    (hop : op ≠ BeginOp ∧ op ≠ EndOp ∧ op ≠ CSumOp ∧ op ≠ CSkipOp)
    (h : ∀ k, k < NumArg op → f k = g k) :
    stepOpF ctx f iop ivar op st = stepOpF ctx g iop ivar op st := by
  cases op with
  | BeginOp => exact absurd rfl hop.1
  | EndOp => exact absurd rfl hop.2.1
  | CSumOp => exact absurd rfl hop.2.2.1
  | CSkipOp => exact absurd rfl hop.2.2.2
  | InvOp => rfl
  | AddvvOp =>
    simp only [stepOpF, h 0 (by decide), h 1 (by decide)]
  | MulvvOp =>
    simp only [stepOpF, h 0 (by decide), h 1 (by decide)]
  | LdpOp =>
    simp only [stepOpF,
      reverse_load_op_congr ctx.ldmap ctx.d ivar f g st.adj (h 2 (by decide))]
  | LdvOp =>
    simp only [stepOpF,
      reverse_load_op_congr ctx.ldmap ctx.d ivar f g st.adj (h 2 (by decide))]
  | UserOp =>
    simp only [stepOpF]
    exact stepUserF_congr ctx f g st (fun k hk => h k hk)
  | UsrapOp =>
    simp only [stepOpF]
    exact stepUsrap_congr ctx f g st (h 0 (by decide))
  | UsravOp =>
    simp only [stepOpF]
    exact stepUsrav_congr ctx f g st (h 0 (by decide))
  | UsrrpOp =>
    simp only [stepOpF]
    exact stepUsrrp_congr ctx f g st (h 0 (by decide))
  | UsrrvOp => rfl

/-! ## Flat sizes of record lists and programs -/

/-- Total argument-slot count of a raw record list. -/
def argsLen (l : List (OpCode × List ℤ)) : Nat :=
  (l.map (fun r => r.2.length)).sum

theorem argsLen_nil : argsLen [] = 0 := rfl

theorem argsLen_append (l1 l2 : List (OpCode × List ℤ)) :
    argsLen (l1 ++ l2) = argsLen l1 + argsLen l2 := by
  simp [argsLen]

theorem resLen_append (l1 l2 : List (OpCode × List ℤ)) :
    resLen (l1 ++ l2) = resLen l1 + resLen l2 := by
  simp [resLen]

/-- Record count of a program's instruction records. -/
def recLen (prog : List SInstr) : Nat := (prog.map instrLen).sum

/-- Result-variable count of a program. -/
def resSum (prog : List SInstr) : Nat := (prog.map instrRes).sum

/-- Flat argument-slot count of a program. -/
def argSum (prog : List SInstr) : Nat := (prog.map instrArgs).sum

theorem recsOf_append (p1 p2 : List SInstr) :
    recsOf (p1 ++ p2) = recsOf p1 ++ recsOf p2 := by
  simp [recsOf]

theorem recsOf_length (prog : List SInstr) :
    (recsOf prog).length = recLen prog := by
  induction prog with
  | nil => rfl
  | cons i rest ih =>
    show (recsOf ([i] ++ rest)).length = _
    rw [recsOf_append, List.length_append, ih]
    simp [recLen, recsOf, instrLen]

theorem recsOf_argsLen (prog : List SInstr) :
    argsLen (recsOf prog) = argSum prog := by
  induction prog with
  | nil => rfl
  | cons i rest ih =>
    show argsLen (recsOf ([i] ++ rest)) = _
    rw [recsOf_append, argsLen_append, ih]
    simp [argSum, recsOf, instrArgs, argsLen]

theorem recsOf_resLen (prog : List SInstr) :
    resLen (recsOf prog) = resSum prog := by
  induction prog with
  | nil => rfl
  | cons i rest ih =>
    show resLen (recsOf ([i] ++ rest)) = _
    rw [recsOf_append, resLen_append, ih]
    simp [resSum, recsOf, instrRes, resLen]


/-! ## Reading the tape at a record split -/

theorem flatten_snd_length (l : List (OpCode × List ℤ)) :
    ((l.map Prod.snd).flatten).length = argsLen l := by
  rw [List.length_flatten]
  simp [argsLen, List.map_map, Function.comp_def]

theorem tapeOf_ops_length (prog : List SInstr) :
    (tapeOf prog).ops.length = 2 + recLen prog := by
  simp only [tapeOf, List.length_cons, List.length_append, List.length_map,
    List.length_nil, recsOf_length]
  omega

theorem tapeOf_argv_length (prog : List SInstr) :
    (tapeOf prog).argv.length = 1 + argSum prog := by
  simp only [tapeOf, List.length_cons]
  rw [flatten_snd_length, recsOf_argsLen]
  omega

theorem getOpT_zero (prog : List SInstr) :
    getOpT (tapeOf prog) 0 = BeginOp := rfl

theorem getOpT_endMark (prog : List SInstr) :
    getOpT (tapeOf prog) (1 + recLen prog) = EndOp := by
  unfold getOpT tapeOf
  simp only
  rw [show 1 + recLen prog = recLen prog + 1 from by omega,
    List.getD_cons_succ,
    List.getD_append_right _ _ _ _
      (by rw [List.length_map, recsOf_length]),
    show recLen prog - (List.map Prod.fst (recsOf prog)).length = 0 from by
      rw [List.length_map, recsOf_length]; omega]
  rfl

theorem numvarOf_tapeOf (prog : List SInstr) :
    numvarOf (tapeOf prog) = 1 + resSum prog := by
  unfold numvarOf tapeOf
  simp only [List.map_cons, List.map_append, List.sum_cons, List.map_map]
  rw [← recsOf_resLen]
  simp [resLen, NumRes, List.map_map]
  rfl

theorem tape_ops_at (prog : List SInstr) (R1 R2 : List (OpCode × List ℤ))
    (h : recsOf prog = R1 ++ R2) (j : Nat) (hj : j < R2.length) :
    getOpT (tapeOf prog) (1 + R1.length + j) = (R2.get ⟨j, hj⟩).1 := by
  unfold getOpT tapeOf
  simp only
  rw [show 1 + R1.length + j = (R1.length + j) + 1 from by omega,
    List.getD_cons_succ, h, List.map_append,
    List.getD_append _ _ _ _
      (by rw [List.length_append, List.length_map, List.length_map]; omega),
    List.getD_append_right _ _ _ _ (by rw [List.length_map]; omega),
    show R1.length + j - (List.map Prod.fst R1).length = j from by
      rw [List.length_map]; omega,
    List.getD_eq_getElem _ _ (by rw [List.length_map]; omega),
    List.getElem_map]
  rfl

theorem flatten_getD (L : List (List ℤ)) : ∀ (j : Nat) (hj : j < L.length)
    (k : Nat), k < (L.get ⟨j, hj⟩).length →
    L.flatten.getD (((L.take j).map List.length).sum + k) 0 =
      (L.get ⟨j, hj⟩).getD k 0 := by
  induction L with
  | nil =>
    intro j hj
    simp at hj
  | cons a L ih =>
    intro j hj k hk
    cases j with
    | zero =>
      have hk' : k < a.length := hk
      simp only [List.take_zero, List.map_nil, List.sum_nil, Nat.zero_add]
      rw [List.flatten_cons, List.getD_append _ _ _ _ hk']
      rfl
    | succ j' =>
      have hj' : j' < L.length := by
        simp only [List.length_cons] at hj
        omega
      simp only [List.take_succ_cons, List.map_cons, List.sum_cons]
      rw [List.flatten_cons,
        show a.length + ((L.take j').map List.length).sum + k =
          a.length + (((L.take j').map List.length).sum + k) from by omega,
        List.getD_append_right _ _ _ _ (by omega),
        show a.length + (((L.take j').map List.length).sum + k) - a.length =
          ((L.take j').map List.length).sum + k from by omega]
      exact ih j' hj' k hk

theorem argsLen_take_map (R : List (OpCode × List ℤ)) (j : Nat) :
    (((R.map Prod.snd).take j).map List.length).sum = argsLen (R.take j) := by
  rw [← List.map_take]
  simp [argsLen, List.map_map, Function.comp_def]

theorem tape_argv_at (prog : List SInstr) (R1 R2 : List (OpCode × List ℤ))
    (h : recsOf prog = R1 ++ R2) (j : Nat) (hj : j < R2.length)
    (k : Nat) (hk : k < (R2.get ⟨j, hj⟩).2.length) :
    argvAt (tapeOf prog) (1 + argsLen R1 + argsLen (R2.take j) + k) =
      (R2.get ⟨j, hj⟩).2.getD k 0 := by
  unfold argvAt tapeOf
  simp only
  rw [show 1 + argsLen R1 + argsLen (R2.take j) + k =
      (argsLen R1 + (argsLen (R2.take j) + k)) + 1 from by omega,
    List.getD_cons_succ, h, List.map_append, List.flatten_append,
    List.getD_append_right _ _ _ _ (by rw [flatten_snd_length]; omega),
    show argsLen R1 + (argsLen (R2.take j) + k) -
        ((List.map Prod.snd R1).flatten).length =
      ((( (R2.map Prod.snd).take j).map List.length).sum + k) from by
        rw [flatten_snd_length, argsLen_take_map]; omega]
  have := flatten_getD (R2.map Prod.snd) j (by rw [List.length_map]; omega) k
    (by rw [List.get_map]; exact hk)
  rw [this]
  rw [List.get_map]


/-! ## Canonical instruction positions -/

/-- Advance a position across a program prefix. -/
def posAfter (q : IPos) (xs : List SInstr) : IPos :=
  ⟨q.idx + xs.length, q.opB + recLen xs, q.varB + resSum xs, q.argB + argSum xs⟩

theorem recLen_cons (i : SInstr) (xs : List SInstr) :
    recLen (i :: xs) = instrLen i + recLen xs := by
  simp [recLen]

theorem posAfter_nil (q : IPos) : posAfter q [] = q := by
  cases q
  simp [posAfter, recLen, resSum, argSum]

theorem posAfter_append (q : IPos) (xs ys : List SInstr) :
    posAfter q (xs ++ ys) = posAfter (posAfter q xs) ys := by
  simp only [posAfter, recLen, resSum, argSum, List.map_append,
    List.sum_append, List.length_append, IPos.mk.injEq]
  refine ⟨?_, ?_, ?_, ?_⟩ <;> omega

theorem posAfter_singleton (q : IPos) (i : SInstr) :
    posAfter q [i] =
      ⟨q.idx + 1, q.opB + instrLen i, q.varB + instrRes i,
        q.argB + instrArgs i⟩ := by
  simp [posAfter, recLen, resSum, argSum]

theorem posAfter_cons (q : IPos) (i : SInstr) (xs : List SInstr) :
    posAfter q (i :: xs) =
      posAfter ⟨q.idx + 1, q.opB + instrLen i, q.varB + instrRes i,
        q.argB + instrArgs i⟩ xs := by
  rw [show i :: xs = [i] ++ xs from rfl, posAfter_append, posAfter_singleton]

theorem scanI_append (xs ys : List SInstr) : ∀ q,
    scanI (xs ++ ys) q = scanI xs q ++ scanI ys (posAfter q xs) := by
  induction xs with
  | nil =>
    intro q
    rw [posAfter_nil]
    rfl
  | cons i xs ih =>
    intro q
    simp only [List.cons_append, scanI, List.append_eq, ih, posAfter_cons]

theorem scanI_range (prog : List SInstr) : ∀ (q : IPos) (e : SInstr × IPos),
    e ∈ scanI prog q →
    q.opB ≤ e.2.opB ∧ e.2.opB + instrLen e.1 ≤ q.opB + recLen prog := by
  induction prog with
  | nil =>
    intro q e he
    simp [scanI] at he
  | cons i rest ih =>
    intro q e he
    rw [scanI] at he
    rcases List.mem_cons.mp he with rfl | he'
    · simp only [recLen_cons]
      omega
    · obtain ⟨h1, h2⟩ := ih _ e he'
      simp only at h1 h2
      rw [recLen_cons]
      omega

theorem scanI_mem (prog : List SInstr) : ∀ (q : IPos) (e : SInstr × IPos),
    e ∈ scanI prog q →
    ∃ pre suf, prog = pre ++ e.1 :: suf ∧ e.2 = posAfter q pre := by
  induction prog with
  | nil =>
    intro q e he
    simp [scanI] at he
  | cons i rest ih =>
    intro q e he
    rw [scanI] at he
    rcases List.mem_cons.mp he with rfl | he'
    · exact ⟨[], rest, rfl, (posAfter_nil q).symm⟩
    · obtain ⟨pre, suf, hps, hpos⟩ := ih _ e he'
      refine ⟨i :: pre, suf, by rw [List.cons_append, ← hps], ?_⟩
      rw [posAfter_cons]
      exact hpos

theorem iprog_split (prog : List SInstr) (ins : SInstr) (p : IPos)
    (h : (ins, p) ∈ iprog prog) :
    ∃ pre suf, prog = pre ++ ins :: suf ∧ p = posAfter ⟨0, 1, 1, 1⟩ pre :=
  scanI_mem prog ⟨0, 1, 1, 1⟩ (ins, p) h

theorem iprog_mem_of_split (pre suf : List SInstr) (ins : SInstr) :
    (ins, posAfter ⟨0, 1, 1, 1⟩ pre) ∈ iprog (pre ++ ins :: suf) := by
  unfold iprog
  rw [scanI_append]
  refine List.mem_append_right _ ?_
  rw [scanI]
  exact List.mem_cons_self _ _

/-! ## The record-level skip mask of an instruction-aligned dead set -/

theorem maskOf_zero (prog : List SInstr) (D : Nat → Bool) :
    maskOf prog D 0 = false := by
  unfold maskOf
  rw [List.any_eq_false]
  intro e hef
  have he : e ∈ iprog prog := (List.mem_filter.mp hef).1
  obtain ⟨h1, _⟩ := scanI_range prog ⟨0, 1, 1, 1⟩ e he
  simp only at h1
  simp only [decide_eq_true_eq]
  omega

theorem maskOf_at (prog pre suf : List SInstr) (ins : SInstr) (D : Nat → Bool)
    (hsplit : prog = pre ++ ins :: suf) (p : IPos)
    (hp : p = posAfter ⟨0, 1, 1, 1⟩ pre) (r : Nat)
    (h1 : p.opB ≤ r) (h2 : r < p.opB + instrLen ins) :
    maskOf prog D r = D p.idx := by
  have hmem : (ins, p) ∈ iprog prog := by
    rw [hsplit, hp]
    exact iprog_mem_of_split pre suf ins
  cases hD : D p.idx with
  | true =>
    unfold maskOf
    rw [List.any_eq_true]
    refine ⟨(ins, p), List.mem_filter.mpr ⟨hmem, by simp [hD]⟩, ?_⟩
    simp only [decide_eq_true_eq]
    omega
  | false =>
    unfold maskOf
    rw [List.any_eq_false]
    intro e hef
    obtain ⟨hei, heD⟩ := List.mem_filter.mp hef
    simp only [decide_eq_true_eq]
    rintro ⟨hc1, hc2⟩
    have hiprog : iprog prog =
        scanI pre ⟨0, 1, 1, 1⟩ ++
          ((ins, p) :: scanI suf (posAfter p [ins])) := by
      rw [hsplit]
      unfold iprog
      rw [scanI_append, scanI, hp, posAfter_singleton]
    rw [hiprog] at hei
    rcases List.mem_append.mp hei with hpre | hrest
    · obtain ⟨_, hub⟩ := scanI_range pre ⟨0, 1, 1, 1⟩ e hpre
      simp only at hub
      have hpo : p.opB = 1 + recLen pre := by rw [hp]; rfl
      omega
    · rcases List.mem_cons.mp hrest with rfl | hsuf
      · simp only at heD
        rw [hD] at heD
        exact Bool.noConfusion heD
      · obtain ⟨hlb, _⟩ := scanI_range suf (posAfter p [ins]) e hsuf
        rw [posAfter_singleton] at hlb
        simp only at hlb
        omega


/-! ## One backward step of the main loop, by record class -/

theorem loopF_step_begin (ctx : Ctx) (T : Tape) (mask : Nat → Bool)
    (i a v : Nat) (st : St)
    (hop : getOpT T i = BeginOp) (hmask : mask i = false) :
    loopF ctx T mask (i + 1) a v st = .ok ⟨st, i, v - 1, BeginOp⟩ := by
  rw [loopF]
  simp only [hop, hmask, Bool.false_eq_true, if_false]
  rfl

theorem loopF_step_default (ctx : Ctx) (T : Tape) (mask : Nat → Bool)
    (i a v : Nat) (op : OpCode) (st : St)
    (hop : getOpT T i = op) (hmask : mask i = false)
    (h1 : op ≠ BeginOp) (h2 : op ≠ CSkipOp) (h3 : op ≠ CSumOp) :
    loopF ctx T mask (i + 1) a v st =
      match stepOpF ctx (fun k => argvAt T ((a - NumArg op) + k)) i
          (v - NumRes op) op st with
      | .error e => .error e
      | .ok st' => loopF ctx T mask i (a - NumArg op) (v - NumRes op) st' := by
  rw [loopF]
  simp only [hop, hmask, Bool.false_eq_true, if_false]

theorem loopF_step_csum (ctx : Ctx) (T : Tape) (mask : Nat → Bool)
    (i a v : Nat) (st : St)
    (hop : getOpT T i = CSumOp) (hmask : mask i = false) :
    loopF ctx T mask (i + 1) a v st =
      match stepOpF ctx (fun k => argvAt T (csumAdj T (a - 1) + k)) i
          (v - 1) CSumOp st with
      | .error e => .error e
      | .ok st' => loopF ctx T mask i (csumAdj T (a - 1)) (v - 1) st' := by
  rw [loopF]
  simp only [hop, hmask, Bool.false_eq_true, if_false]
  rfl

theorem loopF_step_cskip (ctx : Ctx) (T : Tape) (mask : Nat → Bool)
    (i a v : Nat) (st : St)
    (hop : getOpT T i = CSkipOp) (hmask : mask i = false) :
    loopF ctx T mask (i + 1) a v st =
      match stepOpF ctx (fun k => argvAt T (cskipAdj T (a - 1) + k)) i
          (v - 0) CSkipOp st with
      | .error e => .error e
      | .ok st' => loopF ctx T mask i (cskipAdj T (a - 1)) (v - 0) st' := by
  rw [loopF]
  simp only [hop, hmask, Bool.false_eq_true, if_false]
  rfl

theorem loopF_step_masked (ctx : Ctx) (T : Tape) (mask : Nat → Bool)
    (i a v : Nat) (op : OpCode) (st : St)
    (hop : getOpT T i = op) (hmask : mask i = true) (hcs : op ≠ CSumOp) :
    loopF ctx T mask (i + 1) a v st =
      loopF ctx T mask i (a - NumArg op) (v - NumRes op) st := by
  rw [loopF]
  simp only [hop, hmask, eq_self_iff_true, if_true]
  rw [if_neg hcs]

theorem loopF_step_masked_csum (ctx : Ctx) (T : Tape) (mask : Nat → Bool)
    (i a v : Nat) (st : St)
    (hop : getOpT T i = CSumOp) (hmask : mask i = true) :
    loopF ctx T mask (i + 1) a v st =
      loopF ctx T mask i (csumAdj T (a - 1)) (v - 1)
        { st with events := .csumAdv i :: st.events } := by
  rw [loopF]
  simp only [hop, hmask, eq_self_iff_true, if_true, if_pos]
  rfl


theorem foldDF_nil (ctx : Ctx) (st : St) : foldDF ctx [] st = .ok st := rfl

theorem withPos_singleton (op : OpCode) (args : List ℤ) (i v : Nat) :
    withPos [(op, args)] i v = [⟨op, args, i, v⟩] := rfl

theorem argsLen_singleton (op : OpCode) (args : List ℤ) :
    argsLen [(op, args)] = args.length := by
  simp [argsLen]

theorem resLen_singleton (op : OpCode) (args : List ℤ) :
    resLen [(op, args)] = NumRes op := by
  simp [resLen]

theorem get_concat_last {α : Type} (A : List α) (r : α) :
    (A ++ [r]).get ⟨A.length, by simp⟩ = r := by
  rw [List.get_eq_getElem]
  exact List.getElem_concat_length _ _ _ rfl (by simp)

theorem get_concat_lt {α : Type} (A : List α) (r : α) (j : Nat)
    (h : j < A.length) :
    (A ++ [r]).get ⟨j, by simp; omega⟩ = A.get ⟨j, h⟩ := by
  rw [List.get_eq_getElem, List.get_eq_getElem]
  exact List.getElem_append_left h

/-! ## Walking a contiguous run of plain records -/

/-- Dispatching a run of plain records from the cursor equals the reference
record fold over the decoded run. -/
theorem loopF_seg (ctx : Ctx) (T : Tape) (mask : Nat → Bool)
    (S : List (OpCode × List ℤ)) (b ab vb : Nat)
    (hops : ∀ j (h : j < S.length), getOpT T (b + j) = (S.get ⟨j, h⟩).1)
    (hargs : ∀ j (h : j < S.length), ∀ k, k < (S.get ⟨j, h⟩).2.length →
      argvAt T (ab + argsLen (S.take j) + k) = (S.get ⟨j, h⟩).2.getD k 0)
    (hmask : ∀ j, j < S.length → mask (b + j) = false)
    (hplain : ∀ r ∈ S, plainRec r) :
    ∀ st : St,
    loopF ctx T mask (b + S.length) (ab + argsLen S) (vb + resLen S) st =
      match foldDF ctx (withPos S b vb) st with
      | .error e => .error e
      | .ok st' => loopF ctx T mask b ab vb st' := by
  induction S using List.reverseRecOn with
  | nil =>
    intro st
    simp [argsLen, resLen, foldDF_nil, withPos]
  | append_singleton A r ih =>
    intro st
    obtain ⟨op, args⟩ := r
    have hlast : (A ++ [(op, args)]).get ⟨A.length, by simp⟩ = (op, args) :=
      get_concat_last A (op, args)
    have hop : getOpT T (b + A.length) = op := by
      rw [hops A.length (by simp), hlast]
    obtain ⟨⟨hnb, hne, hncs, hnck⟩, hlen⟩ :=
      hplain (op, args) (List.mem_append_right A (List.mem_singleton.mpr rfl))
    simp only at hlen
    have hmaskr : mask (b + A.length) = false := hmask A.length (by simp)
    have htake : (A ++ [(op, args)]).take A.length = A := by
      rw [List.take_append_of_le_length (Nat.le_refl _), List.take_length]
    have hargr : ∀ k, k < args.length →
        argvAt T (ab + argsLen A + k) = args.getD k 0 := by
      intro k hk
      have h2 := hargs A.length (by simp) k (by rw [hlast]; exact hk)
      rw [htake, hlast] at h2
      exact h2
    rw [List.length_append, List.length_singleton, argsLen_append,
      resLen_append, argsLen_singleton, resLen_singleton,
      show b + (A.length + 1) = (b + A.length) + 1 from rfl,
      loopF_step_default ctx T mask (b + A.length) _ _ op st hop hmaskr
        hnb hnck hncs]
    have ha' : ab + (argsLen A + args.length) - NumArg op = ab + argsLen A := by
      omega
    have hv' : vb + (resLen A + NumRes op) - NumRes op = vb + resLen A := by
      omega
    rw [ha', hv']
    rw [stepOpF_congr_plain ctx _ (fun k => args.getD k 0) (b + A.length)
      (vb + resLen A) op st ⟨hnb, hne, hncs, hnck⟩
      (fun k hk => hargr k (by omega))]
    rw [withPos_append, foldDF_append]
    cases hstep : stepOpF ctx (fun k => args.getD k 0) (b + A.length)
        (vb + resLen A) op st with
    | error e =>
      have hf : foldDF ctx
          (withPos [(op, args)] (b + A.length) (vb + resLen A)) st =
          .error e := by
        rw [withPos_singleton, foldDF_single]
        exact hstep
      rw [hf]
    | ok st1 =>
      have hf : foldDF ctx
          (withPos [(op, args)] (b + A.length) (vb + resLen A)) st =
          .ok st1 := by
        rw [withPos_singleton, foldDF_single]
        exact hstep
      rw [hf]
      have ih' := ih (fun j h => by
          rw [← get_concat_lt A (op, args) j h]
          exact hops j (by simp; omega))
        (fun j h k hk => by
          have := hargs j (by simp; omega) k
            (by rw [get_concat_lt A (op, args) j h]; exact hk)
          rw [List.take_append_of_le_length (by omega),
            get_concat_lt A (op, args) j h] at this
          exact this)
        (fun j hj => hmask j (by simp; omega))
        (fun r hr => hplain r (List.mem_append_left _ hr))
      exact ih' st1

/-- Passing over a masked run of plain records moves the cursor without
touching the state. -/
theorem loopF_seg_masked (ctx : Ctx) (T : Tape) (mask : Nat → Bool)
    (S : List (OpCode × List ℤ)) (b ab vb : Nat)
    (hops : ∀ j (h : j < S.length), getOpT T (b + j) = (S.get ⟨j, h⟩).1)
    (hmask : ∀ j, j < S.length → mask (b + j) = true)
    (hplain : ∀ r ∈ S, r.1 ≠ CSumOp ∧ r.2.length = NumArg r.1) :
    ∀ st : St,
    loopF ctx T mask (b + S.length) (ab + argsLen S) (vb + resLen S) st =
      loopF ctx T mask b ab vb st := by
  induction S using List.reverseRecOn with
  | nil =>
    intro st
    simp [argsLen, resLen]
  | append_singleton A r ih =>
    intro st
    obtain ⟨op, args⟩ := r
    have hlast : (A ++ [(op, args)]).get ⟨A.length, by simp⟩ = (op, args) :=
      get_concat_last A (op, args)
    have hop : getOpT T (b + A.length) = op := by
      rw [hops A.length (by simp), hlast]
    obtain ⟨hncs, hlen⟩ :=
      hplain (op, args) (List.mem_append_right A (List.mem_singleton.mpr rfl))
    simp only at hlen hncs
    have hmaskr : mask (b + A.length) = true := hmask A.length (by simp)
    rw [List.length_append, List.length_singleton, argsLen_append,
      resLen_append, argsLen_singleton, resLen_singleton,
      show b + (A.length + 1) = (b + A.length) + 1 from rfl,
      loopF_step_masked ctx T mask (b + A.length) _ _ op st hop hmaskr hncs,
      show ab + (argsLen A + args.length) - NumArg op = ab + argsLen A from by
        omega,
      show vb + (resLen A + NumRes op) - NumRes op = vb + resLen A from by
        omega]
    exact ih (fun j h => by
        rw [← get_concat_lt A (op, args) j h]
        exact hops j (by simp; omega))
      (fun j hj => hmask j (by simp; omega))
      (fun r hr => hplain r (List.mem_append_left _ hr)) st


theorem csumArgs_length (adds subs : List Nat) (q : Nat) :
    (csumArgs adds subs q).length = 4 + adds.length + subs.length := by
  simp [csumArgs]
  omega

theorem csumArgAt_cnt (adds subs : List Nat) (q : Nat) :
    (csumArgs adds subs q).getD (3 + (adds.length + subs.length)) 0 =
      ((adds.length + subs.length : Nat) : ℤ) := by
  simp only [csumArgs]
  rw [show 3 + (adds.length + subs.length) =
      ((adds.length + subs.length + 1) + 1) + 1 from by omega,
    List.getD_cons_succ, List.getD_cons_succ, List.getD_cons_succ,
    List.getD_append_right _ _ _ _
      (by simp only [List.length_append, List.length_map]; omega),
    show adds.length + subs.length -
        (List.map (fun t : Nat => (t : ℤ)) adds ++
          List.map (fun t : Nat => (t : ℤ)) subs).length = 0 from by
      simp only [List.length_append, List.length_map]; omega]
  rfl

/-- Dispatching a live `CSum` record: the dedicated advance re-aligns the
argument cursor to the block start before and after the rule. -/
theorem loopF_csum_live (ctx : Ctx) (T : Tape) (mask : Nat → Bool)
    (b ab vb : Nat) (adds subs : List Nat) (q : Nat) (st : St)
    (hop : getOpT T b = CSumOp) (hmask : mask b = false)
    (hargv : ∀ k, k < (csumArgs adds subs q).length →
      argvAt T (ab + k) = (csumArgs adds subs q).getD k 0) :
    loopF ctx T mask (b + 1) (ab + (csumArgs adds subs q).length) (vb + 1)
        st =
      loopF ctx T mask b ab vb
        { st with
          adj := reverse_csum_op ctx.d vb
            (fun k => (csumArgs adds subs q).getD k 0) st.adj
          events := .csumAdv b :: st.events } := by
  rw [loopF_step_csum ctx T mask b _ _ st hop hmask]
  have hcs : ab + (csumArgs adds subs q).length - 1 =
      ab + (3 + (adds.length + subs.length)) := by
    rw [csumArgs_length]
    omega
  have hcnt : argvAt T (ab + (3 + (adds.length + subs.length))) =
      ((adds.length + subs.length : Nat) : ℤ) := by
    rw [hargv _ (by rw [csumArgs_length]; omega), csumArgAt_cnt]
  have hadj : csumAdj T (ab + (csumArgs adds subs q).length - 1) = ab := by
    unfold csumAdj
    rw [hcs, hcnt, Int.toNat_natCast]
    omega
  rw [hcs] at hadj
  rw [hcs, hadj]
  have hstep : stepOpF ctx
      (fun k => argvAt T (ab + k)) b (vb + 1 - 1) CSumOp st =
      .ok { st with
        adj := reverse_csum_op ctx.d vb
          (fun k => (csumArgs adds subs q).getD k 0) st.adj
        events := .csumAdv b :: st.events } := by
    simp only [stepOpF, Nat.add_sub_cancel]
    rw [reverse_csum_op_congr ctx.d vb _
      (fun k => (csumArgs adds subs q).getD k 0) st.adj ?_]
    intro k hk
    refine hargv k ?_
    have e0 : (((csumArgs adds subs q).getD 0 0)).toNat = adds.length := by
      rw [show (csumArgs adds subs q).getD 0 0 = (adds.length : ℤ) from rfl,
        Int.toNat_natCast]
    have e1 : (((csumArgs adds subs q).getD 1 0)).toNat = subs.length := by
      rw [show (csumArgs adds subs q).getD 1 0 = (subs.length : ℤ) from rfl,
        Int.toNat_natCast]
    simp only at hk
    rw [e0, e1] at hk
    rw [csumArgs_length]
    omega
  rw [hstep]
  rfl

/-- Dispatching a live `CSkip` record: the dedicated advance re-aligns the
argument cursor; the record has no adjoint effect. -/
theorem loopF_cskip_live (ctx : Ctx) (T : Tape) (mask : Nat → Bool)
    (b ab vb : Nat) (nidx : Nat) (st : St)
    (hop : getOpT T b = CSkipOp) (hmask : mask b = false)
    (hcnt : argvAt T (ab + (6 + nidx)) = (nidx : ℤ)) :
    loopF ctx T mask (b + 1) (ab + (7 + nidx)) vb st =
      loopF ctx T mask b ab vb
        { st with events := .cskipAdv b :: st.events } := by
  rw [show vb = vb + 0 from rfl, loopF_step_cskip ctx T mask b _ _ st hop
    hmask]
  have hcs : ab + (7 + nidx) - 1 = ab + (6 + nidx) := by omega
  have hadj : cskipAdj T (ab + (6 + nidx)) = ab := by
    unfold cskipAdj
    rw [hcnt, Int.toNat_natCast]
    omega
  rw [hcs, hadj]
  have hstep : stepOpF ctx (fun k => argvAt T (ab + k)) b (vb + 0 - 0)
      CSkipOp st =
      .ok { st with events := .cskipAdv b :: st.events } := by
    simp only [stepOpF, Nat.sub_zero, Nat.add_zero]
  rw [hstep]
  rw [Nat.sub_zero, Nat.add_zero]

/-- Passing over a dead-marked `CSum` record: the skip loop's dedicated case
re-aligns the cursor (and logs the advance); the rule is not evaluated. -/
theorem loopF_csum_masked (ctx : Ctx) (T : Tape) (mask : Nat → Bool)
    (b ab vb : Nat) (adds subs : List Nat) (q : Nat) (st : St)
    (hop : getOpT T b = CSumOp) (hmask : mask b = true)
    (hcnt : argvAt T (ab + (3 + (adds.length + subs.length))) =
      ((adds.length + subs.length : Nat) : ℤ)) :
    loopF ctx T mask (b + 1) (ab + (csumArgs adds subs q).length) (vb + 1)
        st =
      loopF ctx T mask b ab vb
        { st with events := .csumAdv b :: st.events } := by
  rw [loopF_step_masked_csum ctx T mask b _ _ st hop hmask]
  have hcs : ab + (csumArgs adds subs q).length - 1 =
      ab + (3 + (adds.length + subs.length)) := by
    rw [csumArgs_length]
    omega
  have hadj : csumAdj T (ab + (3 + (adds.length + subs.length))) = ab := by
    unfold csumAdj
    rw [hcnt, Int.toNat_natCast]
    omega
  rw [hcs, hadj, Nat.add_sub_cancel]


/-! ## The instruction-level masked fold -/

/-- Is the instruction a `CSkip`? (its dead form is the C3/C6 misalignment). -/
def isCSkipB : SInstr → Bool
  | .cskip _ _ _ _ _ _ _ => true
  | _ => false

/-- Events the skip branch logs while passing over one dead instruction:
only a `CSum` record gets the dedicated (logged) advance. -/
def skipEv : SInstr → IPos → List Event
  | .csum _ _ _, p => [.csumAdv p.opB]
  | _, _ => []

/-- One instruction under the driver: dispatched when live, passed over by
the skip branch when dead. -/
def stepIM (ctx : Ctx) (live : Bool) (ins : SInstr) (p : IPos) (st : St) :
    Except (String × St) St :=
  if live then stepInstrF ctx ins p st
  else .ok { st with events := skipEv ins p ++ st.events }

/-- Reverse instruction fold with a per-instruction liveness mask. -/
def foldIM (ctx : Ctx) (live : SInstr × IPos → Bool) :
    List (SInstr × IPos) → St → Except (String × St) St
  | [], st => .ok st
  | e :: rest, st =>
    match foldIM ctx live rest st with
    | .error err => .error err
    | .ok st' => stepIM ctx (live e) e.1 e.2 st'

theorem encode1_plain_of (ins : SInstr)
    (h1 : ∀ a s q, ins ≠ SInstr.csum a s q)
    (h2 : ∀ c1 c2 c3 c4 c5 c6 ix, ins ≠ SInstr.cskip c1 c2 c3 c4 c5 c6 ix) :
    ∀ r ∈ encode1 ins, plainRec r := by
  cases ins with
  | inv =>
    intro r hr
    simp only [encode1, List.mem_singleton] at hr
    subst hr
    exact ⟨⟨nofun, nofun, nofun, nofun⟩, rfl⟩
  | addvv a b =>
    intro r hr
    simp only [encode1, List.mem_singleton] at hr
    subst hr
    exact ⟨⟨nofun, nofun, nofun, nofun⟩, rfl⟩
  | mulvv a b =>
    intro r hr
    simp only [encode1, List.mem_singleton] at hr
    subst hr
    exact ⟨⟨nofun, nofun, nofun, nofun⟩, rfl⟩
  | csum a s q => exact absurd rfl (h1 a s q)
  | cskip c1 c2 c3 c4 c5 c6 ix => exact absurd rfl (h2 c1 c2 c3 c4 c5 c6 ix)
  | ldp x y ld =>
    intro r hr
    simp only [encode1, List.mem_singleton] at hr
    subst hr
    exact ⟨⟨nofun, nofun, nofun, nofun⟩, rfl⟩
  | ldv x y ld =>
    intro r hr
    simp only [encode1, List.mem_singleton] at hr
    subst hr
    exact ⟨⟨nofun, nofun, nofun, nofun⟩, rfl⟩
  | atomic ai aid ats rts =>
    intro r hr
    simp only [encode1, List.mem_cons, List.mem_append, List.mem_map,
      List.mem_singleton] at hr
    rcases hr with rfl | hmid | rfl | h0
    · exact ⟨⟨nofun, nofun, nofun, nofun⟩, rfl⟩
    · rcases hmid with ⟨t, _, rfl⟩ | ⟨t, _, rfl⟩ <;>
        cases t <;> exact ⟨⟨nofun, nofun, nofun, nofun⟩, rfl⟩
    · exact ⟨⟨nofun, nofun, nofun, nofun⟩, rfl⟩
    · simp at h0

theorem cskipArgAt_cnt (c1 c2 c3 c4 c5 c6 : ℤ) (idx : List ℤ) :
    ([c1, c2, c3, c4, c5, c6] ++ idx ++ [(idx.length : ℤ)]).getD
      (6 + idx.length) 0 = (idx.length : ℤ) := by
  rw [List.getD_append_right _ _ _ _
      (by simp only [List.length_append, List.length_cons, List.length_nil]
          omega),
    show 6 + idx.length - ([c1, c2, c3, c4, c5, c6] ++ idx).length = 0 from by
      simp only [List.length_append, List.length_cons, List.length_nil]
      omega]
  rfl

theorem instrArgs_cskip (c1 c2 c3 c4 c5 c6 : ℤ) (idx : List ℤ) :
    instrArgs (.cskip c1 c2 c3 c4 c5 c6 idx) = 7 + idx.length := by
  simp [instrArgs, encode1]
  omega


/-- One instruction's records under the driver:
dispatched when live, passed over by the skip branch when its instruction is
marked dead (no dead `CSkip`). -/
theorem loopF_instr (ctx : Ctx) (prog pre suf : List SInstr) (ins : SInstr)
    (D : Nat → Bool) (hsplit : prog = pre ++ ins :: suf) (p : IPos)
    (hp : p = posAfter ⟨0, 1, 1, 1⟩ pre)
    (hnc : D p.idx = true → isCSkipB ins = false) (st : St) :
    loopF ctx (tapeOf prog) (maskOf prog D) (p.opB + instrLen ins)
        (p.argB + instrArgs ins) (p.varB + instrRes ins) st =
      match stepIM ctx (!D p.idx) ins p st with
      | .error e => .error e
      | .ok st1 =>
          loopF ctx (tapeOf prog) (maskOf prog D) p.opB p.argB p.varB st1 := by
  have hrec : recsOf prog = recsOf pre ++ (encode1 ins ++ recsOf suf) := by
    rw [hsplit, recsOf_append, show ins :: suf = [ins] ++ suf from rfl,
      recsOf_append]
    congr 1
    simp [recsOf]
  have hrecl : (recsOf pre).length = recLen pre := recsOf_length pre
  have hargl : argsLen (recsOf pre) = argSum pre := recsOf_argsLen pre
  have hopB : p.opB = 1 + recLen pre := by rw [hp]; rfl
  have hargB : p.argB = 1 + argSum pre := by rw [hp]; rfl
  have hops : ∀ j (h : j < (encode1 ins).length),
      getOpT (tapeOf prog) (p.opB + j) = ((encode1 ins).get ⟨j, h⟩).1 := by
    intro j h
    have h2 := tape_ops_at prog (recsOf pre) (encode1 ins ++ recsOf suf) hrec
      j (by simp only [List.length_append]; omega)
    rw [hrecl] at h2
    rw [hopB, h2,
      show ((encode1 ins ++ recsOf suf).get
          ⟨j, by simp only [List.length_append]; omega⟩) =
        (encode1 ins).get ⟨j, h⟩ from List.get_append j h]
  have hargs : ∀ j (h : j < (encode1 ins).length), ∀ k,
      k < ((encode1 ins).get ⟨j, h⟩).2.length →
      argvAt (tapeOf prog) (p.argB + argsLen ((encode1 ins).take j) + k) =
        ((encode1 ins).get ⟨j, h⟩).2.getD k 0 := by
    intro j h k hk
    have hget : (encode1 ins ++ recsOf suf).get
        ⟨j, by simp only [List.length_append]; omega⟩ =
        (encode1 ins).get ⟨j, h⟩ := List.get_append j h
    have h2 := tape_argv_at prog (recsOf pre) (encode1 ins ++ recsOf suf)
      hrec j (by simp only [List.length_append]; omega) k
      (by rw [hget]; exact hk)
    rw [List.take_append_of_le_length (by omega), hget, hargl] at h2
    rw [hargB]
    exact h2
  have hmaskI : ∀ j, j < instrLen ins →
      maskOf prog D (p.opB + j) = D p.idx := fun j hj =>
    maskOf_at prog pre suf ins D hsplit p hp (p.opB + j) (by omega) (by omega)
  cases ins with
  | inv =>
    cases hD : D p.idx with
    | false =>
      exact loopF_seg ctx (tapeOf prog) (maskOf prog D) (encode1 SInstr.inv)
        p.opB p.argB p.varB hops hargs
        (fun j hj => by have h0 := hmaskI j hj; rw [hD] at h0; exact h0)
        (encode1_plain_of _ (fun a s q h => SInstr.noConfusion h)
          (fun c1 c2 c3 c4 c5 c6 ix h => SInstr.noConfusion h)) st
    | true =>
      exact loopF_seg_masked ctx (tapeOf prog) (maskOf prog D)
        (encode1 SInstr.inv) p.opB p.argB p.varB hops
        (fun j hj => by have h0 := hmaskI j hj; rw [hD] at h0; exact h0)
        (fun r hr =>
          ⟨((encode1_plain_of _ (fun a s q h => SInstr.noConfusion h)
              (fun c1 c2 c3 c4 c5 c6 ix h => SInstr.noConfusion h)) r hr).1.2.2.1,
            ((encode1_plain_of _ (fun a s q h => SInstr.noConfusion h)
              (fun c1 c2 c3 c4 c5 c6 ix h => SInstr.noConfusion h)) r hr).2⟩) st
  | addvv a b =>
    cases hD : D p.idx with
    | false =>
      exact loopF_seg ctx (tapeOf prog) (maskOf prog D)
        (encode1 (SInstr.addvv a b)) p.opB p.argB p.varB hops hargs
        (fun j hj => by have h0 := hmaskI j hj; rw [hD] at h0; exact h0)
        (encode1_plain_of _ (fun a s q h => SInstr.noConfusion h)
          (fun c1 c2 c3 c4 c5 c6 ix h => SInstr.noConfusion h)) st
    | true =>
      exact loopF_seg_masked ctx (tapeOf prog) (maskOf prog D)
        (encode1 (SInstr.addvv a b)) p.opB p.argB p.varB hops
        (fun j hj => by have h0 := hmaskI j hj; rw [hD] at h0; exact h0)
        (fun r hr =>
          ⟨((encode1_plain_of _ (fun a s q h => SInstr.noConfusion h)
              (fun c1 c2 c3 c4 c5 c6 ix h => SInstr.noConfusion h)) r hr).1.2.2.1,
            ((encode1_plain_of _ (fun a s q h => SInstr.noConfusion h)
              (fun c1 c2 c3 c4 c5 c6 ix h => SInstr.noConfusion h)) r hr).2⟩) st
  | mulvv a b =>
    cases hD : D p.idx with
    | false =>
      exact loopF_seg ctx (tapeOf prog) (maskOf prog D)
        (encode1 (SInstr.mulvv a b)) p.opB p.argB p.varB hops hargs
        (fun j hj => by have h0 := hmaskI j hj; rw [hD] at h0; exact h0)
        (encode1_plain_of _ (fun a s q h => SInstr.noConfusion h)
          (fun c1 c2 c3 c4 c5 c6 ix h => SInstr.noConfusion h)) st
    | true =>
      exact loopF_seg_masked ctx (tapeOf prog) (maskOf prog D)
        (encode1 (SInstr.mulvv a b)) p.opB p.argB p.varB hops
        (fun j hj => by have h0 := hmaskI j hj; rw [hD] at h0; exact h0)
        (fun r hr =>
          ⟨((encode1_plain_of _ (fun a s q h => SInstr.noConfusion h)
              (fun c1 c2 c3 c4 c5 c6 ix h => SInstr.noConfusion h)) r hr).1.2.2.1,
            ((encode1_plain_of _ (fun a s q h => SInstr.noConfusion h)
              (fun c1 c2 c3 c4 c5 c6 ix h => SInstr.noConfusion h)) r hr).2⟩) st
  | ldp x y ld =>
    cases hD : D p.idx with
    | false =>
      exact loopF_seg ctx (tapeOf prog) (maskOf prog D)
        (encode1 (SInstr.ldp x y ld)) p.opB p.argB p.varB hops hargs
        (fun j hj => by have h0 := hmaskI j hj; rw [hD] at h0; exact h0)
        (encode1_plain_of _ (fun a s q h => SInstr.noConfusion h)
          (fun c1 c2 c3 c4 c5 c6 ix h => SInstr.noConfusion h)) st
    | true =>
      exact loopF_seg_masked ctx (tapeOf prog) (maskOf prog D)
        (encode1 (SInstr.ldp x y ld)) p.opB p.argB p.varB hops
        (fun j hj => by have h0 := hmaskI j hj; rw [hD] at h0; exact h0)
        (fun r hr =>
          ⟨((encode1_plain_of _ (fun a s q h => SInstr.noConfusion h)
              (fun c1 c2 c3 c4 c5 c6 ix h => SInstr.noConfusion h)) r hr).1.2.2.1,
            ((encode1_plain_of _ (fun a s q h => SInstr.noConfusion h)
              (fun c1 c2 c3 c4 c5 c6 ix h => SInstr.noConfusion h)) r hr).2⟩) st
  | ldv x y ld =>
    cases hD : D p.idx with
    | false =>
      exact loopF_seg ctx (tapeOf prog) (maskOf prog D)
        (encode1 (SInstr.ldv x y ld)) p.opB p.argB p.varB hops hargs
        (fun j hj => by have h0 := hmaskI j hj; rw [hD] at h0; exact h0)
        (encode1_plain_of _ (fun a s q h => SInstr.noConfusion h)
          (fun c1 c2 c3 c4 c5 c6 ix h => SInstr.noConfusion h)) st
    | true =>
      exact loopF_seg_masked ctx (tapeOf prog) (maskOf prog D)
        (encode1 (SInstr.ldv x y ld)) p.opB p.argB p.varB hops
        (fun j hj => by have h0 := hmaskI j hj; rw [hD] at h0; exact h0)
        (fun r hr =>
          ⟨((encode1_plain_of _ (fun a s q h => SInstr.noConfusion h)
              (fun c1 c2 c3 c4 c5 c6 ix h => SInstr.noConfusion h)) r hr).1.2.2.1,
            ((encode1_plain_of _ (fun a s q h => SInstr.noConfusion h)
              (fun c1 c2 c3 c4 c5 c6 ix h => SInstr.noConfusion h)) r hr).2⟩) st
  | atomic ai aid ats rts =>
    cases hD : D p.idx with
    | false =>
      exact loopF_seg ctx (tapeOf prog) (maskOf prog D)
        (encode1 (SInstr.atomic ai aid ats rts)) p.opB p.argB p.varB hops
        hargs
        (fun j hj => by have h0 := hmaskI j hj; rw [hD] at h0; exact h0)
        (encode1_plain_of _ (fun a s q h => SInstr.noConfusion h)
          (fun c1 c2 c3 c4 c5 c6 ix h => SInstr.noConfusion h)) st
    | true =>
      exact loopF_seg_masked ctx (tapeOf prog) (maskOf prog D)
        (encode1 (SInstr.atomic ai aid ats rts)) p.opB p.argB p.varB hops
        (fun j hj => by have h0 := hmaskI j hj; rw [hD] at h0; exact h0)
        (fun r hr =>
          ⟨((encode1_plain_of _ (fun a s q h => SInstr.noConfusion h)
              (fun c1 c2 c3 c4 c5 c6 ix h => SInstr.noConfusion h)) r hr).1.2.2.1,
            ((encode1_plain_of _ (fun a s q h => SInstr.noConfusion h)
              (fun c1 c2 c3 c4 c5 c6 ix h => SInstr.noConfusion h)) r hr).2⟩) st
  | csum adds subs q =>
    have hmaskp : maskOf prog D p.opB = D p.idx := hmaskI 0 Nat.zero_lt_one
    have hargv : ∀ k, k < (csumArgs adds subs q).length →
        argvAt (tapeOf prog) (p.argB + k) = (csumArgs adds subs q).getD k 0 :=
      fun k hk => hargs 0 Nat.zero_lt_one k hk
    cases hD : D p.idx with
    | false =>
      rw [hD] at hmaskp
      exact loopF_csum_live ctx (tapeOf prog) (maskOf prog D) p.opB p.argB
        p.varB adds subs q st (hops 0 Nat.zero_lt_one) hmaskp hargv
    | true =>
      rw [hD] at hmaskp
      have hcnt : argvAt (tapeOf prog)
          (p.argB + (3 + (adds.length + subs.length))) =
          ((adds.length + subs.length : Nat) : ℤ) := by
        have h5 := hargv (3 + (adds.length + subs.length))
          (by rw [csumArgs_length]; omega)
        rw [csumArgAt_cnt] at h5
        exact h5
      exact loopF_csum_masked ctx (tapeOf prog) (maskOf prog D) p.opB p.argB
        p.varB adds subs q st (hops 0 Nat.zero_lt_one) hmaskp hcnt
  | cskip c1 c2 c3 c4 c5 c6 idx =>
    have hmaskp : maskOf prog D p.opB = D p.idx := hmaskI 0 Nat.zero_lt_one
    cases hD : D p.idx with
    | false =>
      rw [hD] at hmaskp
      have hbound : (6 + idx.length) <
          ((encode1 (SInstr.cskip c1 c2 c3 c4 c5 c6 idx)).get
            ⟨0, Nat.zero_lt_one⟩).2.length := by
        show 6 + idx.length <
          ([c1, c2, c3, c4, c5, c6] ++ idx ++ [(idx.length : ℤ)]).length
        simp only [List.length_append, List.length_cons, List.length_nil]
        omega
      have hcnt : argvAt (tapeOf prog) (p.argB + (6 + idx.length)) =
          (idx.length : ℤ) := by
        have h5 := hargs 0 Nat.zero_lt_one (6 + idx.length) hbound
        rw [show ((encode1 (SInstr.cskip c1 c2 c3 c4 c5 c6 idx)).get
              ⟨0, Nat.zero_lt_one⟩).2.getD (6 + idx.length) 0 =
            (idx.length : ℤ) from cskipArgAt_cnt c1 c2 c3 c4 c5 c6 idx]
          at h5
        exact h5
      rw [instrArgs_cskip]
      exact loopF_cskip_live ctx (tapeOf prog) (maskOf prog D) p.opB p.argB
        p.varB idx.length st (hops 0 Nat.zero_lt_one) hmaskp hcnt
    | true => exact Bool.noConfusion (hnc hD)


theorem foldIM_append (ctx : Ctx) (live : SInstr × IPos → Bool)
    (l1 l2 : List (SInstr × IPos)) (st : St) :
    foldIM ctx live (l1 ++ l2) st =
      match foldIM ctx live l2 st with
      | .error e => .error e
      | .ok st' => foldIM ctx live l1 st' := by
  induction l1 with
  | nil =>
    simp only [List.nil_append]
    cases foldIM ctx live l2 st with
    | error e => rfl
    | ok st' => rfl
  | cons e l1 ih =>
    show foldIM ctx live (e :: (l1 ++ l2)) st = _
    rw [foldIM, ih]
    cases foldIM ctx live l2 st with
    | error e => rfl
    | ok st' =>
      cases foldIM ctx live l1 st' with
      | error e => rfl
      | ok st2 => rfl

/-- The masked loop, started at the cursor after a program prefix, is the
masked instruction fold over that prefix followed by the `Begin` exit. -/
theorem loopF_prog (ctx : Ctx) (prog : List SInstr) (D : Nat → Bool)
    (hnc : ∀ e ∈ iprog prog, D e.2.idx = true → isCSkipB e.1 = false) :
    ∀ (pre : List SInstr), (∀ suf, prog = pre ++ suf → ∀ st : St,
    loopF ctx (tapeOf prog) (maskOf prog D) (1 + recLen pre)
        (1 + argSum pre) (1 + resSum pre) st =
      match foldIM ctx (fun e => !D e.2.idx) (scanI pre ⟨0, 1, 1, 1⟩) st with
      | .error e => .error e
      | .ok st' => .ok ⟨st', 0, 0, BeginOp⟩) := by
  intro pre
  induction pre using List.reverseRecOn with
  | nil =>
    intro suf hsplit st
    exact loopF_step_begin ctx (tapeOf prog) (maskOf prog D) 0
      (1 + argSum []) (1 + resSum []) st (getOpT_zero prog)
      (maskOf_zero prog D)
  | append_singleton pre ins ih =>
    intro suf hsplit st
    have hsplit' : prog = pre ++ ins :: suf := by
      rw [hsplit, List.append_assoc]
      rfl
    have hmem : (ins, posAfter ⟨0, 1, 1, 1⟩ pre) ∈ iprog prog := by
      rw [hsplit']
      exact iprog_mem_of_split pre suf ins
    have h1 : 1 + recLen (pre ++ [ins]) =
        (posAfter ⟨0, 1, 1, 1⟩ pre).opB + instrLen ins := by
      simp [posAfter, recLen]
      omega
    have h2 : 1 + argSum (pre ++ [ins]) =
        (posAfter ⟨0, 1, 1, 1⟩ pre).argB + instrArgs ins := by
      simp [posAfter, argSum]
      omega
    have h3 : 1 + resSum (pre ++ [ins]) =
        (posAfter ⟨0, 1, 1, 1⟩ pre).varB + instrRes ins := by
      simp [posAfter, resSum]
      omega
    rw [h1, h2, h3,
      loopF_instr ctx prog pre suf ins D hsplit' (posAfter ⟨0, 1, 1, 1⟩ pre)
        rfl (hnc (ins, posAfter ⟨0, 1, 1, 1⟩ pre) hmem) st,
      scanI_append pre [ins] ⟨0, 1, 1, 1⟩, foldIM_append]
    cases hstep : stepIM ctx (!D (posAfter ⟨0, 1, 1, 1⟩ pre).idx) ins
        (posAfter ⟨0, 1, 1, 1⟩ pre) st with
    | error e =>
      have hsingle : foldIM ctx (fun e => !D e.2.idx)
          (scanI [ins] (posAfter ⟨0, 1, 1, 1⟩ pre)) st = .error e := hstep
      rw [hsingle]
    | ok st1 =>
      have hsingle : foldIM ctx (fun e => !D e.2.idx)
          (scanI [ins] (posAfter ⟨0, 1, 1, 1⟩ pre)) st = .ok st1 := hstep
      rw [hsingle]
      exact ih (ins :: suf) hsplit' st1

/-- The full driver on a recorded program with an instruction-aligned mask:
entry checks pass, the loop runs the masked instruction fold, and the
post-loop cursor check succeeds. -/
theorem ReverseSweep_prog (ctx : Ctx) (prog : List SInstr) (D : Nat → Bool)
    (hnc : ∀ e ∈ iprog prog, D e.2.idx = true → isCSkipB e.1 = false)
    (st0 : St) :
    ReverseSweep ctx (numvarOf (tapeOf prog)) (tapeOf prog)
        (maskOf prog D) st0 =
      match foldIM ctx (fun e => !D e.2.idx) (iprog prog) st0 with
      | .error e => .error e
      | .ok st' => .ok ⟨st', 0, 0, BeginOp⟩ := by
  have hend : getOpT (tapeOf prog) ((tapeOf prog).ops.length - 1) = EndOp := by
    rw [tapeOf_ops_length,
      show 2 + recLen prog - 1 = 1 + recLen prog from by omega,
      getOpT_endMark]
  rw [ReverseSweep, if_neg (not_not_intro rfl),
    if_neg (by rw [numvarOf_tapeOf]; omega),
    if_neg (not_not_intro hend),
    show (tapeOf prog).ops.length - 1 = 1 + recLen prog from by
      rw [tapeOf_ops_length]; omega,
    tapeOf_argv_length, numvarOf_tapeOf,
    loopF_prog ctx prog D hnc prog [] (by simp) st0]
  simp only [iprog]
  cases hF : foldIM ctx (fun e => !D e.2.idx) (scanI prog ⟨0, 1, 1, 1⟩)
      st0 with
  | error e => rfl
  | ok st' =>
    show (if (0 = 0 ∧ 0 = 0) then _ else _) = _
    rw [if_pos ⟨rfl, rfl⟩]


theorem maskOf_false (prog : List SInstr) :
    maskOf prog (fun _ => false) = fun _ => false := by
  funext r
  simp [maskOf]

theorem foldIM_all_live (ctx : Ctx) (live : SInstr × IPos → Bool)
    (l : List (SInstr × IPos)) (h : ∀ e ∈ l, live e = true) (st : St) :
    foldIM ctx live l st = foldIF ctx l st := by
  induction l with
  | nil => rfl
  | cons e l ih =>
    rw [foldIM, foldIF, ih (fun e' he' => h e' (List.mem_cons_of_mem e he'))]
    cases foldIF ctx l st with
    | error err => rfl
    | ok st' =>
      show stepIM ctx (live e) e.1 e.2 st' = _
      rw [h e (List.mem_cons_self e l)]
      rfl

/-- The masked instruction fold agrees with the plain fold over the live
sublist on the Adjoint Matrix (the dead passes only log events). -/
theorem foldIM_adj (ctx : Ctx) (live : SInstr × IPos → Bool)
    (l : List (SInstr × IPos)) (hG : ∀ e ∈ l, GroupOk ctx e.1)
    (st : St) (hst : st.ustate = .uEnd) :
    ∃ st1 st2, foldIM ctx live l st = .ok st1 ∧
      foldIF ctx (l.filter live) st = .ok st2 ∧
      st1.adj = st2.adj ∧ st1.ustate = .uEnd ∧ st2.ustate = .uEnd := by
  induction l with
  | nil => exact ⟨st, st, rfl, rfl, rfl, hst, hst⟩
  | cons e l ih =>
    obtain ⟨st1, st2, h1, h2, hadj, hu1, hu2⟩ :=
      ih (fun e' he' => hG e' (List.mem_cons_of_mem e he'))
    have hGe : GroupOk ctx e.1 := hG e (List.mem_cons_self e l)
    cases hl : live e with
    | true =>
      obtain ⟨st1', hs1, ha1, hu1'⟩ := stepInstrF_spec ctx e.1 e.2 st1 hGe hu1
      obtain ⟨st2', hs2, ha2, hu2'⟩ := stepInstrF_spec ctx e.1 e.2 st2 hGe hu2
      refine ⟨st1', st2', ?_, ?_, ?_, hu1', hu2'⟩
      · rw [foldIM, h1]
        show stepIM ctx (live e) e.1 e.2 st1 = _
        rw [hl]
        exact hs1
      · rw [List.filter_cons_of_pos hl]
        simp only [foldIF, h2]
        exact hs2
      · rw [ha1, ha2, hadj]
    | false =>
      refine ⟨{ st1 with events := skipEv e.1 e.2 ++ st1.events }, st2, ?_,
        ?_, hadj, hu1, hu2⟩
      · rw [foldIM, h1]
        show stepIM ctx (live e) e.1 e.2 st1 = _
        rw [hl]
        rfl
      · rw [List.filter_cons_of_neg (by simp [hl])]
        exact h2


/-- C3 (amended): for any recorded program and any instruction-aligned skip
mask whose dead set contains no `CSkip` instruction and marks only
instructions provably dead for the run — their result rows lie in a row set
`Z` that is zero-seeded and that no live instruction writes — the Full
Reverse Sweep run with that mask succeeds and produces, for every variable
and every order, adjoints identical to the same sweep run with an all-false
mask.  (The unamended claim, refuted by `C3_counterexample`, also allowed
dead `CSkip` records, but the skip loop realigns only `CSum`-shaped
blocks.) -/
theorem C3_instr_masked_equiv (ctx : Ctx) (prog : List SInstr)
    (D : Nat → Bool) (Z : Nat → Prop) (st0 : St)
    (hG : ∀ e ∈ iprog prog, GroupOk ctx e.1)
    (hnc : ∀ e ∈ iprog prog, D e.2.idx = true → isCSkipB e.1 = false)
    (hdead : ∀ e ∈ iprog prog, D e.2.idx = true →
      ∀ v ∈ resRows e.1 e.2, Z v)
    (hlive : ∀ e ∈ iprog prog, D e.2.idx = false →
      ∀ v ∈ writeSet ctx e.1, ¬ Z v)
    (hst : st0.ustate = .uEnd) (hz : ∀ v, Z v → ∀ k, st0.adj v k = 0) :
    ∃ out1 out2,
      ReverseSweep ctx (numvarOf (tapeOf prog)) (tapeOf prog)
        (maskOf prog D) st0 = .ok out1 ∧
      ReverseSweep ctx (numvarOf (tapeOf prog)) (tapeOf prog)
        (fun _ => false) st0 = .ok out2 ∧
      ∀ v k, out1.st.adj v k = out2.st.adj v k := by
  obtain ⟨st1, st2, hM, hFilt, hadj12, hu1, hu2⟩ :=
    foldIM_adj ctx (fun e => !D e.2.idx) (iprog prog) hG st0 hst
  obtain ⟨stF, st2', hFull, hFilt', hadjF, _, _, _⟩ :=
    foldIF_filter ctx (fun e => !D e.2.idx) Z (iprog prog) hG
      (fun e he hl => hdead e he
        (by simp only [Bool.not_eq_false'] at hl; exact hl))
      (fun e he hl => hlive e he
        (by simp only [Bool.not_eq_true'] at hl; exact hl))
      st0 hst hz
  have hst2eq : st2 = st2' := Except.ok.inj (hFilt.symm.trans hFilt')
  have hAll : foldIM ctx (fun e => !(fun _ : Nat => false) e.2.idx)
      (iprog prog) st0 = .ok stF := by
    rw [foldIM_all_live ctx (fun e => !(fun _ : Nat => false) e.2.idx)
      (iprog prog) (fun e _ => rfl) st0]
    exact hFull
  refine ⟨⟨st1, 0, 0, BeginOp⟩, ⟨stF, 0, 0, BeginOp⟩, ?_, ?_, ?_⟩
  · rw [ReverseSweep_prog ctx prog D hnc st0, hM]
  · rw [show (fun _ : Nat => false) = maskOf prog (fun _ => false) from
      (maskOf_false prog).symm,
      ReverseSweep_prog ctx prog (fun _ => false)
        (fun e _ h => Bool.noConfusion h) st0, hAll]
  · intro v k
    show st1.adj v k = stF.adj v k
    rw [hadj12, hst2eq, ← hadjF]


/-- Witness for C3 (amended): a concrete program (`y1 = x1 + x2`,
`y2 = x1 + x1`) with the addition feeding `y1` marked dead; the masked and
all-false sweeps both succeed with identical adjoints when only `y2`'s row
is seeded. -/
theorem C3_witness :
    ∃ out1 out2,
      ReverseSweep
        { d := 0, taylor := fun _ _ => 0, par := fun _ => 0,
          reg := fun _ => none, atomName := fun _ => "f",
          ldmap := fun _ => 0 }
        (numvarOf (tapeOf [SInstr.inv, SInstr.inv, SInstr.addvv 1 2,
          SInstr.addvv 1 1]))
        (tapeOf [SInstr.inv, SInstr.inv, SInstr.addvv 1 2, SInstr.addvv 1 1])
        (maskOf [SInstr.inv, SInstr.inv, SInstr.addvv 1 2, SInstr.addvv 1 1]
          (fun i => decide (i = 2)))
        (mkSt (fun i k => if i = 4 ∧ k = 0 then 1 else 0)) = .ok out1 ∧
      ReverseSweep
        { d := 0, taylor := fun _ _ => 0, par := fun _ => 0,
          reg := fun _ => none, atomName := fun _ => "f",
          ldmap := fun _ => 0 }
        (numvarOf (tapeOf [SInstr.inv, SInstr.inv, SInstr.addvv 1 2,
          SInstr.addvv 1 1]))
        (tapeOf [SInstr.inv, SInstr.inv, SInstr.addvv 1 2, SInstr.addvv 1 1])
        (fun _ => false)
        (mkSt (fun i k => if i = 4 ∧ k = 0 then 1 else 0)) = .ok out2 ∧
      ∀ v k, out1.st.adj v k = out2.st.adj v k := by
  refine C3_instr_masked_equiv _ _ (fun i => decide (i = 2))
    (fun v => v = 3) _ ?_ ?_ ?_ ?_ rfl ?_
  · intro e he
    simp only [iprog, scanI, List.mem_cons] at he
    rcases he with rfl | rfl | rfl | rfl | he
    · trivial
    · trivial
    · trivial
    · trivial
    · simp at he
  · decide
  · decide
  · decide
  · intro v hv k
    subst hv
    simp [mkSt]


/-! ## The selective sweep over a marked program -/

theorem withTP_length (l : List (OpCode × List ℤ)) :
    ∀ i v a, (withTP l i v a).length = l.length := by
  induction l with
  | nil => intro i v a; rfl
  | cons r l ih =>
    intro i v a
    obtain ⟨op, args⟩ := r
    simp only [withTP, List.length_cons, ih]

theorem withPos_length (l : List (OpCode × List ℤ)) :
    ∀ i v, (withPos l i v).length = l.length := by
  induction l with
  | nil => intro i v; rfl
  | cons r l ih =>
    intro i v
    obtain ⟨op, args⟩ := r
    simp only [withPos, List.length_cons, ih]

theorem withTP_get (l : List (OpCode × List ℤ)) :
    ∀ (j : Nat) (hj : j < l.length) (i v a : Nat),
    (withTP l i v a).get ⟨j, by rw [withTP_length]; exact hj⟩ =
      ⟨(l.get ⟨j, hj⟩).1, a + argsLen (l.take j), i + j,
        v + resLen (l.take j)⟩ := by
  induction l with
  | nil =>
    intro j hj
    simp at hj
  | cons r l ih =>
    intro j hj i v a
    obtain ⟨op, args⟩ := r
    cases j with
    | zero => simp [withTP, argsLen, resLen]
    | succ j' =>
      have hj' : j' < l.length := by
        simp only [List.length_cons] at hj
        omega
      have h2 := ih j' hj' (i + 1) (v + NumRes op) (a + args.length)
      show (withTP l (i + 1) (v + NumRes op) (a + args.length)).get
        ⟨j', by rw [withTP_length]; exact hj'⟩ = _
      rw [h2]
      simp only [List.take_succ_cons, argsLen, resLen, List.map_cons,
        List.sum_cons, TP.mk.injEq]
      refine ⟨rfl, by omega, by omega, by omega⟩

theorem withPos_get (l : List (OpCode × List ℤ)) :
    ∀ (j : Nat) (hj : j < l.length) (i v : Nat),
    (withPos l i v).get ⟨j, by rw [withPos_length]; exact hj⟩ =
      ⟨(l.get ⟨j, hj⟩).1, (l.get ⟨j, hj⟩).2, i + j,
        v + resLen (l.take j)⟩ := by
  induction l with
  | nil =>
    intro j hj
    simp at hj
  | cons r l ih =>
    intro j hj i v
    obtain ⟨op, args⟩ := r
    cases j with
    | zero => simp [withPos, resLen]
    | succ j' =>
      have hj' : j' < l.length := by
        simp only [List.length_cons] at hj
        omega
      have h2 := ih j' hj' (i + 1) (v + NumRes op)
      show (withPos l (i + 1) (v + NumRes op)).get
        ⟨j', by rw [withPos_length]; exact hj'⟩ = _
      rw [h2]
      simp only [List.take_succ_cons, resLen, List.map_cons,
        List.sum_cons, DRec.mk.injEq]
      refine ⟨rfl, rfl, by omega, by omega⟩

/-- The selective switch over a positioned record list (the order
`myReverseSweep` uses: back to front over the precomputed tape points). -/
def foldDS (ctx : Ctx) (T : Tape) (l : List TP) (st : St) :
    Except (String × St) St :=
  (l.reverse).foldlM
    (fun st tp =>
      stepOpS ctx (fun k => argvAt T (tp.argOff + k)) tp.iop tp.ivar tp.op st)
    st

theorem foldDS_nil (ctx : Ctx) (T : Tape) (st : St) :
    foldDS ctx T [] st = .ok st := rfl

theorem foldDS_append (ctx : Ctx) (T : Tape) (l1 l2 : List TP) (st : St) :
    foldDS ctx T (l1 ++ l2) st =
      match foldDS ctx T l2 st with
      | .error e => .error e
      | .ok st' => foldDS ctx T l1 st' := by
  unfold foldDS
  rw [List.reverse_append, List.foldlM_append]
  cases (l2.reverse).foldlM
      (fun st tp =>
        stepOpS ctx (fun k => argvAt T (tp.argOff + k)) tp.iop tp.ivar tp.op
          st) st with
  | error e => rfl
  | ok st' => rfl

theorem foldDS_single (ctx : Ctx) (T : Tape) (tp : TP) (st : St) :
    foldDS ctx T [tp] st =
      stepOpS ctx (fun k => argvAt T (tp.argOff + k)) tp.iop tp.ivar tp.op
        st := by
  unfold foldDS
  simp only [List.reverse_singleton, List.foldlM_cons, List.foldlM_nil]
  cases stepOpS ctx (fun k => argvAt T (tp.argOff + k)) tp.iop tp.ivar tp.op
      st with
  | error e => rfl
  | ok st' => rfl

theorem foldDS_cons (ctx : Ctx) (T : Tape) (tp : TP) (l : List TP) (st : St) :
    foldDS ctx T (tp :: l) st =
      match foldDS ctx T l st with
      | .error e => .error e
      | .ok st' =>
          stepOpS ctx (fun k => argvAt T (tp.argOff + k)) tp.iop tp.ivar
            tp.op st' := by
  have : tp :: l = [tp] ++ l := rfl
  rw [this, foldDS_append]
  cases foldDS ctx T l st with
  | error e => rfl
  | ok st' =>
    show foldDS ctx T [tp] st' = _
    rw [foldDS_single]

/-- The selective dispatch of one instruction's marked entries. -/
def stepInstrS (ctx : Ctx) (T : Tape) (ins : SInstr) (p : IPos) (st : St) :
    Except (String × St) St :=
  foldDS ctx T (instrTP ins p) st

/-- The selective sweep as an instruction fold. -/
def foldIS (ctx : Ctx) (T : Tape) :
    List (SInstr × IPos) → St → Except (String × St) St
  | [], st => .ok st
  | e :: rest, st =>
    match foldIS ctx T rest st with
    | .error err => .error err
    | .ok st' => stepInstrS ctx T e.1 e.2 st'

theorem myReverseSweep_eq_foldDS (ctx : Ctx) (T : Tape) (L : List TP)
    (st : St) : myReverseSweep ctx T L st = foldDS ctx T L st := rfl

theorem myReverseSweep_flat (ctx : Ctx) (T : Tape)
    (L : List (SInstr × IPos)) (st : St) :
    myReverseSweep ctx T (L.flatMap (fun e => instrTP e.1 e.2)) st =
      foldIS ctx T L st := by
  rw [myReverseSweep_eq_foldDS]
  induction L with
  | nil => rfl
  | cons e L ih =>
    rw [List.flatMap_cons, foldDS_append, foldIS, ih]
    cases foldIS ctx T L st with
    | error err => rfl
    | ok st' => rfl


/-! ## Relating the two switches record by record -/

/-- Two dispatches that fail together (messages may differ) or succeed with
the same state. -/
def StepRel (f g : St → Except (String × St) St) : Prop :=
  ∀ st, (∃ e1 e2, f st = .error e1 ∧ g st = .error e2) ∨
    (∃ st', f st = .ok st' ∧ g st = .ok st')

theorem stepRel_of_eq (f g : St → Except (String × St) St)
    (h : ∀ st, f st = g st) : StepRel f g := by
  intro st
  cases hg : g st with
  | error e => exact Or.inl ⟨e, e, (h st).trans hg, rfl⟩
  | ok st' => exact Or.inr ⟨st', (h st).trans hg, rfl⟩

theorem stepSF_usrap (ctx : Ctx) (f g : Nat → ℤ) (i v i' v' : Nat) (st : St)
    (h0 : f 0 = g 0) :
    stepOpS ctx f i v UsrapOp st = stepOpF ctx g i' v' UsrapOp st := by
  show stepUsrap ctx f st = stepUsrap ctx g st
  exact stepUsrap_congr ctx f g st h0

theorem stepSF_usrav (ctx : Ctx) (f g : Nat → ℤ) (i v i' v' : Nat) (st : St)
    (h0 : f 0 = g 0) :
    stepOpS ctx f i v UsravOp st = stepOpF ctx g i' v' UsravOp st := by
  show stepUsrav ctx f st = stepUsrav ctx g st
  exact stepUsrav_congr ctx f g st h0

theorem stepSF_usrrp (ctx : Ctx) (f g : Nat → ℤ) (i v i' v' : Nat) (st : St)
    (h0 : f 0 = g 0) :
    stepOpS ctx f i v UsrrpOp st = stepOpF ctx g i' v' UsrrpOp st := by
  show stepUsrrp ctx f st = stepUsrrp ctx g st
  exact stepUsrrp_congr ctx f g st h0

theorem stepSF_usrrv (ctx : Ctx) (f g : Nat → ℤ) (i v i' : Nat) (st : St) :
    stepOpS ctx f i v UsrrvOp st = stepOpF ctx g i' v UsrrvOp st := rfl

/-- The `UserOp` markers: with a registered handle the two switches fail
together or succeed with the same state (without one, the full sweep dies at
the End-marker where the selective sweep would not — the C4 contract). -/
theorem stepSF_marker (ctx : Ctx) (f g : Nat → ℤ) (i v i' v' : Nat)
    (h : ∀ k, k < 4 → f k = g k) (atom : Atom)
    (hreg : ctx.reg (g 0).toNat = some atom) :
    StepRel (stepOpS ctx f i v UserOp) (stepOpF ctx g i' v' UserOp) := by
  intro st
  have h0 := h 0 (by omega)
  have h1 := h 1 (by omega)
  have h2 := h 2 (by omega)
  have h3 := h 3 (by omega)
  show (∃ e1 e2, stepUserS ctx f st = .error e1 ∧
      stepUserF ctx g st = .error e2) ∨
    (∃ st', stepUserS ctx f st = .ok st' ∧ stepUserF ctx g st = .ok st')
  cases hust : st.ustate with
  | uEnd =>
    refine Or.inr ⟨{ st with
        uindex := (g 0).toNat
        uid := (g 1).toNat
        un := (g 2).toNat
        um := (g 3).toNat
        uj := (g 2).toNat
        ui := (g 3).toNat
        ustate := .uRet }, ?_, ?_⟩
    · simp only [stepUserS, hust, stepUserEndS, h0, h1, h2, h3]
    · simp only [stepUserF, hust, stepUserEndF, h0, h1, h2, h3, hreg]
  | uStart =>
    by_cases hc : ((g 0).toNat = st.uindex ∧ (g 1).toNat = st.uid ∧
        (g 2).toNat = st.un ∧ (g 3).toNat = st.um)
    · cases hr : ctx.reg st.uindex with
      | none =>
        refine Or.inl
          ⟨(ctx.atomName st.uindex ++ ": user_atomic function not registered",
              st),
            (ctx.atomName st.uindex ++
              ": atomic_base function has been deleted", st), ?_, ?_⟩
        · simp only [stepUserS, hust, stepUserStartS, h0, h1, h2, h3,
            if_neg (not_not_intro hc), hr]
        · simp only [stepUserF, hust, stepUserStartF, h0, h1, h2, h3,
            if_neg (not_not_intro hc), hr]
      | some atom2 =>
        cases hv : atom2.rev ctx.d (trunc (st.un * (ctx.d + 1)) st.utx)
            (trunc (st.um * (ctx.d + 1)) st.uty)
            (trunc (st.um * (ctx.d + 1)) st.upy) with
        | none =>
          refine Or.inl
            ⟨(ctx.atomName st.uindex ++ ": user_atomic reverse failed",
                { st with events :=
                    .cbInvoke st.uindex st.uid ctx.d :: st.events }),
              (ctx.atomName st.uindex ++
                  ": atomic_base.reverse: returned false",
                { st with events :=
                    .cbInvoke st.uindex st.uid ctx.d :: st.events }),
              ?_, ?_⟩
          · simp only [stepUserS, hust, stepUserStartS, h0, h1, h2, h3,
              if_neg (not_not_intro hc), hr, hv]
          · simp only [stepUserF, hust, stepUserStartF, h0, h1, h2, h3,
              if_neg (not_not_intro hc), hr, hv]
        | some px =>
          refine Or.inr ⟨{ st with
              adj := userScatter st.un (ctx.d + 1) st.uix px st.adj
              upx := px
              ustate := .uEnd
              events := .cbInvoke st.uindex st.uid ctx.d :: st.events },
            ?_, ?_⟩
          · simp only [stepUserS, hust, stepUserStartS, h0, h1, h2, h3,
              if_neg (not_not_intro hc), hr, hv]
          · simp only [stepUserF, hust, stepUserStartF, h0, h1, h2, h3,
              if_neg (not_not_intro hc), hr, hv]
    · refine Or.inl ⟨("UserOp marker mismatch (selective)", st),
        ("UserOp marker mismatch", st), ?_, ?_⟩
      · simp only [stepUserS, hust, stepUserStartS, h0, h1, h2, h3,
          if_pos hc]
      · simp only [stepUserF, hust, stepUserStartF, h0, h1, h2, h3,
          if_pos hc]
  | uArg =>
    refine Or.inl ⟨("UserOp: user_state (selective)", st),
      ("UserOp: user_state", st), ?_, ?_⟩
    · simp only [stepUserS, hust]
    · simp only [stepUserF, hust]
  | uRet =>
    refine Or.inl ⟨("UserOp: user_state (selective)", st),
      ("UserOp: user_state", st), ?_, ?_⟩
    · simp only [stepUserS, hust]
    · simp only [stepUserF, hust]

/-- Every record of an atomic group is a marker carrying the group tuple or
a token whose block length is its table arity. -/
theorem encode1_atomic_cases (ai aid : Nat) (ats : List ArgTok)
    (rts : List ResTok) :
    ∀ r ∈ encode1 (.atomic ai aid ats rts),
      (r.1 = UserOp ∧
        r.2 = [(ai : ℤ), (aid : ℤ), (ats.length : ℤ), (rts.length : ℤ)]) ∨
      ((r.1 = UsrapOp ∨ r.1 = UsravOp ∨ r.1 = UsrrpOp ∨ r.1 = UsrrvOp) ∧
        r.2.length = NumArg r.1) := by
  intro r hr
  simp only [encode1, List.mem_cons, List.mem_append, List.mem_map,
    List.mem_singleton] at hr
  rcases hr with rfl | hmid | rfl | h0
  · exact Or.inl ⟨rfl, rfl⟩
  · rcases hmid with ⟨t, _, rfl⟩ | ⟨t, _, rfl⟩ <;> cases t <;>
      simp [encTokA, encTokR, NumArg]
  · exact Or.inl ⟨rfl, rfl⟩
  · simp at h0

/-- Fold-level transport of the record relation. -/
theorem foldSF_rel (ctx : Ctx) (T : Tape) :
    ∀ (l : List TP) (l' : List DRec), l.length = l'.length →
    (∀ j (hj : j < l.length) (hj' : j < l'.length), StepRel
      (stepOpS ctx (fun k => argvAt T ((l.get ⟨j, hj⟩).argOff + k))
        (l.get ⟨j, hj⟩).iop (l.get ⟨j, hj⟩).ivar (l.get ⟨j, hj⟩).op)
      (stepOpF ctx (fun k => (l'.get ⟨j, hj'⟩).args.getD k 0)
        (l'.get ⟨j, hj'⟩).iop (l'.get ⟨j, hj'⟩).ivar (l'.get ⟨j, hj'⟩).op)) →
    ∀ st : St,
    (∃ e1 e2, foldDS ctx T l st = .error e1 ∧ foldDF ctx l' st = .error e2) ∨
    (∃ st', foldDS ctx T l st = .ok st' ∧ foldDF ctx l' st = .ok st') := by
  intro l
  induction l with
  | nil =>
    intro l' hlen hrel st
    cases l' with
    | nil => exact Or.inr ⟨st, rfl, rfl⟩
    | cons r l' => simp at hlen
  | cons tp l ih =>
    intro l' hlen hrel st
    cases l' with
    | nil => simp at hlen
    | cons r l' =>
      have hlen' : l.length = l'.length := by
        simp only [List.length_cons] at hlen
        omega
      have ihl := ih l' hlen'
        (fun j hj hj' => hrel (j + 1)
          (by simp only [List.length_cons]; omega)
          (by simp only [List.length_cons]; omega)) st
      rcases ihl with ⟨e1, e2, hS, hF⟩ | ⟨st1, hS, hF⟩
      · refine Or.inl ⟨e1, e2, ?_, ?_⟩
        · rw [foldDS_cons, hS]
        · rw [foldDF_cons, hF]
      · have h0 := hrel 0 (by simp only [List.length_cons]; omega)
          (by simp only [List.length_cons]; omega) st1
        rcases h0 with ⟨e1, e2, hS0, hF0⟩ | ⟨st2, hS0, hF0⟩
        · refine Or.inl ⟨e1, e2, ?_, ?_⟩
          · rw [foldDS_cons, hS]
            exact hS0
          · rw [foldDF_cons, hF]
            exact hF0
        · refine Or.inr ⟨st2, ?_, ?_⟩
          · rw [foldDS_cons, hS]
            exact hS0
          · rw [foldDF_cons, hF]
            exact hF0


/-- Reading an instruction's argument blocks off the recorded tape, from its
membership in the positioned program. -/
theorem iprog_args (prog : List SInstr) (ins : SInstr) (p : IPos)
    (hmem : (ins, p) ∈ iprog prog) :
    ∀ j (h : j < (encode1 ins).length), ∀ k,
      k < ((encode1 ins).get ⟨j, h⟩).2.length →
      argvAt (tapeOf prog) (p.argB + argsLen ((encode1 ins).take j) + k) =
        ((encode1 ins).get ⟨j, h⟩).2.getD k 0 := by
  obtain ⟨pre, suf, hsplit, hp⟩ := iprog_split prog ins p hmem
  have hrec : recsOf prog = recsOf pre ++ (encode1 ins ++ recsOf suf) := by
    rw [hsplit, recsOf_append, show ins :: suf = [ins] ++ suf from rfl,
      recsOf_append]
    congr 1
    simp [recsOf]
  have hargl : argsLen (recsOf pre) = argSum pre := recsOf_argsLen pre
  have hargB : p.argB = 1 + argSum pre := by rw [hp]; rfl
  intro j h k hk
  have hget : (encode1 ins ++ recsOf suf).get
      ⟨j, by simp only [List.length_append]; omega⟩ =
      (encode1 ins).get ⟨j, h⟩ := List.get_append j h
  have h2 := tape_argv_at prog (recsOf pre) (encode1 ins ++ recsOf suf)
    hrec j (by simp only [List.length_append]; omega) k
    (by rw [hget]; exact hk)
  rw [List.take_append_of_le_length (by omega), hget, hargl] at h2
  rw [hargB]
  exact h2

/-- The selective and full dispatch of one atomic group, from a tape
position, fail together or succeed with the same state. -/
theorem stepInstrSF_atomic_rel (ctx : Ctx) (prog : List SInstr)
    (ai aid : Nat) (ats : List ArgTok) (rts : List ResTok) (p : IPos)
    (hmem : (SInstr.atomic ai aid ats rts, p) ∈ iprog prog)
    (atom : Atom) (hreg : ctx.reg ai = some atom) (st : St) :
    (∃ e1 e2,
      stepInstrS ctx (tapeOf prog) (.atomic ai aid ats rts) p st =
        .error e1 ∧
      stepInstrF ctx (.atomic ai aid ats rts) p st = .error e2) ∨
    (∃ st',
      stepInstrS ctx (tapeOf prog) (.atomic ai aid ats rts) p st =
        .ok st' ∧
      stepInstrF ctx (.atomic ai aid ats rts) p st = .ok st') := by
  have hargs := iprog_args prog _ p hmem
  have hlen : (instrTP (.atomic ai aid ats rts) p).length =
      (instrDR (.atomic ai aid ats rts) p).length := by
    rw [instrTP, instrDR, withTP_length, withPos_length]
  refine foldSF_rel ctx (tapeOf prog) (instrTP (.atomic ai aid ats rts) p)
    (instrDR (.atomic ai aid ats rts) p) hlen ?_ st
  intro j hj hj'
  have hjE : j < (encode1 (SInstr.atomic ai aid ats rts)).length := by
    rw [instrTP, withTP_length] at hj
    exact hj
  have hTP := withTP_get (encode1 (SInstr.atomic ai aid ats rts)) j hjE
    p.opB p.varB p.argB
  have hDR := withPos_get (encode1 (SInstr.atomic ai aid ats rts)) j hjE
    p.opB p.varB
  rw [show (instrTP (SInstr.atomic ai aid ats rts) p).get ⟨j, hj⟩ =
      (⟨((encode1 (SInstr.atomic ai aid ats rts)).get ⟨j, hjE⟩).1,
        p.argB + argsLen ((encode1 (SInstr.atomic ai aid ats rts)).take j),
        p.opB + j,
        p.varB +
          resLen ((encode1 (SInstr.atomic ai aid ats rts)).take j)⟩ : TP)
      from hTP,
    show (instrDR (SInstr.atomic ai aid ats rts) p).get ⟨j, hj'⟩ =
      (⟨((encode1 (SInstr.atomic ai aid ats rts)).get ⟨j, hjE⟩).1,
        ((encode1 (SInstr.atomic ai aid ats rts)).get ⟨j, hjE⟩).2,
        p.opB + j,
        p.varB +
          resLen ((encode1 (SInstr.atomic ai aid ats rts)).take j)⟩ : DRec)
      from hDR]
  have hagree := hargs j hjE
  have hcase := encode1_atomic_cases ai aid ats rts
    ((encode1 (SInstr.atomic ai aid ats rts)).get ⟨j, hjE⟩)
    (List.get_mem _ _ _)
  rcases hcase with ⟨hop, hargsEq⟩ | ⟨hops', hlen'⟩
  · rw [hop]
    refine stepSF_marker ctx _ _ _ _ _ _ ?_ atom ?_
    · intro k hk
      refine hagree k ?_
      rw [hargsEq]
      exact hk
    · simp only [hargsEq, List.getD_cons_zero, Int.toNat_natCast]
      exact hreg
  · rcases hops' with hop | hop | hop | hop <;> rw [hop]
    · refine stepRel_of_eq _ _ (fun st2 => stepSF_usrap ctx _ _ _ _ _ _ st2
        (hagree 0 (by rw [hlen', hop]; decide)))
    · refine stepRel_of_eq _ _ (fun st2 => stepSF_usrav ctx _ _ _ _ _ _ st2
        (hagree 0 (by rw [hlen', hop]; decide)))
    · refine stepRel_of_eq _ _ (fun st2 => stepSF_usrrp ctx _ _ _ _ _ _ st2
        (hagree 0 (by rw [hlen', hop]; decide)))
    · exact stepRel_of_eq _ _ (fun st2 => stepSF_usrrv ctx _ _ _ _ _ st2)


/-- Is the instruction an indirect load? (the selective sweep's divergent
case: it dispatches the map-less overload). -/
def isLoadB : SInstr → Bool
  | .ldp _ _ _ => true
  | .ldv _ _ _ => true
  | _ => false

/-- One load-free instruction under the selective switch succeeds with the
same Adjoint-Matrix action `adjF` as the full switch, leaving the protocol
at `end`. -/
theorem stepInstrS_spec (ctx : Ctx) (prog : List SInstr) (ins : SInstr)
    (p : IPos) (st : St) (hmem : (ins, p) ∈ iprog prog)
    (hld : isLoadB ins = false) (hG : GroupOk ctx ins)
    (hst : st.ustate = .uEnd) :
    ∃ st', stepInstrS ctx (tapeOf prog) ins p st = .ok st' ∧
      st'.adj = adjF ctx ins p st.adj ∧ st'.ustate = .uEnd := by
  have hargs := iprog_args prog ins p hmem
  cases ins with
  | inv =>
    refine ⟨st, ?_, rfl, hst⟩
    show foldDS ctx (tapeOf prog) (instrTP SInstr.inv p) st = .ok st
    rw [show instrTP SInstr.inv p = [⟨InvOp, p.argB, p.opB, p.varB⟩] from
      rfl, foldDS_single]
    rfl
  | addvv a b =>
    have h0 : argvAt (tapeOf prog) (p.argB + 0) = (a : ℤ) :=
      hargs 0 Nat.zero_lt_one 0 Nat.zero_lt_two
    have h1 : argvAt (tapeOf prog) (p.argB + 1) = (b : ℤ) :=
      hargs 0 Nat.zero_lt_one 1 Nat.one_lt_two
    refine ⟨{ st with adj := reverse_addvv_op ctx.d p.varB a b st.adj },
      ?_, rfl, hst⟩
    show foldDS ctx (tapeOf prog) (instrTP (SInstr.addvv a b) p) st = _
    rw [show instrTP (SInstr.addvv a b) p =
      [⟨AddvvOp, p.argB, p.opB, p.varB⟩] from rfl, foldDS_single]
    have hstep : stepOpS ctx
        (fun k => argvAt (tapeOf prog) (p.argB + k)) p.opB p.varB AddvvOp
        st = .ok { st with
          adj := reverse_addvv_op ctx.d p.varB a b st.adj } := by
      simp only [stepOpS]
      rw [h0, h1, Int.toNat_natCast, Int.toNat_natCast]
    exact hstep
  | mulvv a b =>
    have h0 : argvAt (tapeOf prog) (p.argB + 0) = (a : ℤ) :=
      hargs 0 Nat.zero_lt_one 0 Nat.zero_lt_two
    have h1 : argvAt (tapeOf prog) (p.argB + 1) = (b : ℤ) :=
      hargs 0 Nat.zero_lt_one 1 Nat.one_lt_two
    refine ⟨{ st with
      adj := reverse_mulvv_op ctx.d p.varB a b ctx.taylor st.adj },
      ?_, rfl, hst⟩
    show foldDS ctx (tapeOf prog) (instrTP (SInstr.mulvv a b) p) st = _
    rw [show instrTP (SInstr.mulvv a b) p =
      [⟨MulvvOp, p.argB, p.opB, p.varB⟩] from rfl, foldDS_single]
    have hstep : stepOpS ctx
        (fun k => argvAt (tapeOf prog) (p.argB + k)) p.opB p.varB MulvvOp
        st = .ok { st with
          adj := reverse_mulvv_op ctx.d p.varB a b ctx.taylor st.adj } := by
      simp only [stepOpS]
      rw [h0, h1, Int.toNat_natCast, Int.toNat_natCast]
    exact hstep
  | csum adds subs q =>
    have hargv : ∀ k, k < (csumArgs adds subs q).length →
        argvAt (tapeOf prog) (p.argB + k) =
          (csumArgs adds subs q).getD k 0 :=
      fun k hk => hargs 0 Nat.zero_lt_one k hk
    refine ⟨{ st with adj := (reverse_csum_op ctx.d p.varB
      (fun k => (csumArgs adds subs q).getD k 0) st.adj) }, ?_, rfl, hst⟩
    show foldDS ctx (tapeOf prog) (instrTP (SInstr.csum adds subs q) p) st
      = _
    rw [show instrTP (SInstr.csum adds subs q) p =
      [⟨CSumOp, p.argB, p.opB, p.varB⟩] from rfl, foldDS_single]
    have hstep : stepOpS ctx
        (fun k => argvAt (tapeOf prog) (p.argB + k)) p.opB p.varB CSumOp
        st = .ok { st with adj := (reverse_csum_op ctx.d p.varB
          (fun k => (csumArgs adds subs q).getD k 0) st.adj) } := by
      simp only [stepOpS]
      rw [reverse_csum_op_congr ctx.d p.varB _
        (fun k => (csumArgs adds subs q).getD k 0) st.adj ?_]
      intro k hk
      refine hargv k ?_
      have e0 : (((csumArgs adds subs q).getD 0 0)).toNat = adds.length := by
        rw [show (csumArgs adds subs q).getD 0 0 = (adds.length : ℤ) from
          rfl, Int.toNat_natCast]
      have e1 : (((csumArgs adds subs q).getD 1 0)).toNat = subs.length := by
        rw [show (csumArgs adds subs q).getD 1 0 = (subs.length : ℤ) from
          rfl, Int.toNat_natCast]
      simp only at hk
      rw [e0, e1] at hk
      rw [csumArgs_length]
      omega
    exact hstep
  | cskip c1 c2 c3 c4 c5 c6 idx =>
    refine ⟨st, ?_, rfl, hst⟩
    show foldDS ctx (tapeOf prog)
      (instrTP (SInstr.cskip c1 c2 c3 c4 c5 c6 idx) p) st = .ok st
    rw [show instrTP (SInstr.cskip c1 c2 c3 c4 c5 c6 idx) p =
      [⟨CSkipOp, p.argB, p.opB, p.varB⟩] from rfl, foldDS_single]
    rfl
  | ldp x y ld => exact Bool.noConfusion hld
  | ldv x y ld => exact Bool.noConfusion hld
  | atomic ai aid ats rts =>
    obtain ⟨hn, hm, atom, hreg, hAok⟩ := hG
    obtain ⟨stF, hstepF, hadjF, hustF⟩ :=
      stepInstrF_spec ctx (.atomic ai aid ats rts) p st
        ⟨hn, hm, atom, hreg, hAok⟩ hst
    rcases stepInstrSF_atomic_rel ctx prog ai aid ats rts p hmem atom hreg
        st with ⟨e1, e2, hS, hF⟩ | ⟨st', hS, hF⟩
    · rw [hstepF] at hF
      exact Except.noConfusion hF
    · rw [hstepF] at hF
      have hstF : stF = st' := Except.ok.inj hF
      exact ⟨st', hS, hstF ▸ hadjF, hstF ▸ hustF⟩


/-- The selective instruction fold agrees with the full instruction fold on
load-free, well-formed instructions: same success, same Adjoint Matrix. -/
theorem foldIS_adj (ctx : Ctx) (prog : List SInstr)
    (l : List (SInstr × IPos))
    (hsub : ∀ e ∈ l, e ∈ iprog prog)
    (hld : ∀ e ∈ l, isLoadB e.1 = false)
    (hG : ∀ e ∈ l, GroupOk ctx e.1)
    (st : St) (hst : st.ustate = .uEnd) :
    ∃ st1 st2, foldIS ctx (tapeOf prog) l st = .ok st1 ∧
      foldIF ctx l st = .ok st2 ∧ st1.adj = st2.adj ∧
      st1.ustate = .uEnd ∧ st2.ustate = .uEnd := by
  induction l with
  | nil => exact ⟨st, st, rfl, rfl, rfl, hst, hst⟩
  | cons e l ih =>
    obtain ⟨st1, st2, h1, h2, hadj, hu1, hu2⟩ :=
      ih (fun e' he' => hsub e' (List.mem_cons_of_mem e he'))
        (fun e' he' => hld e' (List.mem_cons_of_mem e he'))
        (fun e' he' => hG e' (List.mem_cons_of_mem e he'))
    have hGe : GroupOk ctx e.1 := hG e (List.mem_cons_self e l)
    obtain ⟨st1', hs1, ha1, hu1'⟩ :=
      stepInstrS_spec ctx prog e.1 e.2 st1
        (by rw [show (e.1, e.2) = e from rfl]
            exact hsub e (List.mem_cons_self e l))
        (hld e (List.mem_cons_self e l)) hGe hu1
    obtain ⟨st2', hs2, ha2, hu2'⟩ := stepInstrF_spec ctx e.1 e.2 st2 hGe hu2
    refine ⟨st1', st2', ?_, ?_, ?_, hu1', hu2'⟩
    · rw [foldIS, h1]
      exact hs1
    · simp only [foldIF, h2]
      exact hs2
    · rw [ha1, ha2, hadj]

/-- C1 (amended): on load-free tapes, for a marked-operator list precomputed
from an instruction subset that is dependency-sufficient for the seeds — the
unmarked instructions' result rows lie in a zero-seeded row set `Z` that no
marked instruction writes — the Selective Reverse Sweep leaves the Adjoint
Matrix in exactly the state the Full Reverse Sweep (all-false skip mask)
leaves it in, for every variable row and every order.  (The unamended claim,
refuted by `C1_counterexample`, also covered tapes with indirect-load
records; `myReverseSweep` is called without `var_by_load_op`, so its load
dispatch cannot consult the Load-Indirection Map and the two sweeps
diverge there.) -/
theorem C1_selective_equiv (ctx : Ctx) (prog : List SInstr)
    (M : Nat → Bool) (Z : Nat → Prop) (st0 : St)
    (hG : ∀ e ∈ iprog prog, GroupOk ctx e.1)
    (hld : ∀ e ∈ iprog prog, isLoadB e.1 = false)
    (hdead : ∀ e ∈ iprog prog, M e.2.idx = false →
      ∀ v ∈ resRows e.1 e.2, Z v)
    (hlive : ∀ e ∈ iprog prog, M e.2.idx = true →
      ∀ v ∈ writeSet ctx e.1, ¬ Z v)
    (hst : st0.ustate = .uEnd) (hz : ∀ v, Z v → ∀ k, st0.adj v k = 0) :
    ∃ stS out,
      myReverseSweep ctx (tapeOf prog) (markedTP prog M) st0 = .ok stS ∧
      ReverseSweep ctx (numvarOf (tapeOf prog)) (tapeOf prog)
        (fun _ => false) st0 = .ok out ∧
      ∀ v k, stS.adj v k = out.st.adj v k := by
  have hMrw : myReverseSweep ctx (tapeOf prog) (markedTP prog M) st0 =
      foldIS ctx (tapeOf prog)
        ((iprog prog).filter (fun e => M e.2.idx)) st0 :=
    myReverseSweep_flat ctx (tapeOf prog)
      ((iprog prog).filter (fun e => M e.2.idx)) st0
  obtain ⟨stS, st2, hS, hFt, hadjS, huS, hu2⟩ :=
    foldIS_adj ctx prog ((iprog prog).filter (fun e => M e.2.idx))
      (fun e he => (List.mem_filter.mp he).1)
      (fun e he => hld e (List.mem_filter.mp he).1)
      (fun e he => hG e (List.mem_filter.mp he).1)
      st0 hst
  obtain ⟨stFull, st2', hFull, hFilt', hadjF, _, _, _⟩ :=
    foldIF_filter ctx (fun e => M e.2.idx) Z (iprog prog) hG
      (fun e he hl => hdead e he hl)
      (fun e he hl => hlive e he hl)
      st0 hst hz
  have hst2eq : st2 = st2' := Except.ok.inj (hFt.symm.trans hFilt')
  have hAll : foldIM ctx (fun e => !(fun _ : Nat => false) e.2.idx)
      (iprog prog) st0 = .ok stFull := by
    rw [foldIM_all_live ctx (fun e => !(fun _ : Nat => false) e.2.idx)
      (iprog prog) (fun e _ => rfl) st0]
    exact hFull
  refine ⟨stS, ⟨stFull, 0, 0, BeginOp⟩, ?_, ?_, ?_⟩
  · rw [hMrw]
    exact hS
  · rw [show (fun _ : Nat => false) = maskOf prog (fun _ => false) from
      (maskOf_false prog).symm,
      ReverseSweep_prog ctx prog (fun _ => false)
        (fun e _ h => Bool.noConfusion h) st0, hAll]
  · intro v k
    show stS.adj v k = stFull.adj v k
    rw [hadjS, hst2eq, ← hadjF]


/-- Witness for C1 (amended): a load-free program (`y1 = x1 + x2`,
`y2 = x1 + x1`) with a marked-operator list omitting only the addition that
feeds `y1`; seeding only `y2`'s row, the selective sweep and the full
(all-false-mask) sweep agree on every adjoint entry. -/
theorem C1_witness :
    ∃ stS out,
      myReverseSweep
        { d := 0, taylor := fun _ _ => 0, par := fun _ => 0,
          reg := fun _ => none, atomName := fun _ => "f",
          ldmap := fun _ => 0 }
        (tapeOf [SInstr.inv, SInstr.inv, SInstr.addvv 1 2, SInstr.addvv 1 1])
        (markedTP [SInstr.inv, SInstr.inv, SInstr.addvv 1 2,
          SInstr.addvv 1 1] (fun i => !decide (i = 2)))
        (mkSt (fun i k => if i = 4 ∧ k = 0 then 1 else 0)) = .ok stS ∧
      ReverseSweep
        { d := 0, taylor := fun _ _ => 0, par := fun _ => 0,
          reg := fun _ => none, atomName := fun _ => "f",
          ldmap := fun _ => 0 }
        (numvarOf (tapeOf [SInstr.inv, SInstr.inv, SInstr.addvv 1 2,
          SInstr.addvv 1 1]))
        (tapeOf [SInstr.inv, SInstr.inv, SInstr.addvv 1 2, SInstr.addvv 1 1])
        (fun _ => false)
        (mkSt (fun i k => if i = 4 ∧ k = 0 then 1 else 0)) = .ok out ∧
      ∀ v k, stS.adj v k = out.st.adj v k := by
  refine C1_selective_equiv _ _ (fun i => !decide (i = 2)) (fun v => v = 3)
    _ ?_ ?_ ?_ ?_ rfl ?_
  · intro e he
    simp only [iprog, scanI, List.mem_cons] at he
    rcases he with rfl | rfl | rfl | rfl | he
    · trivial
    · trivial
    · trivial
    · trivial
    · simp at he
  · decide
  · decide
  · decide
  · intro v hv k
    subst hv
    simp [mkSt]

end RevSweep
